import Mathlib

/-!
# govm: a verification development of the version lifecycle engine

Shallow embedding of the Go sources under `internal/config` and
`internal/version`:

* Go strings are lists of characters (`GoString`); the `strings` and
  `path/filepath` helpers the sources call are modelled on such lists.
* The file system is explicit state (`FS`): a finite table from resolved
  locations to nodes (regular file, directory, symbolic link), together with
  the path resolution the operating system performs (symbolic links are
  followed component by component, at most `maxSymlinks` times).  Permission
  bits are not modelled: every operation is performed with sufficient
  privileges.
* Functions that touch the disk take the file system as an argument and return
  the new file system together with their Go result.
* The network (catalog fetch, archive transfer) and SHA-256 are parameters.
* The version library github.com/hashicorp/go-version and `sort.Slice` are
  parameters (`Libs`); what the theorems need of them is stated as hypotheses
  (`Libs.OrderedOn`, `Libs.Sorts`).
* The content of a manifest is bytes; a line is read as the code points Go
  sees in it.
-/

namespace Govm

/-! ## Strings -/

/-- A Go string, as its sequence of code points. -/
abbrev GoString := List Char

/-- File contents. -/
abbrev Bytes := List Nat

/-- Go `unicode.IsSpace`: the white space characters of Unicode. -/
def isSpace (c : Char) : Bool :=
  let n := c.toNat
  (9 ≤ n && n ≤ 13) || n == 32 || n == 0x85 || n == 0xA0 || n == 0x1680 ||
    (0x2000 ≤ n && n ≤ 0x200A) || n == 0x2028 || n == 0x2029 || n == 0x202F ||
    n == 0x205F || n == 0x3000

/-- Go `strings.HasPrefix`. -/
def HasPrefix (s pre : GoString) : Bool := pre.isPrefixOf s

/-- Go `strings.TrimPrefix`: drops one leading occurrence of `pre`, if any. -/
def TrimPrefix (s pre : GoString) : GoString :=
  if HasPrefix s pre then s.drop pre.length else s

/-- Go `strings.TrimSpace`: drops leading and trailing white space. -/
def TrimSpace (s : GoString) : GoString :=
  (s.dropWhile isSpace).rdropWhile isSpace

/-! ## Errors -/

/-- The operating system error numbers the model distinguishes. -/
inductive Errno where
  | ENOENT | ENOTDIR | EEXIST | ELOOP | ENOTEMPTY | EISDIR | EINVAL | EBUSY | EXDEV | EIO
  deriving DecidableEq, Repr

/-- Go error values: a system error, a formatted message, or a message
wrapping a cause (`fmt.Errorf` with `%w`). -/
inductive Err where
  | sys (e : Errno)
  | msg (text : String)
  | wrap (text : String) (cause : Err)
  deriving DecidableEq, Repr

/-- Equality of results is decidable. -/
instance instDecidableEqExcept {ε α : Type} [DecidableEq ε] [DecidableEq α] :
    DecidableEq (Except ε α) := fun a b =>
  match a, b with
  | .ok x, .ok y => if h : x = y then isTrue (by rw [h]) else isFalse (by intro e; cases e; exact h rfl)
  | .error x, .error y =>
    if h : x = y then isTrue (by rw [h]) else isFalse (by intro e; cases e; exact h rfl)
  | .ok _, .error _ => isFalse (by intro e; cases e)
  | .error _, .ok _ => isFalse (by intro e; cases e)

/-- Go `os.IsNotExist` on a system error. -/
def IsNotExist (e : Errno) : Bool := e == Errno.ENOENT

/-! ## internal/config: configuration and aliases -/

/-- A Go `map[string]string`, as an association list read by first match. -/
abbrev StrMap := List (GoString × GoString)

/-- Map read `m[k]` with the comma-ok result. -/
def mapGet : StrMap → GoString → Option GoString
  | [], _ => none
  | (k, v) :: rest, key => if k = key then some v else mapGet rest key

/-- Map write `m[k] = v`. -/
def mapSet (m : StrMap) (key value : GoString) : StrMap :=
  (key, value) :: m.filter (fun e => e.1 ≠ key)

/-- Map `delete(m, k)`. -/
def mapDelete (m : StrMap) (key : GoString) : StrMap :=
  m.filter (fun e => e.1 ≠ key)

/-- The `Config` struct; a nil `Aliases` map is `none`. -/
structure Config where
  DefaultVersion : GoString
  AutoInstall : Bool
  InheritVersion : Bool
  Aliases : Option StrMap
  deriving DecidableEq, Repr

/-- The `DefaultConfig` function: auto-install on, the two reserved aliases
seeded with empty targets. -/
def DefaultConfig : Config :=
  { DefaultVersion := []
    AutoInstall := true
    InheritVersion := false
    Aliases := some [("stable".toList, []), ("latest".toList, [])] }

/-- The `NormalizeVersion` function of aliases.go. -/
def NormalizeVersion (version : GoString) : GoString :=
  let version := TrimPrefix version "go".toList
  let version := TrimPrefix version "v".toList
  let version := TrimSpace version
  version

/-- The `GetAlias` function, on the loaded configuration `cfg`. -/
def GetAlias (cfg : Config) (name : GoString) : GoString × Bool :=
  match cfg.Aliases with
  | none => ([], false)
  | some m =>
    match mapGet m name with
    | some version => (version, true)
    | none => ([], false)

/-- The `IsAlias` function. -/
def IsAlias (cfg : Config) (name : GoString) : Bool :=
  match cfg.Aliases with
  | none => false
  | some m => (mapGet m name).isSome

/-- The `Get` function.  `loaded` is the package variable `cfg` once `Load`
has run: nil (`none`) when `GetPaths` failed, and then every call of `Get`
returns fresh defaults. -/
def Get (loaded : Option Config) : Config :=
  match loaded with
  | some c => c
  | none => DefaultConfig

/-- What a function that changes the configuration leaves behind: the package
variable `cfg`, the configuration it handed to `Save` (if it called `Save`),
and the error it returns. -/
structure Change where
  cfg : Option Config
  saved : Option Config
  err : Option Err
  deriving DecidableEq, Repr

/-- The `SetAlias` function.  The object `Get` returns is updated in place and
handed to `Save`, whose outcome is `saveResult`.  When no configuration is
loaded that object is a fresh one, which the package variable does not keep. -/
def SetAlias (loaded : Option Config) (saveResult : Option Err) (name version : GoString) :
    Change :=
  let cfg := Get loaded
  let aliases := match cfg.Aliases with
    | none => []
    | some m => m
  let version := NormalizeVersion version
  let cfg := { cfg with Aliases := some (mapSet aliases name version) }
  { cfg := loaded.map (fun _ => cfg), saved := some cfg, err := saveResult }

/-- The `RemoveAlias` function. -/
def RemoveAlias (loaded : Option Config) (saveResult : Option Err) (name : GoString) :
    Change :=
  let cfg := Get loaded
  match cfg.Aliases with
  | none => { cfg := loaded, saved := none, err := none }
  | some m =>
    let cfg := { cfg with Aliases := some (mapDelete m name) }
    { cfg := loaded.map (fun _ => cfg), saved := some cfg, err := saveResult }

/-- The `ResolveVersion` function. -/
def ResolveVersion (cfg : Config) (input : GoString) : GoString :=
  let (version, ok) := GetAlias cfg input
  if ok && version ≠ [] then version else NormalizeVersion input

/-! ## path/filepath (Unix) -/

/-- Splits a string at every slash; the result is never empty. -/
def splitSlash : GoString → List GoString
  | [] => [[]]
  | c :: cs =>
    if c = '/' then [] :: splitSlash cs
    else
      match splitSlash cs with
      | [] => [[c]]
      | x :: xs => (c :: x) :: xs

/-- Joins path elements with single slashes (Go `strings.Join` with "/"). -/
def joinSlash : List GoString → GoString
  | [] => []
  | [x] => x
  | x :: y :: rest => x ++ '/' :: joinSlash (y :: rest)

/-- The element pass of `filepath.Clean`.  `st` is the stack of elements kept
so far, top first. -/
def cleanElems (rooted : Bool) : List GoString → List GoString → List GoString
  | st, [] => st.reverse
  | st, c :: cs =>
    if c = [] ∨ c = ".".toList then cleanElems rooted st cs
    else if c = "..".toList then
      match st with
      | [] => if rooted then cleanElems rooted [] cs else cleanElems rooted [c] cs
      | top :: below =>
        if top = "..".toList then cleanElems rooted (c :: st) cs
        else cleanElems rooted below cs
    else cleanElems rooted (c :: st) cs

/-- Go `filepath.Clean`. -/
def Clean (path : GoString) : GoString :=
  if path = [] then ".".toList
  else
    let rooted := path.head? = some '/'
    let out := cleanElems rooted [] (splitSlash path)
    if rooted then '/' :: joinSlash out
    else if out = [] then ".".toList
    else joinSlash out

/-- Go `filepath.Join`: leading empty elements are ignored, the rest is joined
with slashes and cleaned. -/
def Join (elem : List GoString) : GoString :=
  match elem.dropWhile (fun e => e = []) with
  | [] => []
  | es => Clean (joinSlash es)

/-- Go `filepath.Dir`. -/
def Dir (path : GoString) : GoString :=
  Clean (path.rdropWhile (fun c => c ≠ '/'))

/-- Go `filepath.Base`. -/
def Base (path : GoString) : GoString :=
  if path = [] then ".".toList
  else
    let p := path.rdropWhile (fun c => c = '/')
    let last := p.rtakeWhile (fun c => c ≠ '/')
    if last = [] then "/".toList else last

/-! ## The file system -/

/-- A resolved location: the names from the root directory down. -/
abbrev Path := List GoString

/-- What a location holds. -/
inductive Node where
  | file (data : Bytes)
  | dir
  | link (target : GoString)
  deriving DecidableEq, Repr

/-- The file system: the nodes below the root directory and the working
directory of the process. -/
structure FS where
  nodes : List (Path × Node)
  cwd : Path
  deriving DecidableEq, Repr

/-- First entry of the table at a location. -/
def lookupNode : List (Path × Node) → Path → Option Node
  | [], _ => none
  | (q, n) :: rest, p => if q = p then some n else lookupNode rest p

/-- The node at a resolved location; the root is always a directory. -/
def FS.get (fs : FS) (p : Path) : Option Node :=
  if p = [] then some Node.dir else lookupNode fs.nodes p

/-- Puts a node at a location. -/
def FS.set (fs : FS) (p : Path) (n : Node) : FS :=
  { fs with nodes := (p, n) :: fs.nodes.filter (fun e => e.1 ≠ p) }

/-- Removes the node at a location. -/
def FS.erase (fs : FS) (p : Path) : FS :=
  { fs with nodes := fs.nodes.filter (fun e => e.1 ≠ p) }

/-- Removes a location and everything below it. -/
def FS.removeTree (fs : FS) (p : Path) : FS :=
  { fs with nodes := fs.nodes.filter (fun e => ¬ p.isPrefixOf e.1) }

/-- Whether anything lies strictly below a location. -/
def FS.hasChildren (fs : FS) (p : Path) : Bool :=
  fs.nodes.any (fun e => p.isPrefixOf e.1 && decide (e.1 ≠ p))

/-- The number of symbolic links one path resolution may follow. -/
def maxSymlinks : Nat := 40

/-- Whether a path string is absolute. -/
def isAbs (path : GoString) : Bool := path.head? = some '/'

/-- One pass over the components of a path, from the directory `cur`.
`onLink target cur rest` continues the resolution when a symbolic link has to
be followed.  With `follow = false` a symbolic link in the last component is
not followed.  The result is the location of the last component, whose node
may be absent. -/
def walkComps (fs : FS) (onLink : GoString → Path → List GoString → Except Errno Path)
    (follow : Bool) : List GoString → Path → Except Errno Path
  | [], cur => .ok cur
  | c :: rest, cur =>
    if c = [] ∨ c = ".".toList then walkComps fs onLink follow rest cur
    else if c = "..".toList then walkComps fs onLink follow rest cur.dropLast
    else
      match fs.get (cur ++ [c]) with
      | none => if rest = [] then .ok (cur ++ [c]) else .error Errno.ENOENT
      | some Node.dir => walkComps fs onLink follow rest (cur ++ [c])
      | some (Node.file _) => if rest = [] then .ok (cur ++ [c]) else .error Errno.ENOTDIR
      | some (Node.link t) =>
        if rest = [] ∧ follow = false then .ok (cur ++ [c]) else onLink t cur rest

/-- Path resolution with a budget of symbolic links to follow. -/
def walk (fs : FS) (follow : Bool) : Nat → List GoString → Path → Except Errno Path
  | 0 => walkComps fs (fun _ _ _ => .error Errno.ELOOP) follow
  | n + 1 =>
    walkComps fs
      (fun t cur rest =>
        if t = [] then .error Errno.ENOENT
        else walk fs follow n (splitSlash t ++ rest) (if isAbs t then [] else cur))
      follow

/-- Resolution of a path string to a location. -/
def resolve (fs : FS) (follow : Bool) (path : GoString) : Except Errno Path :=
  if path = [] then .error Errno.ENOENT
  else walk fs follow maxSymlinks (splitSlash path) (if isAbs path then [] else fs.cwd)

/-- Go `os.Stat`: the node a path leads to, following symbolic links. -/
def Stat (fs : FS) (path : GoString) : Except Errno Node :=
  match resolve fs true path with
  | .error e => .error e
  | .ok r =>
    match fs.get r with
    | some n => .ok n
    | none => .error Errno.ENOENT

/-- Go `os.Lstat`: as `Stat`, without following a final symbolic link. -/
def Lstat (fs : FS) (path : GoString) : Except Errno Node :=
  match resolve fs false path with
  | .error e => .error e
  | .ok r =>
    match fs.get r with
    | some n => .ok n
    | none => .error Errno.ENOENT

/-- Go `os.Readlink`. -/
def Readlink (fs : FS) (path : GoString) : Except Errno GoString :=
  match resolve fs false path with
  | .error e => .error e
  | .ok r =>
    match fs.get r with
    | some (Node.link t) => .ok t
    | some _ => .error Errno.EINVAL
    | none => .error Errno.ENOENT

/-- Go `os.Remove`: removes a file, a symbolic link or an empty directory. -/
def Remove (fs : FS) (path : GoString) : Except Errno FS :=
  match resolve fs false path with
  | .error e => .error e
  | .ok r =>
    if r = [] then .error Errno.EBUSY
    else
      match fs.get r with
      | none => .error Errno.ENOENT
      | some Node.dir => if fs.hasChildren r then .error Errno.ENOTEMPTY else .ok (fs.erase r)
      | some _ => .ok (fs.erase r)

/-- Helper of Go `os.RemoveAll`: a path that is "." or ends in "/." is refused. -/
def endsWithDot (path : GoString) : Bool :=
  path = ".".toList || "/.".toList.isSuffixOf path

/-- Go `os.RemoveAll`: removes the path and everything below it; a path that
does not exist is not an error.  Removing the root directory empties it and
fails. -/
def RemoveAll (fs : FS) (path : GoString) : FS × Option Errno :=
  if path = [] then (fs, none)
  else if endsWithDot path then (fs, some Errno.EINVAL)
  else
    match resolve fs false path with
    | .error e => if IsNotExist e then (fs, none) else (fs, some e)
    | .ok r =>
      if r = [] then ({ fs with nodes := [] }, some Errno.EBUSY)
      else (fs.removeTree r, none)

/-- One pass of `MkdirAll` over the components of a path: directories are
entered, symbolic links followed, and a missing component among the last
`creatable` ones (those of the path given to `MkdirAll`, not those of a link
target) is created. -/
def mkdirComps (onLink : FS → GoString → Path → List GoString → FS × Except Errno Path)
    (creatable : Nat) : FS → List GoString → Path → FS × Except Errno Path
  | fs, [], cur => (fs, .ok cur)
  | fs, c :: rest, cur =>
    if c = [] ∨ c = ".".toList then mkdirComps onLink creatable fs rest cur
    else if c = "..".toList then mkdirComps onLink creatable fs rest cur.dropLast
    else
      match fs.get (cur ++ [c]) with
      | none =>
        if rest.length < creatable then
          mkdirComps onLink creatable (fs.set (cur ++ [c]) Node.dir) rest (cur ++ [c])
        else (fs, .error Errno.ENOENT)
      | some Node.dir => mkdirComps onLink creatable fs rest (cur ++ [c])
      | some (Node.file _) => (fs, .error Errno.ENOTDIR)
      | some (Node.link t) => onLink fs t cur rest

/-- The walk of `MkdirAll` with a budget of symbolic links to follow. -/
def mkdirWalk : Nat → Nat → FS → List GoString → Path → FS × Except Errno Path
  | 0, creatable => mkdirComps (fun fs _ _ _ => (fs, .error Errno.ELOOP)) creatable
  | n + 1, creatable =>
    mkdirComps
      (fun fs t cur rest =>
        if t = [] then (fs, .error Errno.ENOENT)
        else
          mkdirWalk n (min creatable rest.length) fs (splitSlash t ++ rest)
            (if isAbs t then [] else cur))
      creatable

/-- Go `os.MkdirAll`: creates the directory and every missing parent; succeeds
when the path already leads to a directory. -/
def MkdirAll (fs : FS) (path : GoString) : FS × Option Errno :=
  if path = [] then (fs, some Errno.ENOENT)
  else
    let comps := splitSlash path
    match mkdirWalk maxSymlinks comps.length fs comps (if isAbs path then [] else fs.cwd) with
    | (fs1, .ok _) => (fs1, none)
    | (fs1, .error e) => (fs1, some e)

/-- Go `os.Symlink oldname newname`: creates a symbolic link at `newname`
holding the string `oldname`; fails when something is there already. -/
def Symlink (fs : FS) (oldname newname : GoString) : Except Errno FS :=
  match resolve fs false newname with
  | .error e => .error e
  | .ok r =>
    if r = [] then .error Errno.EEXIST
    else
      match fs.get r with
      | some _ => .error Errno.EEXIST
      | none => .ok (fs.set r (Node.link oldname))

/-- Go `os.OpenFile` with `O_CREATE|O_RDWR|O_TRUNC` followed by writing `data`
and closing: symbolic links are followed, a missing file is created, an
existing one is replaced. -/
def WriteFile (fs : FS) (path : GoString) (data : Bytes) : Except Errno FS :=
  match resolve fs true path with
  | .error e => .error e
  | .ok r =>
    match fs.get r with
    | some Node.dir => .error Errno.EISDIR
    | some (Node.link _) => .error Errno.ELOOP
    | _ => .ok (fs.set r (Node.file data))

/-- Go `os.Open` followed by reading to the end of the file. -/
def ReadFile (fs : FS) (path : GoString) : Except Errno Bytes :=
  match Stat fs path with
  | .error e => .error e
  | .ok (Node.file data) => .ok data
  | .ok _ => .error Errno.EISDIR

/-- Go `os.Rename` of a regular file: the node moves to the new location,
replacing a file or symbolic link found there. -/
def Rename (fs : FS) (oldpath newpath : GoString) : Except Errno FS :=
  match resolve fs false oldpath, resolve fs false newpath with
  | .error e, _ => .error e
  | _, .error e => .error e
  | .ok r1, .ok r2 =>
    match fs.get r1 with
    | some (Node.file data) =>
      if r2 = [] then .error Errno.EBUSY
      else
        match fs.get r2 with
        | some Node.dir => .error Errno.EISDIR
        | _ => .ok ((fs.erase r1).set r2 (Node.file data))
    | some _ => .error Errno.EINVAL
    | none => .error Errno.ENOENT

/-- Go `os.CreateTemp dir pattern` for the pattern `pre*suf`: the first
candidate name (the random part is drawn from `rnd`) that does not exist yet is
created as an empty file.  Returns the new file system, the location of the new
file and its path. -/
def CreateTemp (fs : FS) (dir pre suf : GoString) :
    List GoString → Except Errno (FS × Path × GoString)
  | [] => .error Errno.EEXIST
  | r :: rs =>
    let name := dir ++ '/' :: (pre ++ r ++ suf)
    match resolve fs false name with
    | .error e => .error e
    | .ok loc =>
      if loc = [] then .error Errno.EEXIST
      else
        match fs.get loc with
        | some _ => CreateTemp fs dir pre suf rs
        | none => .ok (fs.set loc (Node.file []), loc, name)

/-! ## internal/config/paths.go -/

/-- The `Paths` struct. -/
structure Paths where
  Root : GoString
  Versions : GoString
  Current : GoString
  Cache : GoString
  Config : GoString
  Bin : GoString
  deriving DecidableEq, Repr

/-- The `GetPaths` function, for a home directory `home` and the value
`envRoot` of the environment variable GOVM_ROOT (empty when unset). -/
def GetPaths (home envRoot : GoString) : Paths :=
  let root := Join [home, ".govm".toList]
  let root := if envRoot ≠ [] then envRoot else root
  { Root := root
    Versions := Join [root, "versions".toList]
    Current := Join [root, "current".toList]
    Cache := Join [root, "cache".toList]
    Config := Join [root, "config.toml".toList]
    Bin := Join [root, "bin".toList] }

/-- The `Paths.VersionPath` method. -/
def Paths.VersionPath (p : Paths) (version : GoString) : GoString :=
  Join [p.Versions, version]

/-- The `Paths.VersionBinPath` method. -/
def Paths.VersionBinPath (p : Paths) (version : GoString) : GoString :=
  Join [p.Versions, version, "go".toList, "bin".toList]

/-- The `Paths.CachePath` method. -/
def Paths.CachePath (p : Paths) (filename : GoString) : GoString :=
  Join [p.Cache, filename]

/-! ## internal/version/installer.go -/

/-- The type flag of a tar header; `other` stands for every kind of entry the
extraction loop skips. -/
inductive Typeflag where
  | TypeReg | TypeDir | TypeSymlink | other
  deriving DecidableEq, Repr

/-- A tar entry: its header and, for a regular file, its content. -/
structure Header where
  Name : GoString
  Typeflag : Typeflag
  Linkname : GoString
  Mode : Nat
  data : Bytes
  deriving DecidableEq, Repr

/-- A decoded archive: the entries the tar reader yields in order, and whether
the stream then ends with a read error instead of end of file. -/
structure Archive where
  entries : List Header
  damaged : Bool
  deriving DecidableEq, Repr

/-- The body of the extraction loop of `extractTarGz` for one entry. -/
def extractEntry (fs : FS) (destPath : GoString) (header : Header) : FS × Option Err :=
  let targetPath := Join [destPath, header.Name]
  if ¬ HasPrefix targetPath (Clean destPath ++ "/".toList) then
    (fs, some (Err.msg ("invalid file path: " ++ String.mk header.Name)))
  else
    match header.Typeflag with
    | Typeflag.TypeDir =>
      match MkdirAll fs targetPath with
      | (fs1, some e) => (fs1, some (Err.sys e))
      | (fs1, none) => (fs1, none)
    | Typeflag.TypeReg =>
      match MkdirAll fs (Dir targetPath) with
      | (fs1, some e) => (fs1, some (Err.sys e))
      | (fs1, none) =>
        match WriteFile fs1 targetPath header.data with
        | .error e => (fs1, some (Err.sys e))
        | .ok fs2 => (fs2, none)
    | Typeflag.TypeSymlink =>
      match MkdirAll fs (Dir targetPath) with
      | (fs1, some e) => (fs1, some (Err.sys e))
      | (fs1, none) =>
        match Symlink fs1 header.Linkname targetPath with
        | .error e => (fs1, some (Err.sys e))
        | .ok fs2 => (fs2, none)
    | Typeflag.other => (fs, none)

/-- The extraction loop of `extractTarGz`: entries are handled in order, the
first error stops the loop. -/
def extractEntries (destPath : GoString) (damaged : Bool) : FS → List Header → FS × Option Err
  | fs, [] => if damaged then (fs, some (Err.sys Errno.EIO)) else (fs, none)
  | fs, header :: rest =>
    match extractEntry fs destPath header with
    | (fs1, some e) => (fs1, some e)
    | (fs1, none) => extractEntries destPath damaged fs1 rest

/-- The `Installer.extractTarGz` method.  `untar` decodes the bytes of the
archive file (gzip, then tar); it fails on bytes that are no such archive. -/
def extractTarGz (untar : Bytes → Except Err Archive) (fs : FS)
    (archivePath destPath : GoString) : FS × Option Err :=
  match ReadFile fs archivePath with
  | .error e => (fs, some (Err.sys e))
  | .ok bytes =>
    match untar bytes with
    | .error e => (fs, some e)
    | .ok archive => extractEntries destPath archive.damaged fs archive.entries

/-- The `Installer.Install` method. -/
def Install (untar : Bytes → Except Err Archive) (paths : Paths) (fs : FS)
    (archivePath version : GoString) : FS × Option Err :=
  let versionPath := paths.VersionPath version
  match RemoveAll fs versionPath with
  | (fs1, some e) => (fs1, some (Err.wrap "failed to remove existing version" (Err.sys e)))
  | (fs1, none) =>
    match MkdirAll fs1 versionPath with
    | (fs2, some e) => (fs2, some (Err.wrap "failed to create version directory" (Err.sys e)))
    | (fs2, none) =>
      match extractTarGz untar fs2 archivePath versionPath with
      | (fs3, some e) =>
        ((RemoveAll fs3 versionPath).1, some (Err.wrap "failed to extract archive" e))
      | (fs3, none) => (fs3, none)

/-- The `Installer.GetCurrent` method. -/
def GetCurrent (paths : Paths) (fs : FS) : GoString × Option Err :=
  match Readlink fs paths.Current with
  | .error e => if IsNotExist e then ([], none) else ([], some (Err.sys e))
  | .ok target =>
    let dir := Dir target
    let version := Base dir
    (version, none)

/-- The `Installer.SetCurrent` method. -/
def SetCurrent (paths : Paths) (fs : FS) (version : GoString) : FS × Option Err :=
  let versionPath := paths.VersionPath version
  let goPath := Join [versionPath, "go".toList]
  let notInstalled : Bool :=
    match Stat fs goPath with
    | .error e => IsNotExist e
    | .ok _ => false
  if notInstalled then
    (fs, some (Err.msg ("version " ++ String.mk version ++ " is not installed")))
  else
    let removed : Except Errno FS :=
      match Remove fs paths.Current with
      | .error e => if IsNotExist e then .ok fs else .error e
      | .ok fs1 => .ok fs1
    match removed with
    | .error e => (fs, some (Err.wrap "failed to remove current symlink" (Err.sys e)))
    | .ok fs1 =>
      match Symlink fs1 goPath paths.Current with
      | .error e => (fs1, some (Err.wrap "failed to create symlink" (Err.sys e)))
      | .ok fs2 => (fs2, none)

/-- The `Installer.IsInstalled` method. -/
def IsInstalled (paths : Paths) (fs : FS) (version : GoString) : Bool :=
  let goPath := Join [paths.VersionPath version, "go".toList, "bin".toList, "go".toList]
  match Stat fs goPath with
  | .ok _ => true
  | .error _ => false

/-- The `Installer.Uninstall` method. -/
def Uninstall (paths : Paths) (fs : FS) (version : GoString) : FS × Option Err :=
  let versionPath := paths.VersionPath version
  let missing : Bool :=
    match Stat fs versionPath with
    | .error e => IsNotExist e
    | .ok _ => false
  if missing then
    (fs, some (Err.msg ("version " ++ String.mk version ++ " is not installed")))
  else
    let (current, err) := GetCurrent paths fs
    let removed : Except Errno FS :=
      if err = none ∧ current = version then
        match Remove fs paths.Current with
        | .error e => if IsNotExist e then .ok fs else .error e
        | .ok fs1 => .ok fs1
      else .ok fs
    match removed with
    | .error e => (fs, some (Err.wrap "failed to remove current symlink" (Err.sys e)))
    | .ok fs1 =>
      match RemoveAll fs1 versionPath with
      | (fs2, some e) => (fs2, some (Err.wrap "failed to remove version" (Err.sys e)))
      | (fs2, none) => (fs2, none)

/-! ## internal/version/remote.go -/

/-- The `VersionFile` struct. -/
structure VersionFile where
  Filename : GoString
  OS : GoString
  Arch : GoString
  Version : GoString
  SHA256 : GoString
  Size : Int
  Kind : GoString
  deriving DecidableEq, Repr

/-- The `RemoteVersion` struct. -/
structure RemoteVersion where
  Version : GoString
  Stable : Bool
  Files : List VersionFile
  deriving DecidableEq, Repr

/-- The constant `goDownloadURL`. -/
def goDownloadURL : GoString := "https://go.dev/dl/".toList

/-- The `normalizeVersionString` function. -/
def normalizeVersionString (version : GoString) : GoString :=
  TrimPrefix version "go".toList

/-- The `GetVersionInfo` function; `fetched` is the outcome of
`FetchRemoteVersions`. -/
def GetVersionInfo (fetched : Except Err (List RemoteVersion)) (version : GoString) :
    Except Err RemoteVersion :=
  match fetched with
  | .error e => .error e
  | .ok versions =>
    let version := normalizeVersionString version
    let goVersion := "go".toList ++ version
    match versions.find? (fun v => v.Version = goVersion ∨ normalizeVersionString v.Version = version) with
    | some v => .ok v
    | none => .error (Err.msg ("version " ++ String.mk version ++ " not found"))

/-- The `GetDownloadURL` function, on a platform with the given `runtime.GOOS`
and `runtime.GOARCH`. -/
def GetDownloadURL (fetched : Except Err (List RemoteVersion)) (goos goarch : GoString)
    (version : GoString) : Except Err (GoString × GoString) :=
  match GetVersionInfo fetched version with
  | .error e => .error e
  | .ok info =>
    match info.Files.find? (fun f => f.OS = goos ∧ f.Arch = goarch ∧ f.Kind = "archive".toList) with
    | some f => .ok (goDownloadURL ++ f.Filename, f.SHA256)
    | none => .error (Err.msg "no archive found for this platform")

/-! ## internal/version/downloader.go -/

/-- The answer of the download server: the status code, the bytes of the body
that arrive, and whether the body then breaks off with a read error. -/
structure Response where
  StatusCode : Nat
  Body : Bytes
  broken : Bool
  deriving DecidableEq, Repr

/-- Everything outside the process that `Download` depends on. -/
structure World where
  /-- hex-encoded SHA-256 of a byte sequence -/
  sha256hex : Bytes → GoString
  /-- a hex-encoded SHA-256 has 64 characters -/
  sha256hex_length : ∀ b, (sha256hex b).length = 64
  /-- outcome of `FetchRemoteVersions` -/
  fetched : Except Err (List RemoteVersion)
  /-- `runtime.GOOS` -/
  goos : GoString
  /-- `runtime.GOARCH` -/
  goarch : GoString
  /-- outcome of the HTTP GET of an archive URL -/
  httpGet : GoString → Except Err Response
  /-- random parts tried by `os.CreateTemp`, in order -/
  rnd : List GoString
  /-- whether `os.Rename` into the cache fails (cross-device link) -/
  xdev : Bool

/-- What a call of `Download` leaves behind: the file system, the returned
path and error, and the archive URLs requested from the network. -/
structure DownloadResult where
  fs : FS
  path : GoString
  err : Option Err
  requested : List GoString
  deriving DecidableEq, Repr

/-- The `Downloader.isValidCache` method. -/
def isValidCache (w : World) (fs : FS) (path expectedHash : GoString) : Bool :=
  if expectedHash = [] then false
  else
    match ReadFile fs path with
    | .error _ => false
    | .ok data => decide (w.sha256hex data = expectedHash)

/-- The `copyFile` function: `os.Open(src)` fixes the node that is read,
`os.Create(dst)` creates or truncates the destination, and `io.Copy` then
writes what the source node holds at that moment. -/
def copyFile (fs : FS) (src dst : GoString) : FS × Option Errno :=
  match resolve fs true src with
  | .error e => (fs, some e)
  | .ok r =>
    match fs.get r with
    | none => (fs, some Errno.ENOENT)
    | some _ =>
      match WriteFile fs dst [] with
      | .error e => (fs, some e)
      | .ok fs1 =>
        match fs1.get r with
        | some (Node.file data) =>
          match WriteFile fs1 dst data with
          | .error e => (fs1, some e)
          | .ok fs2 => (fs2, none)
        | _ => (fs1, some Errno.EISDIR)

/-- The deferred `os.Remove(tmpPath)` of `Download`; its error is dropped. -/
def removeTemp (fs : FS) (tmpPath : GoString) : FS :=
  match Remove fs tmpPath with
  | .ok fs1 => fs1
  | .error _ => fs

/-- The `Downloader.Download` method.  The progress bar only mirrors the bytes
written and is left out. -/
def Download (w : World) (paths : Paths) (fs : FS) (version : GoString) : DownloadResult :=
  match GetDownloadURL w.fetched w.goos w.goarch version with
  | .error e => ⟨fs, [], some (Err.wrap "failed to get download URL" e), []⟩
  | .ok (url, expectedHash) =>
    let filename := "go".toList ++ version ++ ".tar.gz".toList
    let destPath := paths.CachePath filename
    if isValidCache w fs destPath expectedHash then ⟨fs, destPath, none, []⟩
    else
      match MkdirAll fs paths.Cache with
      | (fs1, some e) =>
        ⟨fs1, [], some (Err.wrap "failed to create cache directory" (Err.sys e)), []⟩
      | (fs1, none) =>
        match w.httpGet url with
        | .error e => ⟨fs1, [], some (Err.wrap "failed to download" e), [url]⟩
        | .ok resp =>
          if resp.StatusCode ≠ 200 then
            ⟨fs1, [], some (Err.msg "download failed with status"), [url]⟩
          else
            match CreateTemp fs1 paths.Cache "download-".toList ".tmp".toList w.rnd with
            | .error e =>
              ⟨fs1, [], some (Err.wrap "failed to create temp file" (Err.sys e)), [url]⟩
            | .ok (fs2, tmpLoc, tmpPath) =>
              let fs3 := fs2.set tmpLoc (Node.file resp.Body)
              if resp.broken then
                ⟨removeTemp fs3 tmpPath, [], some (Err.wrap "failed to write file" (Err.sys Errno.EIO)),
                  [url]⟩
              else
                let actualHash := w.sha256hex resp.Body
                if expectedHash ≠ [] ∧ actualHash ≠ expectedHash then
                  ⟨removeTemp fs3 tmpPath, [], some (Err.msg "hash mismatch"), [url]⟩
                else
                  let renamed : Except Errno FS :=
                    if w.xdev then .error Errno.EXDEV else Rename fs3 tmpPath destPath
                  match renamed with
                  | .ok fs4 => ⟨removeTemp fs4 tmpPath, destPath, none, [url]⟩
                  | .error _ =>
                    match copyFile fs3 tmpPath destPath with
                    | (fs4, some e) =>
                      ⟨removeTemp fs4 tmpPath, [], some (Err.wrap "failed to save file" (Err.sys e)),
                        [url]⟩
                    | (fs4, none) => ⟨removeTemp fs4 tmpPath, destPath, none, [url]⟩

/-- The `Downloader.CleanCache` method. -/
def CleanCache (paths : Paths) (fs : FS) : FS × Option Errno :=
  RemoveAll fs paths.Cache

/-! ## internal/version/remote.go: version lists -/

/-- The two libraries the version lists are built with, as far as the program
uses them: of github.com/hashicorp/go-version the parser `NewVersion` (`none`
when it returns an error) and the comparison `GreaterThan`; of the Go standard
library `sort.Slice` on a slice of strings with a given `less`. -/
structure Libs where
  Version : Type
  NewVersion : GoString → Option Version
  GreaterThan : Version → Version → Bool
  sortSlice : (GoString → GoString → Bool) → List GoString → List GoString

/-- Go string comparison `a < b`: lexicographic on the bytes, which on
well-formed strings is lexicographic on the code points. -/
def stringLess : GoString → GoString → Bool
  | _, [] => false
  | [], _ :: _ => true
  | a :: as, b :: bs =>
    if a.toNat < b.toNat then true
    else if b.toNat < a.toNat then false
    else stringLess as bs

/-- The `less` closure of `sortVersionsDesc`, on the two strings it is
called with. -/
def versionLess (lib : Libs) (vi vj : GoString) : Bool :=
  match lib.NewVersion vi, lib.NewVersion vj with
  | some a, some b => lib.GreaterThan a b
  | _, _ => stringLess vj vi

/-- The `sortVersionsDesc` function. -/
def sortVersionsDesc (lib : Libs) (versions : List GoString) : List GoString :=
  lib.sortSlice (versionLess lib) versions

/-- The `GetLatestStable` function. -/
def GetLatestStable (fetched : Except Err (List RemoteVersion)) : Except Err GoString :=
  match fetched with
  | .error e => .error e
  | .ok versions =>
    match versions.find? (fun v => v.Stable) with
    | some v => .ok (normalizeVersionString v.Version)
    | none => .error (Err.msg "no stable version found")

/-- The `ListStableVersions` function. -/
def ListStableVersions (lib : Libs) (fetched : Except Err (List RemoteVersion)) :
    Except Err (List GoString) :=
  match fetched with
  | .error e => .error e
  | .ok versions =>
    let stable := (versions.filter (fun v => v.Stable)).map
      (fun v => normalizeVersionString v.Version)
    .ok (sortVersionsDesc lib stable)

/-- The `ListAllVersions` function. -/
def ListAllVersions (lib : Libs) (fetched : Except Err (List RemoteVersion)) :
    Except Err (List GoString) :=
  match fetched with
  | .error e => .error e
  | .ok versions =>
    let all := versions.map (fun v => normalizeVersionString v.Version)
    .ok (sortVersionsDesc lib all)

/-! ## internal/version/detector.go -/

/-- Go `os.Getwd`: the absolute path of the working directory; it fails when
that directory is gone. -/
def Getwd (fs : FS) : Except Errno GoString :=
  if fs.get fs.cwd = some Node.dir then .ok ('/' :: joinSlash fs.cwd)
  else .error Errno.ENOENT

/-- Go `filepath.Abs`. -/
def Abs (fs : FS) (path : GoString) : Except Errno GoString :=
  if isAbs path then .ok (Clean path)
  else
    match Getwd fs with
    | .error e => .error e
    | .ok wd => .ok (Join [wd, path])

/-- Go `utf8.DecodeRune`: the first code point of a byte sequence and the
number of bytes it takes.  A byte that starts no well-formed encoding gives
U+FFFD and takes one byte. -/
def decodeRune : Bytes → Char × Nat
  | [] => (Char.ofNat 0xFFFD, 0)
  | b0 :: rest =>
    let cont (b : Nat) : Bool := 0x80 ≤ b && b ≤ 0xBF
    if b0 < 0x80 then (Char.ofNat b0, 1)
    else if 0xC2 ≤ b0 ∧ b0 ≤ 0xDF then
      match rest with
      | b1 :: _ =>
        if cont b1 then (Char.ofNat ((b0 - 0xC0) * 64 + (b1 - 0x80)), 2)
        else (Char.ofNat 0xFFFD, 1)
      | _ => (Char.ofNat 0xFFFD, 1)
    else if 0xE0 ≤ b0 ∧ b0 ≤ 0xEF then
      match rest with
      | b1 :: b2 :: _ =>
        let lo := if b0 = 0xE0 then 0xA0 else 0x80
        let hi := if b0 = 0xED then 0x9F else 0xBF
        if lo ≤ b1 ∧ b1 ≤ hi ∧ cont b2 then
          (Char.ofNat ((b0 - 0xE0) * 4096 + (b1 - 0x80) * 64 + (b2 - 0x80)), 3)
        else (Char.ofNat 0xFFFD, 1)
      | _ => (Char.ofNat 0xFFFD, 1)
    else if 0xF0 ≤ b0 ∧ b0 ≤ 0xF4 then
      match rest with
      | b1 :: b2 :: b3 :: _ =>
        let lo := if b0 = 0xF0 then 0x90 else 0x80
        let hi := if b0 = 0xF4 then 0x8F else 0xBF
        if lo ≤ b1 ∧ b1 ≤ hi ∧ cont b2 ∧ cont b3 then
          (Char.ofNat ((b0 - 0xF0) * 262144 + (b1 - 0x80) * 4096 + (b2 - 0x80) * 64 +
            (b3 - 0x80)), 4)
        else (Char.ofNat 0xFFFD, 1)
      | _ => (Char.ofNat 0xFFFD, 1)
    else (Char.ofNat 0xFFFD, 1)

/-- The code points of at most `n` encodings at the start of a byte sequence. -/
def decodeRunes : Nat → Bytes → GoString
  | 0, _ => []
  | n + 1, bs =>
    if bs = [] then []
    else (decodeRune bs).1 :: decodeRunes n (bs.drop (decodeRune bs).2)

/-- Bytes read as a Go string: the code points Go sees in them. -/
def bytesToString (bs : Bytes) : GoString := decodeRunes bs.length bs

/-- The constant `bufio.MaxScanTokenSize`. -/
def maxScanTokenSize : Nat := 65536

/-- `dropCR` of `bufio.ScanLines`: a line loses one trailing carriage return. -/
def dropCR (line : Bytes) : Bytes :=
  if line.getLast? = some 13 then line.dropLast else line

/-- The lines a `bufio.Scanner` yields with its default settings, from at most
`n` lines: the input is cut at the line feeds, and scanning stops at a line
that does not fit the buffer of `maxScanTokenSize` bytes. -/
def scanLines : Nat → Bytes → List Bytes
  | 0, _ => []
  | n + 1, data =>
    if data = [] then []
    else
      let line := data.takeWhile (fun b => b ≠ 10)
      if maxScanTokenSize ≤ line.length then []
      else if line.length < data.length then
        dropCR line :: scanLines n (data.drop (line.length + 1))
      else [dropCR line]

/-- The class `\s` of Go regular expressions. -/
def isReSpace (c : Char) : Bool :=
  c.toNat = 9 ∨ c.toNat = 10 ∨ c.toNat = 12 ∨ c.toNat = 13 ∨ c.toNat = 32

/-- The class `\d` of Go regular expressions. -/
def isReDigit (c : Char) : Bool := '0' ≤ c ∧ c ≤ '9'

/-- The first submatch of `goVersionRegex`, the pattern
`^go\s+(\d+\.\d+(?:\.\d+)?)`, on a line; `none` when the line does not match.
The character classes of the pattern exclude one another, so the match takes
each run of white space and of digits whole. -/
def matchGoVersion (line : GoString) : Option GoString :=
  if ¬ HasPrefix line "go".toList then none
  else
    let r := line.drop 2
    if r.takeWhile isReSpace = [] then none
    else
      let r := r.dropWhile isReSpace
      let d1 := r.takeWhile isReDigit
      if d1 = [] then none
      else
        match r.dropWhile isReDigit with
        | '.' :: r2 =>
          let d2 := r2.takeWhile isReDigit
          if d2 = [] then none
          else
            match r2.dropWhile isReDigit with
            | '.' :: r3 =>
              let d3 := r3.takeWhile isReDigit
              if d3 = [] then some (d1 ++ '.' :: d2)
              else some (d1 ++ '.' :: d2 ++ '.' :: d3)
            | _ => some (d1 ++ '.' :: d2)
        | _ => none

/-- The scanning loop of `parseGoVersionFile` over the lines of the file. -/
def scanForVersion : List Bytes → Option GoString
  | [] => none
  | text :: rest =>
    let line := TrimSpace (bytesToString text)
    if line = [] ∨ HasPrefix line "//".toList then scanForVersion rest
    else
      match matchGoVersion line with
      | some v => some v
      | none => scanForVersion rest

/-- The `parseGoVersionFile` function.  A directory can be opened but not
read, so the scanner yields no line for it. -/
def parseGoVersionFile (fs : FS) (path : GoString) : Except Err GoString :=
  match Stat fs path with
  | .error e => .error (Err.sys e)
  | .ok (Node.file data) =>
    match scanForVersion (scanLines data.length data) with
    | some v => .ok v
    | none => .error (Err.msg ("no go version found in " ++ String.mk path))
  | .ok _ => .error (Err.msg ("no go version found in " ++ String.mk path))

/-- The test `err == nil && version != ""` on the result of
`parseGoVersionFile`, with the version when it passes. -/
def manifestVersion (fs : FS) (path : GoString) : Option GoString :=
  match parseGoVersionFile fs path with
  | .ok version => if version ≠ [] then some version else none
  | .error _ => none

/-- The search loop of `DetectVersion`, for at most `n` directories; `none`
when the loop has not ended by then. -/
def searchUp (fs : FS) : Nat → GoString → Option (Except Err (GoString × GoString))
  | 0, _ => none
  | n + 1, dir =>
    let goWorkPath := Join [dir, "go.work".toList]
    match manifestVersion fs goWorkPath with
    | some version => some (.ok (version, goWorkPath))
    | none =>
      let goModPath := Join [dir, "go.mod".toList]
      match manifestVersion fs goModPath with
      | some version => some (.ok (version, goModPath))
      | none =>
        let parent := Dir dir
        if parent = dir then some (.error (Err.msg "no go.mod or go.work found"))
        else searchUp fs n parent

/-- The `DetectVersion` function.  The loop ends within as many rounds as the
absolute path has characters, since every round shortens the path. -/
def DetectVersion (fs : FS) (dir : GoString) : Except Err (GoString × GoString) :=
  let start : Except Errno GoString := if dir = [] then Getwd fs else .ok dir
  match start with
  | .error e => .error (Err.sys e)
  | .ok dir =>
    match Abs fs dir with
    | .error e => .error (Err.sys e)
    | .ok dir =>
      match searchUp fs (dir.length + 1) dir with
      | some result => result
      | none => .error (Err.msg "search not finished")

/-- The `DetectVersionInDir` function. -/
def DetectVersionInDir (fs : FS) (dir : GoString) : Except Err (GoString × GoString) :=
  let start : Except Errno GoString := if dir = [] then Getwd fs else .ok dir
  match start with
  | .error e => .error (Err.sys e)
  | .ok dir =>
    let goWorkPath := Join [dir, "go.work".toList]
    match manifestVersion fs goWorkPath with
    | some version => .ok (version, goWorkPath)
    | none =>
      let goModPath := Join [dir, "go.mod".toList]
      match manifestVersion fs goModPath with
      | some version => .ok (version, goModPath)
      | none =>
        .error (Err.msg ("no go.mod or go.work found in " ++ String.mk dir))

/-- Go `strings.Split` with the separator ".": the parts between the dots; the
result is never empty. -/
def splitDot : GoString → List GoString
  | [] => [[]]
  | c :: cs =>
    if c = '.' then [] :: splitDot cs
    else
      match splitDot cs with
      | [] => [[c]]
      | x :: xs => (c :: x) :: xs

/-- The `NormalizeDetectedVersion` function; `fetched` is the outcome of
`FetchRemoteVersions` inside `ListAllVersions`. -/
def NormalizeDetectedVersion (lib : Libs) (fetched : Except Err (List RemoteVersion))
    (version : GoString) : GoString × Option Err :=
  let parts := splitDot version
  if parts.length ≥ 3 then (version, none)
  else
    match ListAllVersions lib fetched with
    | .error _ => (version ++ ".0".toList, none)
    | .ok allVersions =>
      let pre := version ++ ".".toList
      match allVersions.find? (fun v => HasPrefix v pre || decide (v = version)) with
      | some v => (v, none)
      | none => (version ++ ".0".toList, none)

/-! ## internal/version/manager.go -/

/-- The `Manager.Uninstall` method; the messages it prints are left out. -/
def Manager.Uninstall (paths : Paths) (fs : FS) (version : GoString) : FS × Option Err :=
  let version := NormalizeVersion version
  if ¬ IsInstalled paths fs version then
    (fs, some (Err.msg ("version " ++ String.mk version ++ " is not installed")))
  else
    Govm.Uninstall paths fs version

/-- The `IsVersionAvailable` function of remote.go: an error of the lookup is
turned into "not available". -/
def IsVersionAvailable (fetched : Except Err (List RemoteVersion)) (version : GoString) :
    Bool × Option Err :=
  match GetVersionInfo fetched version with
  | .error _ => (false, none)
  | .ok _ => (true, none)

/-- What a manager method does besides changing the file system: a fetch of
the catalog, a request for an archive, an unpacking by `Installer.Install`. -/
inductive Event where
  | catalog
  | transfer (url : GoString)
  | extract (version : GoString)
  deriving DecidableEq, Repr

/-- What a manager method depends on besides the file system: the paths, the
loaded configuration (`config.Get()`), the outside world and the decoder of
archives. -/
structure Env where
  paths : Paths
  cfg : Config
  w : World
  untar : Bytes → Except Err Archive

/-- What a manager method leaves behind: the file system, the returned error
and the events in the order they happened. -/
structure Outcome where
  fs : FS
  err : Option Err
  log : List Event
  deriving DecidableEq, Repr

/-- The events of one call of `Downloader.Download`: it fetches the catalog
for the URL and then requests what `requested` lists. -/
def downloadEvents (r : DownloadResult) : List Event :=
  Event.catalog :: r.requested.map Event.transfer

/-- The body of `Manager.Install`; `use` stands for the method `Manager.Use`
it calls.  The messages it prints and the spinner are left out. -/
def Manager.InstallWith (env : Env) (use : FS → GoString → Option Outcome) (fs : FS)
    (version : GoString) (setDefault _showProgress : Bool) : Option Outcome :=
  let version := NormalizeVersion version
  if IsInstalled env.paths fs version then
    if setDefault then use fs version else some ⟨fs, none, []⟩
  else
    match IsVersionAvailable env.w.fetched version with
    | (_, some e) =>
      some ⟨fs, some (Err.wrap "failed to check version availability" e), [Event.catalog]⟩
    | (false, none) =>
      some ⟨fs, some (Err.msg ("version " ++ String.mk version ++
        " is not available for download")), [Event.catalog]⟩
    | (true, none) =>
      let r := Download env.w env.paths fs version
      let log := Event.catalog :: downloadEvents r
      match r.err with
      | some e => some ⟨r.fs, some (Err.wrap "failed to download" e), log⟩
      | none =>
        let log := log ++ [Event.extract version]
        match Govm.Install env.untar env.paths r.fs r.path version with
        | (fs2, some e) => some ⟨fs2, some (Err.wrap "failed to install" e), log⟩
        | (fs2, none) =>
          let useIt : Option Outcome :=
            match use fs2 version with
            | none => none
            | some o => some { o with log := log ++ o.log }
          if setDefault then useIt
          else
            match GetCurrent env.paths fs2 with
            | (current, err) =>
              if err = none ∧ current = [] then useIt else some ⟨fs2, none, log⟩

/-- The `Manager.Use` method, allowed to nest `n` calls deep (it calls
`Manager.Install`, which calls it back); `none` when that depth does not
suffice. -/
def Manager.Use (env : Env) : Nat → FS → GoString → Option Outcome
  | 0, _, _ => none
  | n + 1, fs, version =>
    let version := ResolveVersion env.cfg version
    if ¬ IsInstalled env.paths fs version then
      if env.cfg.AutoInstall then
        match Manager.InstallWith env (fun fs1 v1 => Manager.Use env n fs1 v1) fs version
            false true with
        | none => none
        | some o =>
          if o.err ≠ none then some o
          else
            some ⟨(SetCurrent env.paths o.fs version).1, (SetCurrent env.paths o.fs version).2,
              o.log⟩
      else
        some ⟨fs, some (Err.msg ("version " ++ String.mk version ++
          " is not installed (auto-install is disabled)")), []⟩
    else
      some ⟨(SetCurrent env.paths fs version).1, (SetCurrent env.paths fs version).2, []⟩

/-- The `Manager.Install` method, with calls of `Manager.Use` allowed to nest
`n` deep. -/
def Manager.Install (env : Env) (n : Nat) (fs : FS) (version : GoString)
    (setDefault showProgress : Bool) : Option Outcome :=
  Manager.InstallWith env (fun fs1 v1 => Manager.Use env n fs1 v1) fs version setDefault
    showProgress

/-- The `Manager.QuietUse` method. -/
def Manager.QuietUse (env : Env) (fs : FS) (version : GoString) : Outcome :=
  let version := ResolveVersion env.cfg version
  if ¬ IsInstalled env.paths fs version then
    if env.cfg.AutoInstall then
      let r := Download env.w env.paths fs version
      match r.err with
      | some e => ⟨r.fs, some e, downloadEvents r⟩
      | none =>
        let log := downloadEvents r ++ [Event.extract version]
        match Govm.Install env.untar env.paths r.fs r.path version with
        | (fs2, some e) => ⟨fs2, some e, log⟩
        | (fs2, none) =>
          ⟨(SetCurrent env.paths fs2 version).1, (SetCurrent env.paths fs2 version).2, log⟩
    else
      ⟨fs, some (Err.msg ("version " ++ String.mk version ++ " is not installed")), []⟩
  else
    ⟨(SetCurrent env.paths fs version).1, (SetCurrent env.paths fs version).2, []⟩

/-! ## Properties of states -/

/-- The table describes a file system: every recorded node lies in a
directory. -/
def WF (fs : FS) : Prop :=
  ∀ e ∈ fs.nodes, fs.get e.1.dropLast = some Node.dir

instance (fs : FS) : Decidable (WF fs) := by
  unfold WF; infer_instance

/-- A directory or a symbolic link: the nodes path resolution passes through. -/
def Node.isSkel : Node → Bool
  | Node.file _ => false
  | _ => true

/-- File system `b` extends `a`: same working directory, and every directory
and symbolic link of `a` is unchanged in `b`. -/
def Ext (a b : FS) : Prop :=
  a.cwd = b.cwd ∧ ∀ p n, a.get p = some n → n.isSkel = true → b.get p = some n

/-- File system `a` is part of `b`: same working directory, and every node of
`a` is unchanged in `b`. -/
def Sub (a b : FS) : Prop :=
  a.cwd = b.cwd ∧ ∀ p n, a.get p = some n → b.get p = some n


/-- The invariant of the current pointer: when the pointer is a symbolic link,
its target is the toolchain directory of the version `GetCurrent` derives from
it, and that version is installed (its go/bin/go entrypoint exists). -/
def pointerValid (paths : Paths) (fs : FS) : Bool :=
  match Readlink fs paths.Current with
  | .error _ => true
  | .ok target =>
    let version := Base (Dir target)
    decide (target = Join [paths.VersionPath version, "go".toList]) &&
      IsInstalled paths fs version

/-- A version string that is a single path element: not empty, without a
slash, and neither "." nor "..". -/
def isElem (version : GoString) : Prop :=
  version ≠ [] ∧ '/' ∉ version ∧ version ≠ ".".toList ∧ version ≠ "..".toList

instance (version : GoString) : Decidable (isElem version) := by
  unfold isElem; infer_instance

/-- A string ends in the element `c`: it is `c`, or something ending in a
slash followed by `c`. -/
def EndsIn (s c : GoString) : Prop :=
  s = c ∨ ∃ pre : GoString, s = pre ++ '/' :: c

/-- The part of a string after its last slash. -/
def lastSeg (s : GoString) : GoString :=
  s.rtakeWhile (fun c => c ≠ '/')

/-- A path component that names nothing: empty, "." or "..". -/
def isLead (c : GoString) : Prop :=
  c = [] ∨ c = ".".toList ∨ c = "..".toList

/-- The shape of a cleaned element list: some ".." elements (none when the
path is rooted) followed by proper names. -/
def CleanForm (rooted : Bool) (out : List GoString) : Prop :=
  ∃ (j : Nat) (names : List GoString),
    out = List.replicate j "..".toList ++ names ∧ (rooted = true → j = 0) ∧
      ∀ x ∈ names, isElem x

/-- A path string that ends in a proper name: it is not the root, "." or a
chain of "..". -/
def namedPath (p : GoString) : Prop :=
  ∃ c, isElem c ∧ EndsIn p c

/-- The entry name leaves the extraction root: the test of `extractTarGz` on
the joined path fails. -/
def escapesRoot (destPath name : GoString) : Prop :=
  HasPrefix (Join [destPath, name]) (Clean destPath ++ "/".toList) = false

instance (destPath name : GoString) : Decidable (escapesRoot destPath name) := by
  unfold escapesRoot; infer_instance

/-- The state in which `Install` starts extracting: the directory of the
version was removed and created again. -/
def extractionStart (paths : Paths) (fs : FS) (version : GoString) : FS :=
  (MkdirAll (RemoveAll fs (paths.VersionPath version)).1 (paths.VersionPath version)).1

/-- Where a walk stands after components that name nothing. -/
def skipLead : List GoString → Path → Path
  | [], cur => cur
  | c :: cs, cur => if c = "..".toList then skipLead cs cur.dropLast else skipLead cs cur

/-- Within the last `k` components every component is a proper name. -/
def Zone (comps : List GoString) (k : Nat) : Prop :=
  ∀ suf, suf <:+ comps → suf.length ≤ k → ∀ x ∈ suf, isElem x

/-- The contract of `sort.Slice`: the result is a rearrangement of the slice,
and when `less` is a strict weak order on the elements of the slice, no
element of the result is `less` than an element before it. -/
def Libs.Sorts (lib : Libs) : Prop :=
  ∀ (less : GoString → GoString → Bool) (l : List GoString),
    (lib.sortSlice less l).Perm l ∧
      ((∀ a ∈ l, ∀ b ∈ l, less a b = true → less b a = false) →
        (∀ a ∈ l, ∀ b ∈ l, ∀ c ∈ l, less a b = false → less b c = false → less a c = false) →
        (lib.sortSlice less l).Pairwise (fun a b => less b a = false))

/-- Every entry of the catalog has a version string the library parses. -/
def allParse (lib : Libs) (versions : List RemoteVersion) : Prop :=
  ∀ v ∈ versions, (lib.NewVersion (normalizeVersionString v.Version)).isSome = true

instance (lib : Libs) (versions : List RemoteVersion) : Decidable (allParse lib versions) := by
  unfold allParse; infer_instance

/-- A version string `v` completes the specifier `s`: it is `s` itself or
begins with `s` followed by a dot (the test of `NormalizeDetectedVersion`). -/
def completes (s v : GoString) : Prop :=
  HasPrefix v (s ++ ".".toList) = true ∨ v = s

instance (s v : GoString) : Decidable (completes s v) := by
  unfold completes; infer_instance

/-- Version string `a` is newer than `b` for the library: both parse and the
first compares greater. -/
def newer (lib : Libs) (a b : GoString) : Bool :=
  match lib.NewVersion a, lib.NewVersion b with
  | some x, some y => lib.GreaterThan x y
  | _, _ => false

/-- On the version strings of a list the comparison of the version library
is a strict weak order: among them "newer" is asymmetric, and "not newer" is
transitive through every string that parses. -/
def Libs.OrderedOn (lib : Libs) (l : List GoString) : Prop :=
  (∀ a ∈ l, ∀ b ∈ l, newer lib a b = true → newer lib b a = false) ∧
    ∀ a ∈ l, ∀ b ∈ l, ∀ c ∈ l, (lib.NewVersion b).isSome = true →
      newer lib a b = false → newer lib b c = false → newer lib a c = false

instance (lib : Libs) (l : List GoString) : Decidable (lib.OrderedOn l) := by
  unfold Libs.OrderedOn; infer_instance

/-- The insertion step of Go's `insertionSortLessFunc`, on the part of the
slice sorted so far, last element first: the new element moves towards the
front while it is `less` than its neighbour. -/
def insertBack (less : GoString → GoString → Bool) (x : GoString) :
    List GoString → List GoString
  | [] => [x]
  | y :: ys => if less x y then y :: insertBack less x ys else x :: y :: ys

/-- Insertion sort with the sorted part `acc` kept last element first. -/
def insertionLoop (less : GoString → GoString → Bool) :
    List GoString → List GoString → List GoString
  | acc, [] => acc.reverse
  | acc, x :: xs => insertionLoop less (insertBack less x acc) xs

/-- The insertion sort `sort.Slice` runs on short slices (up to 12 elements
since Go 1.19, up to 6 before). -/
def insertionSort (less : GoString → GoString → Bool) (l : List GoString) : List GoString :=
  insertionLoop less [] l

/-- Reads a decimal number; `none` unless the string is a non-empty run of
digits. -/
def demoNumber (s : GoString) : Option Nat :=
  if s ≠ [] ∧ s.all (fun c => decide ('0' ≤ c ∧ c ≤ '9')) = true then
    some (s.foldl (fun n c => 10 * n + (c.toNat - 48)) 0)
  else none

/-- The parser of the sample version library: one to three numbers below
1000 separated by dots, optionally followed by a hyphen and a tag.  The result
is a rank: the numbers in order, then whether there is no tag. -/
def demoNewVersion (s : GoString) : Option Nat :=
  let main := s.takeWhile (fun c => c ≠ '-')
  let tag := s.dropWhile (fun c => c ≠ '-')
  if tag.length = 1 then none
  else
    match (splitDot main).map demoNumber with
    | [some a] =>
      if a < 1000 then some ((a * 1000000) * 2 + (if tag = [] then 1 else 0)) else none
    | [some a, some b] =>
      if a < 1000 ∧ b < 1000 then
        some ((a * 1000000 + b * 1000) * 2 + (if tag = [] then 1 else 0))
      else none
    | [some a, some b, some c] =>
      if a < 1000 ∧ b < 1000 ∧ c < 1000 then
        some ((a * 1000000 + b * 1000 + c) * 2 + (if tag = [] then 1 else 0))
      else none
    | _ => none

/-- A sample of the libraries: versions are compared by rank, a tagged version
coming just below the untagged one, and slices are sorted by insertion. -/
def demoLibs : Libs :=
  { Version := Nat
    NewVersion := demoNewVersion
    GreaterThan := fun a b => decide (b < a)
    sortSlice := insertionSort }

/-- The comparison of two parts of pre-releases as hashicorp/go-version makes
it (`comparePart`); a missing part is empty.  A part that is a number comes
before one that is not; a missing part comes before a number and after any
other part. -/
def demoComparePart (self other : GoString) : Ordering :=
  if self = other then Ordering.eq
  else if self = [] then
    if (demoNumber other).isSome then Ordering.lt else Ordering.gt
  else if other = [] then
    if (demoNumber self).isSome then Ordering.gt else Ordering.lt
  else
    match demoNumber self, demoNumber other with
    | some _, none => Ordering.lt
    | none, some _ => Ordering.gt
    | none, none => if stringLess other self then Ordering.gt else Ordering.lt
    | some m, some n => if n < m then Ordering.gt else Ordering.lt

/-- The comparison of two pre-releases part by part (`comparePrereleases`):
the first pair of parts that differ decides. -/
def demoComparePre (self other : List GoString) : Ordering :=
  (((List.range (max self.length other.length)).map
    (fun i => demoComparePart (self.getD i []) (other.getD i []))).find?
      (fun r => r ≠ Ordering.eq)).getD Ordering.eq

/-- The parser of the second sample library: one to three numbers separated
by dots, optionally followed by a hyphen and a pre-release of parts separated
by dots.  The result holds the three numbers and the pre-release. -/
def demoPreNewVersion (s : GoString) : Option (List Nat × GoString) :=
  let main := s.takeWhile (fun c => c ≠ '-')
  let tag := s.dropWhile (fun c => c ≠ '-')
  let nums := (splitDot main).map demoNumber
  if tag.length = 1 ∨ 3 < nums.length ∨ nums.any (fun n => n.isNone) = true ∨
      (splitDot (tag.drop 1)).any (fun part => decide (part = [])) = true ∧ tag ≠ [] then none
  else
    some ((nums.filterMap id ++ List.replicate (3 - nums.length) 0), tag.drop 1)

/-- The comparison of the second sample library (`Compare`): the numbers
decide; with equal numbers a version without pre-release is the greater, and
two pre-releases are compared part by part. -/
def demoPreCompare (a b : List Nat × GoString) : Ordering :=
  if a = b then Ordering.eq
  else
    match (List.zipWith (fun m n => compare m n) a.1 b.1).find? (fun r => r ≠ Ordering.eq) with
    | some r => r
    | none =>
      if a.2 = [] then Ordering.gt
      else if b.2 = [] then Ordering.lt
      else demoComparePre (splitDot a.2) (splitDot b.2)

/-- A second sample of the libraries, which compares pre-releases the way
hashicorp/go-version does, and sorts by insertion. -/
def demoPreLibs : Libs :=
  { Version := List Nat × GoString
    NewVersion := demoPreNewVersion
    GreaterThan := fun a b => decide (demoPreCompare a b = Ordering.gt)
    sortSlice := insertionSort }

/-- The directory `DetectVersionInDir` examines: the one given, or the
working directory when none is given. -/
def examinedDir (fs : FS) (dir : GoString) : Except Errno GoString :=
  if dir = [] then Getwd fs else .ok dir

/-- The directory in which `DetectVersion` starts its search: the absolute
path of the examined directory. -/
def searchStart (fs : FS) (dir : GoString) : Except Errno GoString :=
  match examinedDir fs dir with
  | .error e => .error e
  | .ok d => Abs fs d

/-- The ancestor `k` levels above a directory (`filepath.Dir` applied `k`
times). -/
def ancestor : Nat → GoString → GoString
  | 0, dir => dir
  | k + 1, dir => ancestor k (Dir dir)

/-- A catalog entry is the entry of a version: the test of `GetVersionInfo`. -/
def entryFor (version : GoString) (v : RemoteVersion) : Bool :=
  decide (v.Version = "go".toList ++ normalizeVersionString version) ||
    decide (normalizeVersionString v.Version = normalizeVersionString version)

/-- A file is the archive for a platform: the test of `GetDownloadURL`. -/
def archiveFor (goos goarch : GoString) (f : VersionFile) : Bool :=
  decide (f.OS = goos) && decide (f.Arch = goarch) && decide (f.Kind = "archive".toList)

/-- An error carries a cause: it is the cause, or wraps an error that carries
it (Go `errors.Is` along the chain of `%w`). -/
def Err.carries : Err → Err → Bool
  | Err.wrap text inner, cause =>
    decide (Err.wrap text inner = cause) || Err.carries inner cause
  | e, cause => decide (e = cause)

/-- The state in which `Manager.Install` finds the file system once the
archive of the version has been downloaded and unpacked. -/
def afterExtraction (env : Env) (fs : FS) (version : GoString) : FS :=
  (Govm.Install env.untar env.paths (Download env.w env.paths fs version).fs
    (Download env.w env.paths fs version).path version).1

/-- The version a line of a manifest declares: the line is trimmed; an empty
line and a line that starts with "//" declare none, any other line what
`matchGoVersion` captures from it. -/
def lineVersion (text : Bytes) : Option GoString :=
  let line := TrimSpace (bytesToString text)
  if line = [] ∨ HasPrefix line "//".toList then none else matchGoVersion line

/-- A string of two or three decimal numbers separated by dots. -/
def isVersionForm (v : GoString) : Bool :=
  ((splitDot v).length = 2 ∨ (splitDot v).length = 3) ∧
    ∀ p ∈ splitDot v, p ≠ [] ∧ p.all isReDigit = true

/-- The elements of a path string: its parts between the slashes, without
the empty ones and the dots. -/
def pathElems (p : GoString) : List GoString :=
  (splitSlash p).filter (fun c => c ≠ [] ∧ c ≠ ".".toList)

/-- A cleaned path lies strictly below a cleaned root: both are absolute or
both relative, and the elements of the path are those of the root followed by
at least one more, none of them "..". -/
def strictlyBelow (root target : GoString) : Bool :=
  isAbs root = isAbs target ∧ (pathElems root).isPrefixOf (pathElems target) = true ∧
    (pathElems target).drop (pathElems root).length ≠ [] ∧
    "..".toList ∉ (pathElems target).drop (pathElems root).length

/-- An entry name that leads to the extraction root itself. -/
def namesRoot (name : GoString) : Prop :=
  name = [] ∨ name = ".".toList ∨ name = "./".toList

instance (name : GoString) : Decidable (namesRoot name) := by
  unfold namesRoot; infer_instance

/-- The error of `extractTarGz` for an entry that fails the path test. -/
def invalidPath (name : GoString) : Err :=
  Err.msg ("invalid file path: " ++ String.mk name)

/-! ## Concrete states used in the examples -/

/-- The paths of an installation rooted at /r. -/
def demoPaths : Paths := GetPaths "/h".toList "/r".toList

/-- A stand-in digest for the examples: 64 characters computed from the
content. -/
def demoDigest (b : Bytes) : GoString :=
  (b.map (fun n => Char.ofNat (48 + n % 10)) ++ List.replicate 64 '0').take 64

/-- An installation with version 1.21.0 installed and no current pointer. -/
def demoInstalled : FS :=
  { nodes :=
      [(["r".toList], Node.dir),
       (["r".toList, "versions".toList], Node.dir),
       (["r".toList, "versions".toList, "1.21.0".toList], Node.dir),
       (["r".toList, "versions".toList, "1.21.0".toList, "go".toList], Node.dir),
       (["r".toList, "versions".toList, "1.21.0".toList, "go".toList, "bin".toList], Node.dir),
       (["r".toList, "versions".toList, "1.21.0".toList, "go".toList, "bin".toList, "go".toList],
         Node.file [7]),
       (["r".toList, "cache".toList], Node.dir),
       (["r".toList, "cache".toList, "go1.21.0.tar.gz".toList], Node.file [9]),
       (["tmp".toList], Node.dir)]
    cwd := [] }

/-- An installation whose version directory 1.21.0 holds a go directory
without the bin/go entrypoint; no current pointer. -/
def demoBroken : FS :=
  { nodes :=
      [(["r".toList], Node.dir),
       (["r".toList, "versions".toList], Node.dir),
       (["r".toList, "versions".toList, "1.21.0".toList], Node.dir),
       (["r".toList, "versions".toList, "1.21.0".toList, "go".toList], Node.dir)]
    cwd := [] }

/-- An archive whose second entry is a symbolic link to /tmp and whose third
entry is a regular file named below that link. -/
def demoLinkArchive : Archive :=
  { entries :=
      [⟨"go/bin/go".toList, Typeflag.TypeReg, [], 493, [7]⟩,
       ⟨"go/x".toList, Typeflag.TypeSymlink, "/tmp".toList, 511, []⟩,
       ⟨"go/x/evil".toList, Typeflag.TypeReg, [], 420, [6, 6, 6]⟩]
    damaged := false }

/-- An archive whose second entry has a name leaving the extraction root. -/
def demoDotDotArchive : Archive :=
  { entries :=
      [⟨"go/bin/go".toList, Typeflag.TypeReg, [], 493, [7]⟩,
       ⟨"../../evil".toList, Typeflag.TypeReg, [], 420, [6, 6, 6]⟩]
    damaged := false }

/-- The archive file of version 1.21.0 for linux/amd64, declaring the hash
`sha`. -/
def demoFile (sha : GoString) : VersionFile :=
  { Filename := "go1.21.0.linux-amd64.tar.gz".toList
    OS := "linux".toList
    Arch := "amd64".toList
    Version := "go1.21.0".toList
    SHA256 := sha
    Size := 3
    Kind := "archive".toList }

/-- The catalog entry of version 1.21.0, with that one file. -/
def demoRelease (sha : GoString) : RemoteVersion :=
  { Version := "go1.21.0".toList
    Stable := true
    Files := [demoFile sha] }

/-- A catalog with one version whose archive for linux/amd64 declares the
hash `sha`. -/
def demoCatalog (sha : GoString) : List RemoteVersion := [demoRelease sha]

/-- A world whose catalog declares the hash `sha` and whose download server
answers every request with the three bytes 1, 2, 3. -/
def demoWorld (sha : GoString) : World :=
  { sha256hex := demoDigest
    sha256hex_length := fun b => by simp [demoDigest]
    fetched := .ok (demoCatalog sha)
    goos := "linux".toList
    goarch := "amd64".toList
    httpGet := fun _ => .ok ⟨200, [1, 2, 3], false⟩
    rnd := ["1".toList]
    xdev := false }

/-- The default configuration after `govm alias prod 1.21.0` and then
`govm alias live prod`. -/
def demoAliases : Config :=
  Get (SetAlias (SetAlias (some DefaultConfig) none "prod".toList "1.21.0".toList).cfg none
    "live".toList "prod".toList).cfg

/-- The installation `demoInstalled` after version 1.21.0 was made current. -/
def demoActive : FS := (SetCurrent demoPaths demoInstalled "1.21.0".toList).1

/-- The installation `demoActive` (1.21.0 installed and current) with a second
version directory 1.22.0 that holds a go directory but no go/bin/go. -/
def demoHalf : FS :=
  (demoActive.set ["r".toList, "versions".toList, "1.22.0".toList] Node.dir).set
    ["r".toList, "versions".toList, "1.22.0".toList, "go".toList] Node.dir

/-- A catalog entry without files. -/
def demoEntry (version : GoString) (stable : Bool) : RemoteVersion :=
  { Version := version, Stable := stable, Files := [] }

/-- A catalog that lists the stable version 1.20.0 before the stable version
1.21.0. -/
def demoUnordered : List RemoteVersion :=
  [demoEntry "go1.20.0".toList true, demoEntry "go1.21.0".toList true]

/-- A catalog with a release and a release candidate of the same version. -/
def demoCandidate : List RemoteVersion :=
  [demoEntry "go1.21.0".toList true, demoEntry "go1.21.0-rc1".toList false]

/-- A catalog whose second entry has a version string that is no semantic
version. -/
def demoOdd : List RemoteVersion :=
  [demoEntry "go1.21.9".toList true, demoEntry "go1.21.5_".toList false,
    demoEntry "go1.21.10".toList true]

/-- A catalog of three pre-releases of one version. -/
def demoPreCatalog : List RemoteVersion :=
  [demoEntry "go5.4.0-alpha".toList false, demoEntry "go5.4.0-alpha.1".toList false,
    demoEntry "go5.4.0-alpha.beta".toList false]

/-- An installation in which the only version directory is named go1.21.0. -/
def demoPrefixed : FS :=
  { nodes :=
      [(["r".toList], Node.dir),
       (["r".toList, "versions".toList], Node.dir),
       (["r".toList, "versions".toList, "go1.21.0".toList], Node.dir),
       (["r".toList, "versions".toList, "go1.21.0".toList, "go".toList], Node.dir),
       (["r".toList, "versions".toList, "go1.21.0".toList, "go".toList, "bin".toList], Node.dir),
       (["r".toList, "versions".toList, "go1.21.0".toList, "go".toList, "bin".toList,
         "go".toList], Node.file [7])]
    cwd := [] }

/-- The bytes of a text of ASCII characters. -/
def demoText (s : String) : Bytes := s.toList.map Char.toNat

/-- A project tree: the directory /w holds a go.work declaring 1.21 and a
go.mod declaring 1.19; below it lie the directories /w/a and /w/a/b without
manifests. -/
def demoProject : FS :=
  { nodes :=
      [(["w".toList], Node.dir),
       (["w".toList, "go.work".toList], Node.file (demoText "go 1.21\n\nuse ./a\n")),
       (["w".toList, "go.mod".toList],
         Node.file (demoText "module example.com/m\n\ngo 1.19\n")),
       (["w".toList, "a".toList], Node.dir),
       (["w".toList, "a".toList, "b".toList], Node.dir)]
    cwd := ["w".toList, "a".toList, "b".toList] }

/-- An archive that holds the toolchain entrypoint go/bin/go. -/
def demoGoArchive : Archive :=
  { entries := [⟨"go/bin/go".toList, Typeflag.TypeReg, [], 493, [7]⟩]
    damaged := false }

/-- An archive that unpacks without error but holds no go/bin/go. -/
def demoNoEntrypoint : Archive :=
  { entries := [⟨"go/VERSION".toList, Typeflag.TypeReg, [], 420, [1]⟩]
    damaged := false }

/-- An installation without versions, cache and current pointer. -/
def demoFresh : FS :=
  { nodes := [(["r".toList], Node.dir), (["r".toList, "versions".toList], Node.dir)]
    cwd := [] }

/-- The setting of the examples: the paths below /r, the world `demoWorld`
whose catalog declares the digest of the bytes the server sends, and a decoder
that reads every archive file as `archive`. -/
def demoEnv (cfg : Config) (archive : Archive) : Env :=
  { paths := demoPaths
    cfg := cfg
    w := demoWorld (demoDigest [1, 2, 3])
    untar := fun _ => .ok archive }

/-- The setting `demoEnv` with a catalog that cannot be fetched. -/
def demoOffline : Env :=
  { paths := demoPaths
    cfg := DefaultConfig
    w := { demoWorld (demoDigest [1, 2, 3]) with
      fetched := .error (Err.wrap "failed to fetch versions" (Err.msg "dial tcp: timeout")) }
    untar := fun _ => .ok demoGoArchive }

/-- The default configuration after `govm alias 1.21.0 1.22.0`: an alias that
has the name of a version. -/
def demoShadow : Config :=
  Get (SetAlias (some DefaultConfig) none "1.21.0".toList "1.22.0".toList).cfg

/-- An installation with version 1.20.0 installed, no cache and no current
pointer. -/
def demoOld : FS :=
  { nodes :=
      [(["r".toList], Node.dir),
       (["r".toList, "versions".toList], Node.dir),
       (["r".toList, "versions".toList, "1.20.0".toList], Node.dir),
       (["r".toList, "versions".toList, "1.20.0".toList, "go".toList], Node.dir),
       (["r".toList, "versions".toList, "1.20.0".toList, "go".toList, "bin".toList], Node.dir),
       (["r".toList, "versions".toList, "1.20.0".toList, "go".toList, "bin".toList, "go".toList],
         Node.file [7])]
    cwd := [] }

/-- The default configuration after `govm alias 1.21.0 1.20.0`. -/
def demoShadowOld : Config :=
  Get (SetAlias (some DefaultConfig) none "1.21.0".toList "1.20.0".toList).cfg

/-- An archive that holds go/bin/go, a symbolic link go/x to /r and, named
below that link, a symbolic link `current` to the toolchain directory of a
version 9.9.9. -/
def demoPlantArchive : Archive :=
  { entries :=
      [⟨"go/bin/go".toList, Typeflag.TypeReg, [], 493, [7]⟩,
       ⟨"go/x".toList, Typeflag.TypeSymlink, "/r".toList, 511, []⟩,
       ⟨"go/x/current".toList, Typeflag.TypeSymlink, "/r/versions/9.9.9/go".toList, 511, []⟩]
    damaged := false }

/-- A project tree whose workspace files declare no version: /w holds a
go.work without a go line and a go.mod declaring 1.19; /w/a holds a go.work
and a go.mod that both declare none. -/
def demoFallthrough : FS :=
  { nodes :=
      [(["w".toList], Node.dir),
       (["w".toList, "go.work".toList], Node.file (demoText "use ./a\n")),
       (["w".toList, "go.mod".toList],
         Node.file (demoText "module example.com/m\n\ngo 1.19\n")),
       (["w".toList, "a".toList], Node.dir),
       (["w".toList, "a".toList, "go.work".toList], Node.file (demoText "use .\n")),
       (["w".toList, "a".toList, "go.mod".toList],
         Node.file (demoText "module example.com/m/a\n"))]
    cwd := ["w".toList, "a".toList] }

/-- The bytes of a manifest whose first line consists of 65536 letters x and
whose second line is "go 1.21". -/
def demoLongLine : Bytes :=
  List.replicate 65536 120 ++ 10 :: demoText "go 1.21\n"

/-- A project whose go.mod holds `demoLongLine`. -/
def demoLongFile : FS :=
  { nodes :=
      [(["w".toList], Node.dir),
       (["w".toList, "go.mod".toList], Node.file demoLongLine)]
    cwd := ["w".toList] }

/-- An archive whose first entry is the directory "./". -/
def demoDotArchive : Archive :=
  { entries :=
      [⟨"./".toList, Typeflag.TypeDir, [], 493, []⟩,
       ⟨"go/bin/go".toList, Typeflag.TypeReg, [], 493, [7]⟩]
    damaged := false }

/-! ## Normalization and aliases -/

theorem TrimSpace_length_le (s : GoString) : (TrimSpace s).length ≤ s.length := by
  unfold TrimSpace
  exact ((List.rdropWhile_prefix _ _).length_le).trans ((List.dropWhile_suffix _).length_le)

theorem TrimPrefix_length_le (s p : GoString) : (TrimPrefix s p).length ≤ s.length := by
  unfold TrimPrefix
  split <;> simp

theorem dropWhile_rdropWhile_dropWhile (p : Char → Bool) (s : GoString) :
    ((s.dropWhile p).rdropWhile p).dropWhile p = (s.dropWhile p).rdropWhile p := by
  have hpre : (s.dropWhile p).rdropWhile p <+: s.dropWhile p := List.rdropWhile_prefix _ _
  cases hu : (s.dropWhile p).rdropWhile p with
  | nil => rfl
  | cons a u =>
    rw [hu] at hpre
    cases ht : s.dropWhile p with
    | nil => rw [ht] at hpre; simp at hpre
    | cons b t =>
      rw [ht] at hpre
      have hab : a = b := by
        obtain ⟨r, hr⟩ := hpre
        simp at hr
        exact hr.1
      have hb : ¬ p b = true := by
        have h0 := List.head_dropWhile_not p s (by rw [ht]; simp)
        simp [ht] at h0
        simp [h0]
      subst hab
      simp [List.dropWhile_cons, hb]

theorem TrimSpace_idem (s : GoString) : TrimSpace (TrimSpace s) = TrimSpace s := by
  unfold TrimSpace
  rw [dropWhile_rdropWhile_dropWhile, List.rdropWhile_idempotent]

theorem TrimPrefix_of_not (s p : GoString) (h : HasPrefix s p = false) : TrimPrefix s p = s := by
  simp [TrimPrefix, h]

theorem TrimPrefix_length_lt (s p : GoString) (h : HasPrefix s p = true) (hp : p ≠ []) :
    (TrimPrefix s p).length < s.length := by
  have hle : p.length ≤ s.length := (List.isPrefixOf_iff_prefix.mp h).length_le
  have hpos : 0 < p.length := List.length_pos.mpr hp
  simp [TrimPrefix, h]
  omega

/-- C1, as stated, fails: normalizing "gogo1.21" gives "go1.21", and
normalizing that again gives "1.21". -/
theorem C1_counterexample :
    NormalizeVersion (NormalizeVersion "gogo1.21".toList) ≠ NormalizeVersion "gogo1.21".toList := by
  decide

/-- C1, amended: normalizing a normalized version string changes nothing
exactly when the normalized string does not itself begin with "go" or "v". -/
theorem C1_normalize_idempotent_iff (v : GoString) :
    NormalizeVersion (NormalizeVersion v) = NormalizeVersion v ↔
      (HasPrefix (NormalizeVersion v) "go".toList = false ∧
        HasPrefix (NormalizeVersion v) "v".toList = false) := by
  constructor
  · intro h
    by_contra hc
    have hlt : (NormalizeVersion (NormalizeVersion v)).length < (NormalizeVersion v).length := by
      generalize NormalizeVersion v = w at hc ⊢
      by_cases hgo : HasPrefix w "go".toList = true
      · unfold NormalizeVersion
        exact lt_of_le_of_lt ((TrimSpace_length_le _).trans (TrimPrefix_length_le _ _))
          (TrimPrefix_length_lt _ _ hgo (by decide))
      · have hgo2 : HasPrefix w "go".toList = false := by simpa using hgo
        have hv : HasPrefix w "v".toList = true := by
          by_contra hv
          exact hc ⟨hgo2, by simpa using hv⟩
        unfold NormalizeVersion
        simp only [TrimPrefix_of_not _ _ hgo2]
        exact lt_of_le_of_lt (TrimSpace_length_le _) (TrimPrefix_length_lt _ _ hv (by decide))
    rw [h] at hlt
    exact lt_irrefl _ hlt
  · rintro ⟨h1, h2⟩
    have e : NormalizeVersion (NormalizeVersion v) = TrimSpace (NormalizeVersion v) := by
      show TrimSpace (TrimPrefix (TrimPrefix (NormalizeVersion v) "go".toList) "v".toList) = _
      rw [TrimPrefix_of_not _ _ h1, TrimPrefix_of_not _ _ h2]
    rw [e]
    unfold NormalizeVersion
    exact TrimSpace_idem _

/-- C2, as stated, fails: with the aliases prod = 1.21.0 and live = prod, the
alias live has the non-empty target prod, resolving live gives prod, and
resolving prod gives 1.21.0. -/
theorem C2_counterexample :
    GetAlias demoAliases "live".toList = ("prod".toList, true) ∧
      "prod".toList ≠ [] ∧
      ResolveVersion demoAliases "live".toList ≠ ResolveVersion demoAliases "prod".toList := by
  decide

/-- C2, amended: resolving an alias with a non-empty target t returns t; it
agrees with resolving t whenever t is not itself an alias with a non-empty
target and t is unchanged by normalization. -/
theorem C2_resolve_alias (cfg : Config) (a t : GoString)
    (h : GetAlias cfg a = (t, true)) (ht : t ≠ []) :
    ResolveVersion cfg a = t ∧
      (((GetAlias cfg t).2 = false ∨ (GetAlias cfg t).1 = []) → NormalizeVersion t = t →
        ResolveVersion cfg a = ResolveVersion cfg t) := by
  have h1 : ResolveVersion cfg a = t := by
    simp [ResolveVersion, h, ht]
  refine ⟨h1, ?_⟩
  intro hna hn
  rw [h1]
  unfold ResolveVersion
  rcases hg : GetAlias cfg t with ⟨x, ok⟩
  rw [hg] at hna
  simp only at hna ⊢
  rcases hna with hna | hna
  · simp [hna, hn]
  · simp [hna, hn]

theorem C2_resolve_alias_witness :
    ResolveVersion demoAliases "prod".toList = "1.21.0".toList ∧
      (((GetAlias demoAliases "1.21.0".toList).2 = false ∨
          (GetAlias demoAliases "1.21.0".toList).1 = []) →
        NormalizeVersion "1.21.0".toList = "1.21.0".toList →
        ResolveVersion demoAliases "prod".toList = ResolveVersion demoAliases "1.21.0".toList) :=
  C2_resolve_alias demoAliases "prod".toList "1.21.0".toList (by decide) (by decide)

/-- C3: the code writes outside the extraction root.  Installing an archive
whose entry go/x is a symbolic link to /tmp and whose next entry is the regular
file go/x/evil succeeds and creates /tmp/evil, which did not exist before and
does not lie below the directory of the version. -/
theorem C3_symlink_escape :
    (Install (fun _ => .ok demoLinkArchive) demoPaths demoInstalled
        "/r/cache/go1.21.0.tar.gz".toList "1.21.0".toList).2 = none ∧
      demoInstalled.get ["tmp".toList, "evil".toList] = none ∧
      (Install (fun _ => .ok demoLinkArchive) demoPaths demoInstalled
        "/r/cache/go1.21.0.tar.gz".toList "1.21.0".toList).1.get ["tmp".toList, "evil".toList] =
        some (Node.file [6, 6, 6]) ∧
      demoPaths.VersionPath "1.21.0".toList = "/r/versions/1.21.0".toList ∧
      HasPrefix "/tmp/evil".toList "/r/versions/1.21.0/".toList = false := by
  decide

/-- C5, as stated, fails: when the catalog declares an empty hash, Download
returns the cache path without error although the digest of the stored content
differs from the declared hash. -/
theorem C5_counterexample :
    GetDownloadURL (demoWorld []).fetched "linux".toList "amd64".toList "1.21.0".toList =
        .ok ("https://go.dev/dl/go1.21.0.linux-amd64.tar.gz".toList, []) ∧
      (Download (demoWorld []) demoPaths demoInstalled "1.21.0".toList).err = none ∧
      (Download (demoWorld []) demoPaths demoInstalled "1.21.0".toList).path =
        "/r/cache/go1.21.0.tar.gz".toList ∧
      ReadFile (Download (demoWorld []) demoPaths demoInstalled "1.21.0".toList).fs
        "/r/cache/go1.21.0.tar.gz".toList = .ok [1, 2, 3] ∧
      (demoWorld []).sha256hex [1, 2, 3] ≠ [] := by
  decide

/-- C6, as stated, fails: when the catalog declares an empty hash, the digest
of the downloaded content differs from it, yet Download returns no error and
the file that was at the cache path is replaced. -/
theorem C6_counterexample :
    (demoWorld []).sha256hex [1, 2, 3] ≠ [] ∧
      ReadFile demoInstalled "/r/cache/go1.21.0.tar.gz".toList = .ok [9] ∧
      (Download (demoWorld []) demoPaths demoInstalled "1.21.0".toList).err = none ∧
      ReadFile (Download (demoWorld []) demoPaths demoInstalled "1.21.0".toList).fs
        "/r/cache/go1.21.0.tar.gz".toList = .ok [1, 2, 3] := by
  decide

/-- C8, as stated, fails for a version string that is not a single path
element: "1.21.0/." counts as installed, `SetCurrent` succeeds on it, and
`GetCurrent` then returns "1.21.0". -/
theorem C8_counterexample :
    IsInstalled demoPaths demoInstalled "1.21.0/.".toList = true ∧
      (SetCurrent demoPaths demoInstalled "1.21.0/.".toList).2 = none ∧
      GetCurrent demoPaths (SetCurrent demoPaths demoInstalled "1.21.0/.".toList).1 =
        ("1.21.0".toList, none) ∧
      "1.21.0".toList ≠ "1.21.0/.".toList := by
  decide

/-- C10: the code breaks the invariant of the current pointer.
(1) `SetCurrent` on a version whose go directory exists without the go/bin/go
entrypoint succeeds and leaves the pointer at a version that is not installed.
(2) `Install` of the current version from an archive with an entry leaving the
root fails, removes the directory of the version and leaves the pointer
dangling. -/
theorem C10_pointer_invariant_broken :
    (pointerValid demoPaths demoBroken = true ∧
      (SetCurrent demoPaths demoBroken "1.21.0".toList).2 = none ∧
      pointerValid demoPaths (SetCurrent demoPaths demoBroken "1.21.0".toList).1 = false) ∧
    (pointerValid demoPaths demoActive = true ∧
      (Install (fun _ => .ok demoDotDotArchive) demoPaths demoActive
        "/r/cache/go1.21.0.tar.gz".toList "1.21.0".toList).2 ≠ none ∧
      pointerValid demoPaths (Install (fun _ => .ok demoDotDotArchive) demoPaths demoActive
        "/r/cache/go1.21.0.tar.gz".toList "1.21.0".toList).1 = false) := by
  decide

/-! ## The file system table -/

theorem lookupNode_filter_ne (l : List (Path × Node)) (p q : Path) :
    lookupNode (l.filter (fun e => e.1 ≠ p)) q = if q = p then none else lookupNode l q := by
  induction l with
  | nil => simp [lookupNode]
  | cons e l ih =>
    obtain ⟨r, n⟩ := e
    by_cases hr : r = p
    · subst hr
      simp only [List.filter, ne_eq, not_true_eq_false, decide_False, ih, lookupNode]
      by_cases hq : q = r
      · simp [hq]
      · have : ¬ r = q := fun h => hq h.symm
        simp [hq, this]
    · simp only [List.filter, ne_eq, hr, not_false_eq_true, decide_True, lookupNode, ih]
      by_cases hq : q = p
      · subst hq
        simp [hr]
      · simp [hq]

theorem lookupNode_filter_prefix (l : List (Path × Node)) (p q : Path) :
    lookupNode (l.filter (fun e => ¬ p.isPrefixOf e.1)) q =
      if p.isPrefixOf q then none else lookupNode l q := by
  induction l with
  | nil => simp [lookupNode]
  | cons e l ih =>
    obtain ⟨r, n⟩ := e
    by_cases hr : p.isPrefixOf r = true
    · simp only [List.filter, hr, not_true_eq_false, decide_False, ih, lookupNode]
      by_cases hq : p.isPrefixOf q = true
      · simp [hq]
      · have : ¬ r = q := by
          intro h; subst h; exact hq hr
        simp [hq, this]
    · simp only [List.filter, hr, not_false_eq_true, decide_True, lookupNode, ih]
      by_cases hq : p.isPrefixOf q = true
      · have : ¬ r = q := by
          intro h; subst h; exact hr hq
        simp [hq, this]
      · simp [hq]

theorem get_set (fs : FS) (p : Path) (n : Node) (q : Path) :
    (fs.set p n).get q = if q = [] then some Node.dir else if q = p then some n else fs.get q := by
  unfold FS.get FS.set
  by_cases hq : q = []
  · simp [hq]
  · simp only [hq, if_false, lookupNode, lookupNode_filter_ne]
    by_cases hqp : q = p
    · simp [hqp]
    · have : ¬ p = q := fun h => hqp h.symm
      simp [hqp, this]

theorem get_erase (fs : FS) (p q : Path) :
    (fs.erase p).get q = if q = [] then some Node.dir else if q = p then none else fs.get q := by
  unfold FS.get FS.erase
  by_cases hq : q = []
  · simp [hq]
  · simp only [if_neg hq]
    exact lookupNode_filter_ne _ _ _

theorem get_removeTree (fs : FS) (p q : Path) :
    (fs.removeTree p).get q =
      if q = [] then some Node.dir else if p.isPrefixOf q then none else fs.get q := by
  unfold FS.get FS.removeTree
  by_cases hq : q = []
  · simp [hq]
  · simp only [if_neg hq]
    exact lookupNode_filter_prefix _ _ _

theorem get_nil (fs : FS) : fs.get [] = some Node.dir := by
  simp [FS.get]

theorem sub_toExt {a b : FS} (h : Sub a b) : Ext a b :=
  ⟨h.1, fun p n hp _ => h.2 p n hp⟩

theorem sub_refl (a : FS) : Sub a a := ⟨rfl, fun _ _ h => h⟩

theorem sub_trans {a b c : FS} (h1 : Sub a b) (h2 : Sub b c) : Sub a c :=
  ⟨h1.1.trans h2.1, fun p n h => h2.2 p n (h1.2 p n h)⟩

theorem ext_refl (a : FS) : Ext a a := ⟨rfl, fun _ _ h _ => h⟩

theorem ext_trans {a b c : FS} (h1 : Ext a b) (h2 : Ext b c) : Ext a c :=
  ⟨h1.1.trans h2.1, fun p n h hs => h2.2 p n (h1.2 p n h hs) hs⟩

theorem sub_erase (fs : FS) (p : Path) : Sub (fs.erase p) fs := by
  refine ⟨rfl, fun q n h => ?_⟩
  rw [get_erase] at h
  by_cases hq : q = []
  · subst hq; simpa [get_nil] using h
  · by_cases hqp : q = p
    · subst hqp
      simp [hq] at h
    · simpa [hq, hqp] using h

theorem sub_removeTree (fs : FS) (p : Path) : Sub (fs.removeTree p) fs := by
  refine ⟨rfl, fun q n h => ?_⟩
  rw [get_removeTree] at h
  by_cases hq : q = []
  · subst hq; simpa [get_nil] using h
  · by_cases hqp : p.isPrefixOf q = true
    · simp [hq, hqp] at h
    · simpa [hq, hqp] using h

theorem ext_set_of_not_skel (fs : FS) (p : Path) (n : Node)
    (h : ∀ m, fs.get p = some m → m.isSkel = false) : Ext fs (fs.set p n) := by
  refine ⟨rfl, fun q m hq hs => ?_⟩
  rw [get_set]
  by_cases hq0 : q = []
  · subst hq0
    rw [get_nil] at hq
    simpa using hq
  · by_cases hqp : q = p
    · subst hqp
      rw [h m hq] at hs
      exact absurd hs (by simp)
    · simpa [hq0, hqp] using hq

/-! ## Path resolution under changes of the file system -/

theorem walkComps_ext {a b : FS} (h : Ext a b) (follow : Bool) (q : Path)
    (hq : follow = true → ∀ t, b.get q ≠ some (Node.link t))
    (onA onB : GoString → Path → List GoString → Except Errno Path)
    (hon : ∀ t cur rest, onA t cur rest = .ok q → onB t cur rest = .ok q) :
    ∀ comps cur, walkComps a onA follow comps cur = .ok q →
      walkComps b onB follow comps cur = .ok q := by
  intro comps
  induction comps with
  | nil => intro cur hw; simpa [walkComps] using hw
  | cons c rest ih =>
    intro cur hw
    unfold walkComps at hw ⊢
    by_cases h1 : c = [] ∨ c = ".".toList
    · simp only [h1, if_true] at hw ⊢
      exact ih _ hw
    · simp only [h1, if_false] at hw ⊢
      by_cases h2 : c = "..".toList
      · simp only [h2, if_true] at hw ⊢
        exact ih _ hw
      · simp only [h2, if_false] at hw ⊢
        have final : rest = [] → q = cur ++ [c] →
            (match b.get (cur ++ [c]) with
              | none => if rest = [] then Except.ok (cur ++ [c]) else .error Errno.ENOENT
              | some Node.dir => walkComps b onB follow rest (cur ++ [c])
              | some (Node.file _) => if rest = [] then .ok (cur ++ [c]) else .error Errno.ENOTDIR
              | some (Node.link t) =>
                if rest = [] ∧ follow = false then .ok (cur ++ [c]) else onB t cur rest) =
              .ok q := by
          intro hr hqx
          subst hr
          cases hb : b.get (cur ++ [c]) with
          | none => simp [hqx]
          | some m =>
            cases m with
            | dir => simp [walkComps, hqx]
            | file d => simp [hqx]
            | link t =>
              cases follow with
              | false => simp [hqx]
              | true =>
                exfalso
                exact hq rfl t (by rw [hqx]; exact hb)
        cases ha : a.get (cur ++ [c]) with
        | none =>
          rw [ha] at hw
          by_cases hr : rest = []
          · simp only [hr, if_true] at hw
            have hqx : q = cur ++ [c] := by
              injection hw with hw; exact hw.symm
            exact final hr hqx
          · simp [hr] at hw
        | some m =>
          rw [ha] at hw
          cases m with
          | dir =>
            rw [h.2 _ _ ha rfl]
            exact ih _ hw
          | file d =>
            by_cases hr : rest = []
            · simp only [hr, if_true] at hw
              have hqx : q = cur ++ [c] := by
                injection hw with hw; exact hw.symm
              exact final hr hqx
            · simp [hr] at hw
          | link t =>
            rw [h.2 _ _ ha rfl]
            by_cases hc : rest = [] ∧ follow = false
            · simp only [hc, and_self, if_true] at hw ⊢
              exact hw
            · simp only [hc, if_false] at hw ⊢
              exact hon _ _ _ hw

theorem walk_ext {a b : FS} (h : Ext a b) (follow : Bool) (q : Path)
    (hq : follow = true → ∀ t, b.get q ≠ some (Node.link t)) :
    ∀ n comps cur, walk a follow n comps cur = .ok q → walk b follow n comps cur = .ok q := by
  intro n
  induction n with
  | zero =>
    intro comps cur hw
    unfold walk at hw ⊢
    exact walkComps_ext h follow q hq _ _ (fun _ _ _ hx => by simp at hx) comps cur hw
  | succ n ih =>
    intro comps cur hw
    unfold walk at hw ⊢
    refine walkComps_ext h follow q hq _ _ ?_ comps cur hw
    intro t cur rest hx
    by_cases ht : t = []
    · simp [ht] at hx
    · simp only [ht, if_false] at hx ⊢
      exact ih _ _ hx

theorem resolve_ext {a b : FS} (h : Ext a b) (follow : Bool) (path : GoString) (q : Path)
    (hq : follow = true → ∀ t, b.get q ≠ some (Node.link t))
    (hr : resolve a follow path = .ok q) : resolve b follow path = .ok q := by
  unfold resolve at hr ⊢
  by_cases hp : path = []
  · simp [hp] at hr
  · simp only [hp, if_false] at hr ⊢
    rw [← h.1]
    exact walk_ext h follow q hq _ _ _ hr

theorem walkComps_sub_err {a b : FS} (h : Sub a b) (follow : Bool) (e : Errno)
    (onA onB : GoString → Path → List GoString → Except Errno Path)
    (hon : ∀ t cur rest, onA t cur rest = .error e → e = Errno.ENOENT ∨ onB t cur rest = .error e) :
    ∀ comps cur, walkComps a onA follow comps cur = .error e →
      e = Errno.ENOENT ∨ walkComps b onB follow comps cur = .error e := by
  intro comps
  induction comps with
  | nil => intro cur hw; simp [walkComps] at hw
  | cons c rest ih =>
    intro cur hw
    unfold walkComps at hw ⊢
    by_cases h1 : c = [] ∨ c = ".".toList
    · simp only [h1, if_true] at hw ⊢
      exact ih _ hw
    · simp only [h1, if_false] at hw ⊢
      by_cases h2 : c = "..".toList
      · simp only [h2, if_true] at hw ⊢
        exact ih _ hw
      · simp only [h2, if_false] at hw ⊢
        cases ha : a.get (cur ++ [c]) with
        | none =>
          rw [ha] at hw
          by_cases hr : rest = []
          · simp [hr] at hw
          · simp only [hr, if_false] at hw
            left
            injection hw with hw
            exact hw.symm
        | some m =>
          rw [ha] at hw
          rw [h.2 _ _ ha]
          cases m with
          | dir => exact ih _ hw
          | file d => right; exact hw
          | link t =>
            by_cases hc : rest = [] ∧ follow = false
            · simp [hc] at hw
            · simp only [hc, if_false] at hw ⊢
              exact hon _ _ _ hw

theorem walk_sub_err {a b : FS} (h : Sub a b) (follow : Bool) (e : Errno) :
    ∀ n comps cur, walk a follow n comps cur = .error e →
      e = Errno.ENOENT ∨ walk b follow n comps cur = .error e := by
  intro n
  induction n with
  | zero =>
    intro comps cur hw
    unfold walk at hw ⊢
    exact walkComps_sub_err h follow e _ _ (fun _ _ _ hx => Or.inr hx) comps cur hw
  | succ n ih =>
    intro comps cur hw
    unfold walk at hw ⊢
    refine walkComps_sub_err h follow e _ _ ?_ comps cur hw
    intro t cur rest hx
    by_cases ht : t = []
    · simp only [ht, if_true] at hx ⊢
      exact Or.inr hx
    · simp only [ht, if_false] at hx ⊢
      exact ih _ _ hx

theorem resolve_sub_err {a b : FS} (h : Sub a b) (follow : Bool) (path : GoString) (e : Errno)
    (hr : resolve a follow path = .error e) :
    e = Errno.ENOENT ∨ resolve b follow path = .error e := by
  unfold resolve at hr ⊢
  by_cases hp : path = []
  · simp only [hp, if_true] at hr ⊢
    exact Or.inr hr
  · simp only [hp, if_false] at hr ⊢
    rw [← h.1]
    exact walk_sub_err h follow e _ _ _ hr

/-! ## System calls -/

theorem lstat_absent_mono {a b : FS} (h : Sub a b) (p : GoString)
    (hb : Lstat b p = .error Errno.ENOENT) : Lstat a p = .error Errno.ENOENT := by
  unfold Lstat at hb ⊢
  cases hr : resolve a false p with
  | error e =>
    rcases resolve_sub_err h false p e hr with he | he
    · simp [he]
    · rw [he] at hb
      simpa using hb
  | ok q =>
    have hq := resolve_ext (sub_toExt h) false p q (by simp) hr
    rw [hq] at hb
    cases hg : a.get q with
    | none => simp [hg]
    | some n =>
      simp [h.2 _ _ hg] at hb

theorem lstat_after_remove {fs fs1 : FS} {p : GoString} (h : Remove fs p = .ok fs1) :
    Sub fs1 fs ∧ Lstat fs1 p = .error Errno.ENOENT := by
  unfold Remove at h
  cases hr : resolve fs false p with
  | error e => simp [hr] at h
  | ok r =>
    simp only [hr] at h
    by_cases hr0 : r = []
    · simp [hr0] at h
    · simp only [hr0, if_false] at h
      have hfs1 : fs1 = fs.erase r := by
        cases hg : fs.get r with
        | none => simp [hg] at h
        | some n =>
          cases n with
          | dir =>
            simp only [hg] at h
            by_cases hc : fs.hasChildren r = true
            · simp [hc] at h
            · simp only [hc] at h
              injection h with h
              exact h.symm
          | file d =>
            simp only [hg] at h
            injection h with h
            exact h.symm
          | link t =>
            simp only [hg] at h
            injection h with h
            exact h.symm
      subst hfs1
      refine ⟨sub_erase fs r, ?_⟩
      unfold Lstat
      cases hr1 : resolve (fs.erase r) false p with
      | error e =>
        rcases resolve_sub_err (sub_erase fs r) false p e hr1 with he | he
        · simp [he]
        · rw [hr] at he
          simp at he
      | ok q =>
        have hq := resolve_ext (sub_toExt (sub_erase fs r)) false p q (by simp) hr1
        rw [hr] at hq
        injection hq with hq
        subst hq
        simp [get_erase, hr0]

theorem lstat_of_remove_enoent {fs : FS} {p : GoString} (h : Remove fs p = .error Errno.ENOENT) :
    Lstat fs p = .error Errno.ENOENT := by
  unfold Remove at h
  unfold Lstat
  cases hr : resolve fs false p with
  | error e =>
    simp only [hr] at h
    simpa using h
  | ok r =>
    simp only [hr] at h
    by_cases hr0 : r = []
    · simp [hr0] at h
    · simp only [hr0, if_false] at h
      cases hg : fs.get r with
      | none => simp [hg]
      | some n =>
        cases n with
        | dir =>
          simp only [hg] at h
          by_cases hc : fs.hasChildren r = true
          · simp [hc] at h
          · simp [hc] at h
        | file d => simp [hg] at h
        | link t => simp [hg] at h

theorem readlink_of_lstat_enoent {fs : FS} {p : GoString} (h : Lstat fs p = .error Errno.ENOENT) :
    Readlink fs p = .error Errno.ENOENT := by
  unfold Lstat at h
  unfold Readlink
  cases hr : resolve fs false p with
  | error e =>
    simp only [hr] at h
    simpa using h
  | ok r =>
    simp only [hr] at h
    cases hg : fs.get r with
    | none => simp [hg]
    | some n => simp [hg] at h

theorem lstat_of_readlink_enoent {fs : FS} {p : GoString} (h : Readlink fs p = .error Errno.ENOENT) :
    Lstat fs p = .error Errno.ENOENT := by
  unfold Readlink at h
  unfold Lstat
  cases hr : resolve fs false p with
  | error e =>
    simp only [hr] at h
    simpa using h
  | ok r =>
    simp only [hr] at h
    cases hg : fs.get r with
    | none => simp [hg]
    | some n =>
      cases n with
      | dir => simp [hg] at h
      | file d => simp [hg] at h
      | link t => simp [hg] at h

theorem removeAll_ok {fs fs2 : FS} {p : GoString} (h : RemoveAll fs p = (fs2, none)) :
    Sub fs2 fs ∧ ∀ n, Lstat fs2 p ≠ .ok n := by
  unfold RemoveAll at h
  by_cases hp : p = []
  · simp only [hp, if_true] at h
    injection h with h1 h2
    subst h1
    refine ⟨sub_refl _, fun n hn => ?_⟩
    simp [Lstat, resolve, hp] at hn
  · simp only [hp, if_false] at h
    by_cases hd : endsWithDot p = true
    · simp [hd] at h
    · simp only [hd] at h
      cases hr : resolve fs false p with
      | error e =>
        simp only [hr] at h
        by_cases he : IsNotExist e = true
        · simp only [he, if_true] at h
          injection h with h1 h2
          subst h1
          refine ⟨sub_refl _, fun n hn => ?_⟩
          simp [Lstat, hr] at hn
        · simp [he] at h
      | ok r =>
        simp only [hr] at h
        by_cases hr0 : r = []
        · simp [hr0] at h
        · simp only [hr0, if_false] at h
          injection h with h1 h2
          subst h1
          refine ⟨sub_removeTree fs r, fun n hn => ?_⟩
          unfold Lstat at hn
          cases hr1 : resolve (fs.removeTree r) false p with
          | error e => simp [hr1] at hn
          | ok q =>
            have hq := resolve_ext (sub_toExt (sub_removeTree fs r)) false p q (by simp) hr1
            rw [hr] at hq
            injection hq with hq
            subst hq
            simp [hr1, get_removeTree, hr0] at hn

/-- C9: whenever version v is installed and current and `Uninstall v` succeeds,
`GetCurrent` afterwards returns the empty string without error, nothing exists
at the path of the current pointer, and nothing exists at the path of the
directory of v. -/
theorem C9_uninstall_current (paths : Paths) (fs fs2 : FS) (version : GoString)
    (_hinst : IsInstalled paths fs version = true)
    (hcur : GetCurrent paths fs = (version, none))
    (hun : Uninstall paths fs version = (fs2, none)) :
    GetCurrent paths fs2 = ([], none) ∧
      Lstat fs2 paths.Current = .error Errno.ENOENT ∧
      ∀ n, Lstat fs2 (paths.VersionPath version) ≠ .ok n := by
  unfold Uninstall at hun
  simp only [hcur] at hun
  split at hun
  · simp at hun
  · simp only [and_self, if_true] at hun
    have key : ∀ fs1, Lstat fs1 paths.Current = .error Errno.ENOENT →
        (match RemoveAll fs1 (paths.VersionPath version) with
          | (fs2, some e) => (fs2, some (Err.wrap "failed to remove version" (Err.sys e)))
          | (fs2, none) => (fs2, none)) = (fs2, none) →
        GetCurrent paths fs2 = ([], none) ∧
          Lstat fs2 paths.Current = .error Errno.ENOENT ∧
          ∀ n, Lstat fs2 (paths.VersionPath version) ≠ .ok n := by
      intro fs1 h1 h2
      rcases hra : RemoveAll fs1 (paths.VersionPath version) with ⟨fs3, e3⟩
      rw [hra] at h2
      cases e3 with
      | some e => simp at h2
      | none =>
        simp only at h2
        injection h2 with h2 _
        subst h2
        obtain ⟨hsub, hgone⟩ := removeAll_ok hra
        have hl := lstat_absent_mono hsub _ h1
        refine ⟨?_, hl, hgone⟩
        simp [GetCurrent, readlink_of_lstat_enoent hl, IsNotExist]
    cases hrm : Remove fs paths.Current with
    | error e =>
      simp only [hrm] at hun
      by_cases he : IsNotExist e = true
      · simp only [he, if_true] at hun
        have : e = Errno.ENOENT := by
          simpa [IsNotExist] using he
        subst this
        exact key fs (lstat_of_remove_enoent hrm) hun
      · simp [he] at hun
    | ok fs1 =>
      simp only [hrm] at hun
      exact key fs1 (lstat_after_remove hrm).2 hun

theorem C9_uninstall_current_witness :
    GetCurrent demoPaths (Uninstall demoPaths demoActive "1.21.0".toList).1 = ([], none) ∧
      Lstat (Uninstall demoPaths demoActive "1.21.0".toList).1 demoPaths.Current =
        .error Errno.ENOENT ∧
      ∀ n, Lstat (Uninstall demoPaths demoActive "1.21.0".toList).1
        (demoPaths.VersionPath "1.21.0".toList) ≠ .ok n :=
  C9_uninstall_current demoPaths demoActive _ "1.21.0".toList (by decide) (by decide) (by decide)

/-! ## Path strings -/

theorem splitSlash_ne_nil (s : GoString) : splitSlash s ≠ [] := by
  cases s with
  | nil => simp [splitSlash]
  | cons c cs =>
    unfold splitSlash
    by_cases hc : c = '/'
    · simp [hc]
    · simp only [hc, if_false]
      cases splitSlash cs <;> simp

theorem splitSlash_of_slashFree (s : GoString) (h : '/' ∉ s) : splitSlash s = [s] := by
  induction s with
  | nil => simp [splitSlash]
  | cons c cs ih =>
    have hc : c ≠ '/' := fun e => h (by simp [e])
    have hcs : '/' ∉ cs := fun e => h (by simp [e])
    unfold splitSlash
    simp [hc, ih hcs]

theorem splitSlash_append_slash (a b : GoString) :
    splitSlash (a ++ '/' :: b) = splitSlash a ++ splitSlash b := by
  induction a with
  | nil => simp [splitSlash]
  | cons c cs ih =>
    by_cases hc : c = '/'
    · simp [splitSlash, hc, ih]
    · have hne := splitSlash_ne_nil cs
      simp only [List.cons_append, splitSlash, hc, if_false]
      rw [show cs.append ('/' :: b) = cs ++ '/' :: b from rfl, ih]
      cases hcs : splitSlash cs with
      | nil => exact absurd hcs hne
      | cons x xs => simp

theorem cleanElems_cons_skip (rooted : Bool) (st cs : List GoString) (d : GoString)
    (hd : d = [] ∨ d = ".".toList) : cleanElems rooted st (d :: cs) = cleanElems rooted st cs := by
  simp only [cleanElems, hd, if_true]

theorem cleanElems_cons_elem (rooted : Bool) (st cs : List GoString) (d : GoString)
    (hd : ¬ (d = [] ∨ d = ".".toList)) (hdd : d ≠ "..".toList) :
    cleanElems rooted st (d :: cs) = cleanElems rooted (d :: st) cs := by
  simp only [cleanElems, hd, hdd, if_false]

theorem cleanElems_cons_dotdot_nil (rooted : Bool) (cs : List GoString) :
    cleanElems rooted [] ("..".toList :: cs) =
      if rooted then cleanElems rooted [] cs else cleanElems rooted ["..".toList] cs := by
  have h : ¬ ("..".toList = [] ∨ "..".toList = ".".toList) := by decide
  simp only [cleanElems, h, if_false, if_true]

theorem cleanElems_cons_dotdot_cons (rooted : Bool) (top : GoString) (below cs : List GoString) :
    cleanElems rooted (top :: below) ("..".toList :: cs) =
      if top = "..".toList then cleanElems rooted ("..".toList :: top :: below) cs
      else cleanElems rooted below cs := by
  have h : ¬ ("..".toList = [] ∨ "..".toList = ".".toList) := by decide
  simp only [cleanElems, h, if_false, if_true]

theorem cleanElems_append_elem (rooted : Bool) (c : GoString)
    (h0 : c ≠ []) (h1 : c ≠ ".".toList) (h2 : c ≠ "..".toList) :
    ∀ cs st, cleanElems rooted st (cs ++ [c]) = cleanElems rooted st cs ++ [c] := by
  intro cs
  induction cs with
  | nil =>
    intro st
    have hc : ¬ (c = [] ∨ c = ".".toList) := by
      rintro (h | h)
      · exact h0 h
      · exact h1 h
    rw [List.nil_append, cleanElems_cons_elem rooted st [] c hc h2]
    simp [cleanElems]
  | cons d ds ih =>
    intro st
    rw [List.cons_append]
    by_cases hd : d = [] ∨ d = ".".toList
    · rw [cleanElems_cons_skip _ _ _ _ hd, cleanElems_cons_skip _ _ _ _ hd]
      exact ih st
    · by_cases hdd : d = "..".toList
      · subst hdd
        cases st with
        | nil =>
          rw [cleanElems_cons_dotdot_nil, cleanElems_cons_dotdot_nil]
          cases rooted
          · exact ih _
          · exact ih _
        | cons top below =>
          rw [cleanElems_cons_dotdot_cons, cleanElems_cons_dotdot_cons]
          by_cases ht : top = "..".toList
          · rw [if_pos ht, if_pos ht]; exact ih _
          · rw [if_neg ht, if_neg ht]; exact ih _
      · rw [cleanElems_cons_elem _ _ _ _ hd hdd, cleanElems_cons_elem _ _ _ _ hd hdd]
        exact ih _

theorem cleanElems_append_empty (rooted : Bool) :
    ∀ cs st, cleanElems rooted st (cs ++ [[]]) = cleanElems rooted st cs := by
  intro cs
  induction cs with
  | nil =>
    intro st
    rw [List.nil_append, cleanElems_cons_skip _ _ _ _ (Or.inl rfl)]
  | cons d ds ih =>
    intro st
    rw [List.cons_append]
    by_cases hd : d = [] ∨ d = ".".toList
    · rw [cleanElems_cons_skip _ _ _ _ hd, cleanElems_cons_skip _ _ _ _ hd]
      exact ih st
    · by_cases hdd : d = "..".toList
      · subst hdd
        cases st with
        | nil =>
          rw [cleanElems_cons_dotdot_nil, cleanElems_cons_dotdot_nil]
          cases rooted
          · exact ih _
          · exact ih _
        | cons top below =>
          rw [cleanElems_cons_dotdot_cons, cleanElems_cons_dotdot_cons]
          by_cases ht : top = "..".toList
          · rw [if_pos ht, if_pos ht]; exact ih _
          · rw [if_neg ht, if_neg ht]; exact ih _
      · rw [cleanElems_cons_elem _ _ _ _ hd hdd, cleanElems_cons_elem _ _ _ _ hd hdd]
        exact ih _

theorem joinSlash_append_elem (ys : List GoString) (c : GoString) (h : ys ≠ []) :
    joinSlash (ys ++ [c]) = joinSlash ys ++ '/' :: c := by
  induction ys with
  | nil => exact absurd rfl h
  | cons y ys ih =>
    cases ys with
    | nil => simp [joinSlash]
    | cons z zs =>
      have := ih (by simp)
      simp only [List.cons_append] at this ⊢
      simp [joinSlash, this]

theorem endsIn_ne_nil {s c : GoString} (h : EndsIn s c) (hc : c ≠ []) : s ≠ [] := by
  rcases h with h | ⟨pre, h⟩
  · rw [h]; exact hc
  · rw [h]; simp

theorem endsIn_split {s c : GoString} (h : EndsIn s c) (hc : '/' ∉ c) :
    ∃ pre, splitSlash s = pre ++ [c] := by
  rcases h with h | ⟨pre, h⟩
  · exact ⟨[], by rw [h, splitSlash_of_slashFree c hc]; rfl⟩
  · exact ⟨splitSlash pre, by rw [h, splitSlash_append_slash, splitSlash_of_slashFree c hc]⟩

theorem Clean_endsIn {s c : GoString} (h : EndsIn s c) (hs : '/' ∉ c)
    (h0 : c ≠ []) (h1 : c ≠ ".".toList) (h2 : c ≠ "..".toList) : EndsIn (Clean s) c := by
  obtain ⟨pre, hpre⟩ := endsIn_split h hs
  unfold Clean
  simp only [endsIn_ne_nil h h0, if_false, hpre, cleanElems_append_elem _ c h0 h1 h2]
  generalize cleanElems (s.head? = some '/') [] pre = out
  by_cases hout : out = []
  · subst hout
    by_cases hr : s.head? = some '/'
    · simp only [hr, if_true, List.nil_append, joinSlash]
      exact Or.inr ⟨[], rfl⟩
    · simp only [hr]
      simp only [List.nil_append, joinSlash]
      simp
      exact Or.inl rfl
  · rw [joinSlash_append_elem out c hout]
    by_cases hr : s.head? = some '/'
    · simp only [hr, if_true]
      exact Or.inr ⟨'/' :: joinSlash out, rfl⟩
    · simp only [hr]
      simp
      exact Or.inr ⟨joinSlash out, rfl⟩

theorem Join_cons_ne (a : GoString) (rest : List GoString) (ha : a ≠ []) :
    Join (a :: rest) = Clean (joinSlash (a :: rest)) := by
  unfold Join
  simp [List.dropWhile, ha]

theorem Join_pair_endsIn (a c : GoString) (hs : '/' ∉ c)
    (h0 : c ≠ []) (h1 : c ≠ ".".toList) (h2 : c ≠ "..".toList) : EndsIn (Join [a, c]) c := by
  unfold Join
  by_cases ha : a = []
  · subst ha
    simp only [List.dropWhile, decide_True, h0, decide_False, joinSlash]
    exact Clean_endsIn (Or.inl rfl) hs h0 h1 h2
  · simp only [List.dropWhile, ha, decide_False, joinSlash]
    exact Clean_endsIn (Or.inr ⟨a, rfl⟩) hs h0 h1 h2

theorem dropWhile_append_of_all {α : Type} (p : α → Bool) (a b : List α) (h : ∀ x ∈ a, p x = true) :
    (a ++ b).dropWhile p = b.dropWhile p := by
  induction a with
  | nil => rfl
  | cons x xs ih =>
    have hx : p x = true := h x (by simp)
    simp only [List.cons_append, List.dropWhile_cons, hx, if_true]
    exact ih (fun y hy => h y (by simp [hy]))

theorem takeWhile_append_stop {α : Type} (p : α → Bool) (a b : List α) (h : ∀ x ∈ a, p x = true)
    (hb : b = [] ∨ ∃ y b1, b = y :: b1 ∧ p y = false) : (a ++ b).takeWhile p = a := by
  induction a with
  | nil =>
    rcases hb with hb | ⟨y, b1, hb, hy⟩
    · simp [hb]
    · simp [hb, List.takeWhile_cons, hy]
  | cons x xs ih =>
    have hx : p x = true := h x (by simp)
    simp only [List.cons_append, List.takeWhile_cons, hx, if_true]
    rw [ih (fun y hy => h y (by simp [hy]))]

theorem Dir_slash_elem (s c : GoString) (hs : '/' ∉ c) :
    Dir (s ++ '/' :: c) = Clean (s ++ ['/']) := by
  unfold Dir
  congr 1
  unfold List.rdropWhile
  have : (s ++ '/' :: c).reverse = c.reverse ++ ('/' :: s.reverse) := by simp
  rw [this, dropWhile_append_of_all]
  · simp [List.dropWhile_cons]
  · intro x hx
    have : x ≠ '/' := fun e => hs (by rw [← e]; exact List.mem_reverse.mp hx)
    simpa using this

theorem Clean_slash_endsIn {s c : GoString} (h : EndsIn s c) (hs : '/' ∉ c)
    (h0 : c ≠ []) (h1 : c ≠ ".".toList) (h2 : c ≠ "..".toList) :
    EndsIn (Clean (s ++ ['/'])) c := by
  obtain ⟨pre, hpre⟩ := endsIn_split h hs
  have hsplit : splitSlash (s ++ ['/']) = (pre ++ [c]) ++ [[]] := by
    rw [splitSlash_append_slash, hpre]
    simp [splitSlash]
  unfold Clean
  have hne : s ++ ['/'] ≠ [] := by simp
  simp only [hne, if_false, hsplit, cleanElems_append_empty, cleanElems_append_elem _ c h0 h1 h2]
  generalize cleanElems ((s ++ ['/']).head? = some '/') [] pre = out
  by_cases hout : out = []
  · subst hout
    by_cases hr : (s ++ ['/']).head? = some '/'
    · simp only [hr, if_true, List.nil_append, joinSlash]
      exact Or.inr ⟨[], rfl⟩
    · simp only [hr]
      simp only [List.nil_append, joinSlash]
      simp
      exact Or.inl rfl
  · rw [joinSlash_append_elem out c hout]
    by_cases hr : (s ++ ['/']).head? = some '/'
    · simp only [hr, if_true]
      exact Or.inr ⟨'/' :: joinSlash out, rfl⟩
    · simp only [hr]
      simp
      exact Or.inr ⟨joinSlash out, rfl⟩

theorem Base_endsIn {s c : GoString} (h : EndsIn s c) (hs : '/' ∉ c) (h0 : c ≠ []) :
    Base s = c := by
  have hne := endsIn_ne_nil h h0
  obtain ⟨pre, hpre⟩ : ∃ pre : GoString, s = pre ++ c ∧ (pre = [] ∨ ∃ p1, pre = p1 ++ ['/']) := by
    rcases h with h | ⟨p1, h⟩
    · exact ⟨[], by simp [h], Or.inl rfl⟩
    · exact ⟨p1 ++ ['/'], by simp [h], Or.inr ⟨p1, rfl⟩⟩
  obtain ⟨hsc, hp⟩ := hpre
  have hlast : ∀ x ∈ c, x ≠ '/' := fun x hx e => hs (e ▸ hx)
  unfold Base
  simp only [hne, if_false]
  have hdrop : s.rdropWhile (fun ch => decide (ch = '/')) = s := by
    rw [List.rdropWhile_eq_self_iff]
    intro hl
    have : s.getLast hl ∈ c := by
      have hc := List.getLast_mem h0
      have : s.getLast hl = c.getLast h0 := by
        subst hsc
        exact List.getLast_append_of_ne_nil h0
      rw [this]; exact hc
    simpa using hlast _ this
  have htake : s.rtakeWhile (fun ch => decide (ch ≠ '/')) = c := by
    unfold List.rtakeWhile
    have hrev : s.reverse = c.reverse ++ pre.reverse := by rw [hsc]; simp
    rw [hrev, takeWhile_append_stop]
    · simp
    · intro x hx
      simpa using hlast x (List.mem_reverse.mp hx)
    · rcases hp with hp | ⟨p1, hp⟩
      · left; simp [hp]
      · right
        exact ⟨'/', p1.reverse, by simp [hp], by simp⟩
  simp only [hdrop, htake, h0, if_false]

/-- The version `GetCurrent` derives from the link target `SetCurrent` writes
is the version given, for a version that is a single path element. -/
theorem Base_Dir_goPath (versions version : GoString) (h : isElem version) :
    Base (Dir (Join [Join [versions, version], "go".toList])) = version := by
  obtain ⟨h0, hs, h1, h2⟩ := h
  have hX := Join_pair_endsIn versions version hs h0 h1 h2
  have hXne := endsIn_ne_nil hX h0
  generalize Join [versions, version] = X at hX hXne
  rw [Join_cons_ne X _ hXne]
  simp only [joinSlash]
  -- the cleaned path ends in the element go, after a prefix ending in `version`
  obtain ⟨pre, hpre⟩ := endsIn_split hX hs
  have hsplit : splitSlash (X ++ '/' :: "go".toList) = (pre ++ [version]) ++ ["go".toList] := by
    rw [splitSlash_append_slash, hpre, splitSlash_of_slashFree _ (by decide)]
  have hclean : ∃ Z, EndsIn Z version ∧ Clean (X ++ '/' :: "go".toList) = Z ++ '/' :: "go".toList := by
    unfold Clean
    have hne : X ++ '/' :: "go".toList ≠ [] := by simp
    simp only [hne, if_false, hsplit, cleanElems_append_elem _ "go".toList (by decide) (by decide)
      (by decide), cleanElems_append_elem _ version h0 h1 h2]
    generalize cleanElems ((X ++ '/' :: "go".toList).head? = some '/') [] pre = out
    have hne2 : out ++ [version] ≠ [] := by simp
    rw [joinSlash_append_elem _ _ hne2]
    by_cases hr : (X ++ '/' :: "go".toList).head? = some '/'
    · simp only [hr, if_true]
      refine ⟨'/' :: joinSlash (out ++ [version]), ?_, rfl⟩
      by_cases hout : out = []
      · subst hout
        exact Or.inr ⟨[], by simp [joinSlash]⟩
      · rw [joinSlash_append_elem out version hout]
        exact Or.inr ⟨'/' :: joinSlash out, rfl⟩
    · simp only [hr]
      simp only [List.append_eq_nil, and_false, if_false, List.cons_ne_self, decide_False]
      refine ⟨joinSlash (out ++ [version]), ?_, by simp⟩
      by_cases hout : out = []
      · subst hout
        exact Or.inl (by simp [joinSlash])
      · rw [joinSlash_append_elem out version hout]
        exact Or.inr ⟨joinSlash out, rfl⟩
  obtain ⟨Z, hZ, hcl⟩ := hclean
  rw [hcl, Dir_slash_elem Z "go".toList (by decide)]
  exact Base_endsIn (Clean_slash_endsIn hZ hs h0 h1 h2) hs h0

/-! ## The shape of cleaned paths -/

theorem splitSlash_slashFree (s : GoString) : ∀ x ∈ splitSlash s, '/' ∉ x := by
  induction s with
  | nil => simp [splitSlash]
  | cons c cs ih =>
    unfold splitSlash
    by_cases hc : c = '/'
    · simp only [hc, if_true]
      intro x hx
      rcases List.mem_cons.mp hx with h | h
      · simp [h]
      · exact ih x h
    · simp only [hc, if_false]
      cases hcs : splitSlash cs with
      | nil => exact absurd hcs (splitSlash_ne_nil cs)
      | cons y ys =>
        rw [hcs] at ih
        intro x hx
        rcases List.mem_cons.mp hx with h | h
        · rw [h]
          intro hm
          rcases List.mem_cons.mp hm with h1 | h1
          · exact hc h1.symm
          · exact ih y (by simp) h1
        · exact ih x (by simp [h])

theorem splitSlash_joinSlash (xs : List GoString) (hne : xs ≠ []) (h : ∀ x ∈ xs, '/' ∉ x) :
    splitSlash (joinSlash xs) = xs := by
  induction xs with
  | nil => exact absurd rfl hne
  | cons x xs ih =>
    cases xs with
    | nil => simpa [joinSlash] using splitSlash_of_slashFree x (h x (by simp))
    | cons y ys =>
      have ih2 := ih (by simp) (fun z hz => h z (by simp [hz]))
      simp only [joinSlash]
      rw [splitSlash_append_slash, splitSlash_of_slashFree x (h x (by simp))]
      simp only [joinSlash] at ih2
      rw [ih2]
      rfl

theorem isElem_not_lead {c : GoString} (h : isElem c) : ¬ (c = [] ∨ c = ".".toList) := by
  rintro (h1 | h1)
  · exact h.1 h1
  · exact h.2.2.1 h1

theorem cleanElems_form (rooted : Bool) :
    ∀ cs st, (∀ x ∈ cs, '/' ∉ x) → CleanForm rooted st.reverse →
      CleanForm rooted (cleanElems rooted st cs) := by
  intro cs
  induction cs with
  | nil =>
    intro st _ hst
    simpa [cleanElems] using hst
  | cons d ds ih =>
    intro st hsl hst
    have hsl2 : ∀ x ∈ ds, '/' ∉ x := fun x hx => hsl x (by simp [hx])
    by_cases hd : d = [] ∨ d = ".".toList
    · rw [cleanElems_cons_skip _ _ _ _ hd]
      exact ih st hsl2 hst
    · by_cases hdd : d = "..".toList
      · subst hdd
        cases st with
        | nil =>
          rw [cleanElems_cons_dotdot_nil]
          cases rooted with
          | true => simpa using ih [] hsl2 hst
          | false =>
            simp only [Bool.false_eq_true, if_false]
            refine ih _ hsl2 ⟨1, [], by simp, by simp, by simp⟩
        | cons top below =>
          rw [cleanElems_cons_dotdot_cons]
          obtain ⟨j, names, hrev, hj, hnames⟩ := hst
          by_cases ht : top = "..".toList
          · rw [if_pos ht]
            subst ht
            -- the stack holds only ".." elements
            have hnil : names = [] := by
              by_contra hne
              have hlast : names.getLast hne = "..".toList := by
                have h1 : ("..".toList :: below).reverse.getLast? = some "..".toList := by simp
                rw [hrev, List.getLast?_append_of_ne_nil _ hne, List.getLast?_eq_getLast _ hne] at h1
                exact Option.some.inj h1
              have := hnames _ (List.getLast_mem hne)
              exact this.2.2.2 hlast
            subst hnil
            refine ih _ hsl2 ⟨j + 1, [], ?_, ?_, by simp⟩
            · simp only [List.append_nil] at hrev
              simp only [List.reverse_cons, List.append_nil] at hrev ⊢
              rw [hrev, List.replicate_succ']
            · intro hr
              have hj0 := hj hr
              subst hj0
              simp at hrev
          · rw [if_neg ht]
            have hne : names ≠ [] := by
              intro hn
              subst hn
              simp only [List.append_nil] at hrev
              have h2 : top ∈ List.replicate j "..".toList := by
                rw [← hrev]; simp
              exact ht (List.eq_of_mem_replicate h2)
            -- `top` is the last name; popping it leaves a prefix of the names
            have hsplit : names = names.dropLast ++ [top] := by
              have h1 : (top :: below).reverse.getLast? = some top := by simp
              rw [hrev, List.getLast?_append_of_ne_nil _ hne, List.getLast?_eq_getLast _ hne] at h1
              have h2 := Option.some.inj h1
              rw [← h2]
              exact (List.dropLast_append_getLast hne).symm
            refine ih _ hsl2 ⟨j, names.dropLast, ?_, hj, fun x hx => hnames x (List.mem_of_mem_dropLast hx)⟩
            have h3 : below.reverse ++ [top] = (List.replicate j "..".toList ++ names.dropLast) ++ [top] := by
              rw [List.append_assoc, ← hsplit, ← hrev]; simp
            exact List.append_cancel_right h3
      · rw [cleanElems_cons_elem _ _ _ _ hd hdd]
        obtain ⟨j, names, hrev, hj, hnames⟩ := hst
        refine ih _ hsl2 ⟨j, names ++ [d], ?_, hj, ?_⟩
        · simp [hrev]
        · intro x hx
          rcases List.mem_append.mp hx with h | h
          · exact hnames x h
          · have hxd : x = d := by simpa using h
            subst hxd
            refine ⟨fun h0 => hd (Or.inl h0), hsl x (by simp), fun h1 => hd (Or.inr h1), hdd⟩

/-- The components of a cleaned path: components that name nothing first, then
proper names only. -/
theorem splitSlash_Clean (s : GoString) :
    ∃ lead names, splitSlash (Clean s) = lead ++ names ∧ (∀ x ∈ lead, isLead x) ∧
      ∀ x ∈ names, isElem x := by
  unfold Clean
  by_cases hs : s = []
  · simp only [hs, if_true]
    exact ⟨[".".toList], [], by decide, by simp [isLead], by simp⟩
  · simp only [hs, if_false]
    obtain ⟨j, names, hout, hj, hn⟩ :=
      cleanElems_form (s.head? = some '/') (splitSlash s) [] (splitSlash_slashFree s)
        ⟨0, [], by simp, by simp, by simp⟩
    rw [hout]
    have hsf : ∀ x ∈ List.replicate j "..".toList ++ names, '/' ∉ x := by
      intro x hx
      rcases List.mem_append.mp hx with h | h
      · rw [List.eq_of_mem_replicate h]; decide
      · exact (hn x h).2.1
    by_cases hr : s.head? = some '/'
    · have hj0 : j = 0 := hj (by simpa using hr)
      subst hj0
      simp only [hr, if_true, List.replicate_zero, List.nil_append]
      simp only [List.replicate_zero, List.nil_append] at hsf
      have hsp : splitSlash ('/' :: joinSlash names) = [] :: splitSlash (joinSlash names) := by
        simp [splitSlash]
      rw [hsp]
      by_cases hne : names = []
      · subst hne
        exact ⟨[[], []], [], by simp [joinSlash, splitSlash], by simp [isLead], by simp⟩
      · rw [splitSlash_joinSlash names hne hsf]
        exact ⟨[[]], names, rfl, by simp [isLead], hn⟩
    · simp only [hr]
      by_cases hne : List.replicate j "..".toList ++ names = []
      · simp only [hne]
        exact ⟨[".".toList], [], by decide, by simp [isLead], by simp⟩
      · have : decide (List.replicate j "..".toList ++ names = []) = false := by simpa using hne
        simp only [Bool.false_eq_true, if_false, hne]
        rw [splitSlash_joinSlash _ hne hsf]
        refine ⟨List.replicate j "..".toList, names, rfl, ?_, hn⟩
        intro x hx
        rw [List.eq_of_mem_replicate hx]
        exact Or.inr (Or.inr rfl)

theorem splitSlash_Join (elem : List GoString) :
    ∃ lead names, splitSlash (Join elem) = lead ++ names ∧ (∀ x ∈ lead, isLead x) ∧
      ∀ x ∈ names, isElem x := by
  unfold Join
  split
  · exact ⟨[[]], [], by simp [splitSlash], by simp [isLead], by simp⟩
  · exact splitSlash_Clean _

/-! ## The current pointer -/

theorem symlink_ok {fs fs2 : FS} {target p : GoString} (h : Symlink fs target p = .ok fs2) :
    Readlink fs2 p = .ok target ∧ Ext fs fs2 := by
  unfold Symlink at h
  cases hr : resolve fs false p with
  | error e => simp [hr] at h
  | ok r =>
    simp only [hr] at h
    by_cases hr0 : r = []
    · simp [hr0] at h
    · simp only [hr0, if_false] at h
      cases hg : fs.get r with
      | some n => simp [hg] at h
      | none =>
        simp only [hg] at h
        injection h with h
        subst h
        have hext : Ext fs (fs.set r (Node.link target)) :=
          ext_set_of_not_skel fs r _ (fun m hm => by rw [hg] at hm; cases hm)
        refine ⟨?_, hext⟩
        unfold Readlink
        rw [resolve_ext hext false p r (by simp) hr]
        simp [get_set, hr0]

/-- C8, amended: for every installed version v that is a single path element,
after `SetCurrent v` returns without error, `GetCurrent` returns v with no
error. -/
theorem C8_set_then_get (paths : Paths) (fs fs2 : FS) (version : GoString)
    (hv : isElem version)
    (_hinst : IsInstalled paths fs version = true)
    (hset : SetCurrent paths fs version = (fs2, none)) :
    GetCurrent paths fs2 = (version, none) := by
  unfold SetCurrent at hset
  simp only at hset
  split at hset
  · simp at hset
  · split at hset
    · simp at hset
    · rename_i fs1 _
      split at hset
      · simp at hset
      · rename_i fs3 hsym
        injection hset with h1 _
        subst h1
        obtain ⟨hrl, _⟩ := symlink_ok hsym
        unfold GetCurrent
        rw [hrl]
        simp only [Paths.VersionPath]
        rw [Base_Dir_goPath paths.Versions version hv]

theorem C8_set_then_get_witness :
    GetCurrent demoPaths (SetCurrent demoPaths demoInstalled "1.21.0".toList).1 =
      ("1.21.0".toList, none) :=
  C8_set_then_get demoPaths demoInstalled _ "1.21.0".toList (by decide) (by decide) (by decide)

/-! ## Resolution of paths that end in a proper name -/

theorem walkComps_last (fs : FS) (c : GoString) (hc : isElem c)
    (onLink : GoString → Path → List GoString → Except Errno Path)
    (hon : ∀ t cur pre q, onLink t cur (pre ++ [c]) = .ok q → ∃ q0, q = q0 ++ [c]) :
    ∀ pre cur q, walkComps fs onLink false (pre ++ [c]) cur = .ok q → ∃ q0, q = q0 ++ [c] := by
  have hc1 : ¬ (c = [] ∨ c = ".".toList) := isElem_not_lead hc
  have hc2 : c ≠ "..".toList := hc.2.2.2
  intro pre
  induction pre with
  | nil =>
    intro cur q hw
    rw [List.nil_append] at hw
    unfold walkComps at hw
    simp only [hc1, hc2, if_false] at hw
    cases hg : fs.get (cur ++ [c]) with
    | none =>
      simp only [hg, if_true] at hw
      exact ⟨cur, by injection hw with hw; exact hw.symm⟩
    | some m =>
      cases m with
      | dir =>
        simp only [hg, walkComps] at hw
        exact ⟨cur, by injection hw with hw; exact hw.symm⟩
      | file d =>
        simp only [hg, if_true] at hw
        exact ⟨cur, by injection hw with hw; exact hw.symm⟩
      | link t =>
        simp only [hg, and_self, if_true] at hw
        exact ⟨cur, by injection hw with hw; exact hw.symm⟩
  | cons d ds ih =>
    intro cur q hw
    rw [List.cons_append] at hw
    unfold walkComps at hw
    by_cases h1 : d = [] ∨ d = ".".toList
    · simp only [h1, if_true] at hw
      exact ih _ _ hw
    · simp only [h1, if_false] at hw
      by_cases h2 : d = "..".toList
      · simp only [h2, if_true] at hw
        exact ih _ _ hw
      · simp only [h2, if_false] at hw
        have hne : ds ++ [c] ≠ [] := by simp
        cases hg : fs.get (cur ++ [d]) with
        | none => simp [hg, hne] at hw
        | some m =>
          cases m with
          | dir =>
            simp only [hg] at hw
            exact ih _ _ hw
          | file dt => simp [hg, hne] at hw
          | link t =>
            simp only [hg, hne, false_and, if_false] at hw
            exact hon _ _ _ _ hw

theorem walk_last (fs : FS) (c : GoString) (hc : isElem c) :
    ∀ n pre cur q, walk fs false n (pre ++ [c]) cur = .ok q → ∃ q0, q = q0 ++ [c] := by
  intro n
  induction n with
  | zero =>
    intro pre cur q hw
    unfold walk at hw
    exact walkComps_last fs c hc _ (fun _ _ _ _ hx => by simp at hx) pre cur q hw
  | succ n ih =>
    intro pre cur q hw
    unfold walk at hw
    refine walkComps_last fs c hc _ ?_ pre cur q hw
    intro t cur pre q hx
    by_cases ht : t = []
    · simp [ht] at hx
    · simp only [ht, if_false] at hx
      rw [← List.append_assoc] at hx
      exact ih _ _ _ hx

theorem resolve_named {fs : FS} {p : GoString} {q : Path} (hp : namedPath p)
    (h : resolve fs false p = .ok q) : q ≠ [] := by
  obtain ⟨c, hc, he⟩ := hp
  obtain ⟨pre, hpre⟩ := endsIn_split he hc.2.1
  unfold resolve at h
  by_cases hp0 : p = []
  · simp [hp0] at h
  · simp only [hp0, if_false, hpre] at h
    obtain ⟨q0, hq⟩ := walk_last fs c hc _ _ _ _ h
    simp [hq]

theorem endsWithDot_named {p : GoString} (hp : namedPath p) : endsWithDot p = false := by
  obtain ⟨c, hc, he⟩ := hp
  unfold endsWithDot
  have h1 : p ≠ ".".toList := by
    rcases he with he | ⟨pre, he⟩
    · rw [he]; exact hc.2.2.1
    · rw [he]
      intro h
      have : (pre ++ '/' :: c).length = 1 := by rw [h]; rfl
      have hlen : 0 < c.length := List.length_pos.mpr hc.1
      simp at this
      omega
  have h2 : ¬ "/.".toList <:+ p := by
    intro hsuf
    obtain ⟨c0, l, hcl⟩ : ∃ c0 l, c = c0 ++ [l] :=
      ⟨c.dropLast, c.getLast hc.1, (List.dropLast_append_getLast hc.1).symm⟩
    have hc0 : '/' ∉ c0 := fun hm => hc.2.1 (by rw [hcl]; simp [hm])
    have hpl : ∃ pre, p = pre ++ c := by
      rcases he with he | ⟨pre, he⟩
      · exact ⟨[], by simp [he]⟩
      · exact ⟨pre ++ ['/'], by simp [he]⟩
    obtain ⟨pre, hpp⟩ := hpl
    obtain ⟨w, hw⟩ := hsuf
    have e1 : (w ++ ['/']) ++ ['.'] = (pre ++ c0) ++ [l] := by
      have : w ++ "/.".toList = p := hw
      rw [hpp, hcl] at this
      simpa [List.append_assoc] using this
    have e2 := List.append_inj' e1 rfl
    obtain ⟨e3, e4⟩ := e2
    have hl : l = '.' := by simpa using e4.symm
    cases hc0e : c0 with
    | nil =>
      rw [hc0e] at hcl
      rw [hl] at hcl
      exact hc.2.2.1 (by rw [hcl]; rfl)
    | cons a as =>
      have hne : c0 ≠ [] := by rw [hc0e]; simp
      have : (pre ++ c0).getLast? = some '/' := by rw [← e3]; simp
      rw [List.getLast?_append_of_ne_nil _ hne, List.getLast?_eq_getLast _ hne] at this
      have hm : c0.getLast hne ∈ c0 := List.getLast_mem hne
      rw [Option.some.inj this] at hm
      exact hc0 hm
  have h3 : "/.".toList.isSuffixOf p = false := by
    rw [Bool.eq_false_iff]
    intro h
    exact h2 (List.isSuffixOf_iff_suffix.mp h)
  rw [Bool.or_eq_false_iff]
  exact ⟨decide_eq_false h1, h3⟩

/-- After `RemoveAll` of a path ending in a proper name, whatever it returns,
nothing exists at that path. -/
theorem removeAll_named {fs fs1 : FS} {p : GoString} {e : Option Errno} (hp : namedPath p)
    (h : RemoveAll fs p = (fs1, e)) : ∀ n, Lstat fs1 p ≠ .ok n := by
  cases e with
  | none => exact (removeAll_ok h).2
  | some e =>
    unfold RemoveAll at h
    by_cases hp0 : p = []
    · simp [hp0] at h
    · simp only [hp0, if_false, endsWithDot_named hp] at h
      cases hr : resolve fs false p with
      | error e1 =>
        simp only [hr] at h
        by_cases he : IsNotExist e1 = true
        · simp [he] at h
        · simp only [he] at h
          injection h with h1 h2
          subst h1
          intro n hn
          simp [Lstat, hr] at hn
      | ok r =>
        simp only [hr, resolve_named hp hr, if_false] at h
        simp at h

/-! ## MkdirAll -/

theorem zone_tail {c : GoString} {rest : List GoString} {k : Nat} (h : Zone (c :: rest) k) :
    Zone rest k :=
  fun suf hs hl x hx => h suf (hs.trans (List.suffix_cons c rest)) hl x hx

theorem zone_append {a rest : List GoString} {k : Nat} (h : Zone rest k) :
    Zone (a ++ rest) (min k rest.length) := by
  intro suf hs hl x hx
  have h1 : suf <:+ rest :=
    List.suffix_of_suffix_length_le hs (List.suffix_append a rest) (le_trans hl (min_le_right _ _))
  exact h suf h1 (le_trans hl (min_le_left _ _)) x hx

theorem zone_of_elems {names : List GoString} (h : ∀ x ∈ names, isElem x) (k : Nat) :
    Zone names k :=
  fun _ hs _ x hx => h x (hs.subset hx)

theorem mkdirComps_lead (onLink : FS → GoString → Path → List GoString → FS × Except Errno Path)
    (k : Nat) (fs : FS) (rest : List GoString) :
    ∀ lead cur, (∀ x ∈ lead, isLead x) →
      mkdirComps onLink k fs (lead ++ rest) cur = mkdirComps onLink k fs rest (skipLead lead cur) := by
  intro lead
  induction lead with
  | nil => intro cur _; rfl
  | cons c cs ih =>
    intro cur h
    have hc := h c (by simp)
    have hcs : ∀ x ∈ cs, isLead x := fun x hx => h x (by simp [hx])
    rw [List.cons_append]
    by_cases h1 : c = [] ∨ c = ".".toList
    · have h2 : c ≠ "..".toList := by
        rcases h1 with h1 | h1 <;> rw [h1] <;> decide
      simp only [mkdirComps, h1, if_true, skipLead, h2, if_false]
      exact ih _ hcs
    · have h2 : c = "..".toList := by
        rcases hc with h | h | h
        · exact absurd (Or.inl h) h1
        · exact absurd (Or.inr h) h1
        · exact h
      simp only [mkdirComps, h1, if_false, h2, if_true, skipLead]
      exact ih _ hcs

theorem mkdirWalk_lead (n k : Nat) (fs : FS) (lead rest : List GoString) (cur : Path)
    (h : ∀ x ∈ lead, isLead x) :
    mkdirWalk n k fs (lead ++ rest) cur = mkdirWalk n k fs rest (skipLead lead cur) := by
  cases n with
  | zero =>
    unfold mkdirWalk
    exact mkdirComps_lead _ k fs rest lead cur h
  | succ n =>
    unfold mkdirWalk
    exact mkdirComps_lead _ k fs rest lead cur h

theorem lookupNode_mem {l : List (Path × Node)} {p : Path} {n : Node}
    (h : lookupNode l p = some n) : (p, n) ∈ l := by
  induction l with
  | nil => simp [lookupNode] at h
  | cons e l ih =>
    obtain ⟨q, m⟩ := e
    unfold lookupNode at h
    by_cases hq : q = p
    · simp only [hq, if_true] at h
      injection h with h
      simp [hq, h]
    · simp only [hq, if_false] at h
      exact List.mem_cons_of_mem _ (ih h)

theorem wf_parent {fs : FS} (hwf : WF fs) {p : Path} {n : Node} (h : fs.get p = some n) :
    fs.get p.dropLast = some Node.dir := by
  by_cases hp : p = []
  · subst hp
    simp [FS.get]
  · unfold FS.get at h
    simp only [hp, if_false] at h
    exact hwf _ (lookupNode_mem h)

/-- In a file system nothing lies below a location that holds nothing. -/
theorem wf_below_none {fs : FS} (hwf : WF fs) {x : Path} (hx : fs.get x = none) :
    ∀ z : Path, z ≠ [] → fs.get (x ++ z) = none := by
  intro z
  induction z using List.reverseRecOn with
  | nil => intro h; exact absurd rfl h
  | append_singleton z c ih =>
    intro _
    by_contra hne
    obtain ⟨n, hn⟩ := Option.ne_none_iff_exists'.mp hne
    have hpar := wf_parent hwf hn
    rw [← List.append_assoc, List.dropLast_concat] at hpar
    by_cases hz : z = []
    · subst hz
      rw [List.append_nil, hx] at hpar
      cases hpar
    · rw [ih hz] at hpar
      cases hpar

theorem wf_removeTree {fs : FS} (hwf : WF fs) (r : Path) : WF (fs.removeTree r) := by
  intro e he
  have he2 : e ∈ fs.nodes ∧ ¬ r.isPrefixOf e.1 = true := by
    simpa [FS.removeTree] using he
  have hpar := hwf e he2.1
  rw [get_removeTree]
  by_cases h0 : e.1.dropLast = []
  · simp [h0]
  · have hnp : ¬ r.isPrefixOf e.1.dropLast = true := by
      intro hp
      apply he2.2
      rw [List.isPrefixOf_iff_prefix] at hp ⊢
      exact hp.trans (List.dropLast_prefix e.1)
    simp [h0, hnp, hpar]

theorem removeAll_wf {fs fs1 : FS} {p : GoString} (hwf : WF fs) (h : RemoveAll fs p = (fs1, none)) :
    WF fs1 := by
  unfold RemoveAll at h
  by_cases hp : p = []
  · simp only [hp, if_true] at h
    injection h with h _
    subst h
    exact hwf
  · simp only [hp, if_false] at h
    by_cases hd : endsWithDot p = true
    · simp [hd] at h
    · simp only [hd] at h
      cases hr : resolve fs false p with
      | error e =>
        simp only [hr] at h
        by_cases he : IsNotExist e = true
        · simp only [he, if_true] at h
          injection h with h _
          subst h
          exact hwf
        · simp [he] at h
      | ok r =>
        simp only [hr] at h
        by_cases hr0 : r = []
        · simp [hr0] at h
        · simp only [hr0, if_false] at h
          injection h with h _
          subst h
          exact wf_removeTree hwf _

theorem get_set_below (fs : FS) (hwf : WF fs) (x y : Path) (hx : fs.get x = none)
    (hxy : x <+: y) (hne : y ≠ x) : (fs.set x Node.dir).get y = none := by
  obtain ⟨z, hz⟩ := hxy
  have hz0 : z ≠ [] := by
    intro h
    subst h
    exact hne (by simpa using hz.symm)
  have hy : y ≠ [] := by
    intro h
    subst h
    simp at hz
    exact hz0 hz.2
  rw [get_set]
  simp only [hy, hne, if_false]
  rw [← hz]
  exact wf_below_none hwf hx z hz0

/-- Below a directory that holds nothing, `MkdirAll` creates every proper name
of the rest of the path and succeeds. -/
theorem mkdirComps_fresh (onLink : FS → GoString → Path → List GoString → FS × Except Errno Path)
    (k : Nat) :
    ∀ rest fs x, (∀ c ∈ rest, isElem c) → rest.length ≤ k →
      (∀ y, x <+: y → y ≠ x → fs.get y = none) →
      ∃ fs1 q, mkdirComps onLink k fs rest x = (fs1, .ok q) := by
  intro rest
  induction rest with
  | nil => intro fs x _ _ _; exact ⟨fs, x, rfl⟩
  | cons c rest ih =>
    intro fs x hel hlen hfresh
    have hc := hel c (by simp)
    have h1 : ¬ (c = [] ∨ c = ".".toList) := isElem_not_lead hc
    have h2 : c ≠ "..".toList := hc.2.2.2
    have hlt : rest.length < k := by
      simp only [List.length_cons] at hlen
      omega
    have hnone : fs.get (x ++ [c]) = none :=
      hfresh _ (List.prefix_append x [c]) (by simp)
    unfold mkdirComps
    simp only [h1, h2, if_false, hnone, hlt, if_true]
    refine ih _ _ (fun d hd => hel d (by simp [hd])) (le_of_lt hlt) ?_
    intro y hy hne
    have hy0 : y ≠ [] := by
      intro h
      subst h
      simpa using List.prefix_nil.mp hy
    rw [get_set]
    simp only [hy0, hne, if_false]
    exact hfresh y ((List.prefix_append x [c]).trans hy) (by
      intro h
      subst h
      have := hy.length_le
      simp at this)

theorem mkdirComps_fail (onLink : FS → GoString → Path → List GoString → FS × Except Errno Path)
    (k : Nat) (fs : FS) (hwf : WF fs)
    (hon : ∀ t cur rest fs1 e, Zone rest k → onLink fs t cur rest = (fs1, .error e) → fs1 = fs) :
    ∀ comps cur fs1 e, Zone comps k → mkdirComps onLink k fs comps cur = (fs1, .error e) →
      fs1 = fs := by
  intro comps
  induction comps with
  | nil =>
    intro cur fs1 e _ h
    simp [mkdirComps] at h
  | cons c rest ih =>
    intro cur fs1 e hz h
    have hz2 := zone_tail hz
    unfold mkdirComps at h
    by_cases h1 : c = [] ∨ c = ".".toList
    · simp only [h1, if_true] at h
      exact ih _ _ _ hz2 h
    · simp only [h1, if_false] at h
      by_cases h2 : c = "..".toList
      · simp only [h2, if_true] at h
        exact ih _ _ _ hz2 h
      · simp only [h2, if_false] at h
        cases hg : fs.get (cur ++ [c]) with
        | none =>
          simp only [hg] at h
          by_cases hlt : rest.length < k
          · simp only [hlt, if_true] at h
            exfalso
            have hel : ∀ d ∈ rest, isElem d :=
              fun d hd => hz2 rest (List.suffix_refl rest) (le_of_lt hlt) d hd
            obtain ⟨fs2, q, hq⟩ := mkdirComps_fresh onLink k rest (fs.set (cur ++ [c]) Node.dir)
              (cur ++ [c]) hel (le_of_lt hlt)
              (fun y hy hne => get_set_below fs hwf _ y hg hy hne)
            rw [hq] at h
            injection h with _ h
            cases h
          · simp only [hlt, if_false] at h
            injection h with h _
            exact h.symm
        | some m =>
          cases m with
          | dir =>
            simp only [hg] at h
            exact ih _ _ _ hz2 h
          | file d =>
            simp only [hg] at h
            injection h with h _
            exact h.symm
          | link t =>
            simp only [hg] at h
            exact hon _ _ _ _ _ hz2 h

theorem mkdirWalk_fail (fs : FS) (hwf : WF fs) :
    ∀ n k comps cur fs1 e, Zone comps k → mkdirWalk n k fs comps cur = (fs1, .error e) →
      fs1 = fs := by
  intro n
  induction n with
  | zero =>
    intro k comps cur fs1 e hz h
    unfold mkdirWalk at h
    refine mkdirComps_fail _ k fs hwf ?_ comps cur fs1 e hz h
    intro t cur rest fs1 e _ hx
    injection hx with hx _
    exact hx.symm
  | succ n ih =>
    intro k comps cur fs1 e hz h
    unfold mkdirWalk at h
    refine mkdirComps_fail _ k fs hwf ?_ comps cur fs1 e hz h
    intro t cur rest fs1 e hzr hx
    by_cases ht : t = []
    · simp only [ht, if_true] at hx
      injection hx with hx _
      exact hx.symm
    · simp only [ht, if_false] at hx
      exact ih _ _ _ _ _ (zone_append hzr) hx

/-- When `MkdirAll` of a cleaned path fails, it has created nothing. -/
theorem mkdirAll_fail {fs fs1 : FS} {e : Errno} (hwf : WF fs) (elem : List GoString)
    (h : MkdirAll fs (Join elem) = (fs1, some e)) : fs1 = fs := by
  unfold MkdirAll at h
  by_cases hp : Join elem = []
  · simp only [hp, if_true] at h
    injection h with h _
    exact h.symm
  · simp only [hp, if_false] at h
    obtain ⟨lead, names, hsp, hlead, hnames⟩ := splitSlash_Join elem
    rw [hsp, mkdirWalk_lead _ _ _ _ _ _ hlead] at h
    split at h
    · simp at h
    · rename_i fs2 e2 hw
      injection h with h _
      subst h
      exact mkdirWalk_fail fs hwf _ _ _ _ _ _ (zone_of_elems hnames _) hw

/-! ## Extraction -/

theorem extractEntry_escape (fs : FS) (destPath : GoString) (header : Header)
    (h : escapesRoot destPath header.Name) :
    ∃ e, extractEntry fs destPath header = (fs, some e) := by
  unfold escapesRoot at h
  have hb : ¬ (HasPrefix (Join [destPath, header.Name]) (Clean destPath ++ "/".toList) = true) := by
    rw [h]; simp
  unfold extractEntry
  simp only [hb, not_false_eq_true, if_true]
  exact ⟨_, rfl⟩

theorem extractEntries_escape (destPath : GoString) (damaged : Bool) :
    ∀ entries fs, (∃ h ∈ entries, escapesRoot destPath h.Name) →
      (extractEntries destPath damaged fs entries).2 ≠ none := by
  intro entries
  induction entries with
  | nil => intro fs h; simp at h
  | cons hd tl ih =>
    intro fs h
    unfold extractEntries
    rcases hr : extractEntry fs destPath hd with ⟨fs1, e1⟩
    cases e1 with
    | some e => simp
    | none =>
      simp only
      obtain ⟨x, hx, hesc⟩ := h
      rcases List.mem_cons.mp hx with hxe | hxe
      · subst hxe
        obtain ⟨e, he⟩ := extractEntry_escape fs destPath x hesc
        rw [he] at hr
        simp at hr
      · exact ih fs1 ⟨x, hxe, hesc⟩

theorem walkComps_follow_of_nofollow (fs : FS) (q : Path)
    (hq : ∀ t, fs.get q ≠ some (Node.link t))
    (onA onB : GoString → Path → List GoString → Except Errno Path)
    (hon : ∀ t cur rest, onA t cur rest = .ok q → onB t cur rest = .ok q) :
    ∀ comps cur, walkComps fs onA false comps cur = .ok q →
      walkComps fs onB true comps cur = .ok q := by
  intro comps
  induction comps with
  | nil => intro cur hw; simpa [walkComps] using hw
  | cons c rest ih =>
    intro cur hw
    unfold walkComps at hw ⊢
    by_cases h1 : c = [] ∨ c = ".".toList
    · simp only [h1, if_true] at hw ⊢
      exact ih _ hw
    · simp only [h1, if_false] at hw ⊢
      by_cases h2 : c = "..".toList
      · simp only [h2, if_true] at hw ⊢
        exact ih _ hw
      · simp only [h2, if_false] at hw ⊢
        cases hg : fs.get (cur ++ [c]) with
        | none =>
          rw [hg] at hw
          exact hw
        | some m =>
          rw [hg] at hw
          cases m with
          | dir => exact ih _ hw
          | file d => exact hw
          | link t =>
            by_cases hr : rest = []
            · simp only [hr, and_self, if_true] at hw
              exfalso
              injection hw with hw
              exact hq t (by rw [← hw]; exact hg)
            · simp only [hr, false_and, if_false] at hw ⊢
              exact hon _ _ _ hw

theorem walk_follow_of_nofollow (fs : FS) (q : Path) (hq : ∀ t, fs.get q ≠ some (Node.link t)) :
    ∀ n comps cur, walk fs false n comps cur = .ok q → walk fs true n comps cur = .ok q := by
  intro n
  induction n with
  | zero =>
    intro comps cur hw
    unfold walk at hw ⊢
    exact walkComps_follow_of_nofollow fs q hq _ _ (fun _ _ _ hx => by simp at hx) comps cur hw
  | succ n ih =>
    intro comps cur hw
    unfold walk at hw ⊢
    refine walkComps_follow_of_nofollow fs q hq _ _ ?_ comps cur hw
    intro t cur rest hx
    by_cases ht : t = []
    · simp [ht] at hx
    · simp only [ht, if_false] at hx ⊢
      exact ih _ _ hx

theorem walkComps_follow_error (fs : FS) (e : Errno)
    (onA onB : GoString → Path → List GoString → Except Errno Path)
    (hon : ∀ t cur rest, onA t cur rest = .error e → onB t cur rest = .error e) :
    ∀ comps cur, walkComps fs onA false comps cur = .error e →
      walkComps fs onB true comps cur = .error e := by
  intro comps
  induction comps with
  | nil => intro cur hw; simp [walkComps] at hw
  | cons c rest ih =>
    intro cur hw
    unfold walkComps at hw ⊢
    by_cases h1 : c = [] ∨ c = ".".toList
    · simp only [h1, if_true] at hw ⊢
      exact ih _ hw
    · simp only [h1, if_false] at hw ⊢
      by_cases h2 : c = "..".toList
      · simp only [h2, if_true] at hw ⊢
        exact ih _ hw
      · simp only [h2, if_false] at hw ⊢
        cases hg : fs.get (cur ++ [c]) with
        | none =>
          rw [hg] at hw
          exact hw
        | some m =>
          rw [hg] at hw
          cases m with
          | dir => exact ih _ hw
          | file d => exact hw
          | link t =>
            by_cases hr : rest = []
            · simp [hr] at hw
            · simp only [hr, false_and, if_false] at hw ⊢
              exact hon _ _ _ hw

theorem walk_follow_error (fs : FS) (e : Errno) :
    ∀ n comps cur, walk fs false n comps cur = .error e → walk fs true n comps cur = .error e := by
  intro n
  induction n with
  | zero =>
    intro comps cur hw
    unfold walk at hw ⊢
    exact walkComps_follow_error fs e _ _ (fun _ _ _ hx => hx) comps cur hw
  | succ n ih =>
    intro comps cur hw
    unfold walk at hw ⊢
    refine walkComps_follow_error fs e _ _ ?_ comps cur hw
    intro t cur rest hx
    by_cases ht : t = []
    · simp only [ht, if_true] at hx ⊢
      exact hx
    · simp only [ht, if_false] at hx ⊢
      exact ih _ _ hx

/-- When the path does not end at a symbolic link, following links in the last
component makes no difference. -/
theorem resolve_follow_eq {fs : FS} {p : GoString} (h : ∀ t, Lstat fs p ≠ .ok (Node.link t)) :
    resolve fs true p = resolve fs false p := by
  unfold resolve
  by_cases hp : p = []
  · simp [hp]
  · simp only [hp, if_false]
    cases hr : walk fs false maxSymlinks (splitSlash p) (if isAbs p = true then [] else fs.cwd) with
    | error e => exact walk_follow_error fs e _ _ _ hr
    | ok q =>
      refine walk_follow_of_nofollow fs q ?_ _ _ _ hr
      intro t ht
      apply h t
      unfold Lstat resolve
      simp only [hp, if_false, hr, ht]

/-! ## MkdirAll only adds directories -/

theorem sub_set_of_none (fs : FS) (p : Path) (n : Node) (h : fs.get p = none) :
    Sub fs (fs.set p n) := by
  refine ⟨rfl, fun q m hq => ?_⟩
  rw [get_set]
  by_cases hq0 : q = []
  · subst hq0
    rw [get_nil] at hq
    simpa using hq
  · by_cases hqp : q = p
    · subst hqp
      rw [h] at hq
      cases hq
    · simpa [hq0, hqp] using hq

theorem mkdirComps_sub (onLink : FS → GoString → Path → List GoString → FS × Except Errno Path)
    (k : Nat) (hon : ∀ fs t cur rest, Sub fs (onLink fs t cur rest).1) :
    ∀ comps fs cur, Sub fs (mkdirComps onLink k fs comps cur).1 := by
  intro comps
  induction comps with
  | nil => intro fs cur; exact sub_refl fs
  | cons c rest ih =>
    intro fs cur
    unfold mkdirComps
    by_cases h1 : c = [] ∨ c = ".".toList
    · simp only [h1, if_true]
      exact ih _ _
    · simp only [h1, if_false]
      by_cases h2 : c = "..".toList
      · simp only [h2, if_true]
        exact ih _ _
      · simp only [h2, if_false]
        cases hg : fs.get (cur ++ [c]) with
        | none =>
          simp only
          by_cases hlt : rest.length < k
          · simp only [hlt, if_true]
            exact sub_trans (sub_set_of_none fs _ _ hg) (ih _ _)
          · simp only [hlt, if_false]
            exact sub_refl fs
        | some m =>
          cases m with
          | dir => exact ih _ _
          | file d => exact sub_refl fs
          | link t => exact hon _ _ _ _

theorem mkdirWalk_sub : ∀ n k comps fs cur, Sub fs (mkdirWalk n k fs comps cur).1 := by
  intro n
  induction n with
  | zero =>
    intro k comps fs cur
    unfold mkdirWalk
    exact mkdirComps_sub _ k (fun fs _ _ _ => sub_refl fs) comps fs cur
  | succ n ih =>
    intro k comps fs cur
    unfold mkdirWalk
    refine mkdirComps_sub _ k ?_ comps fs cur
    intro fs t cur rest
    by_cases ht : t = []
    · simp only [ht, if_true]
      exact sub_refl fs
    · simp only [ht, if_false]
      exact ih _ _ _ _

theorem mkdirAll_sub (fs : FS) (p : GoString) : Sub fs (MkdirAll fs p).1 := by
  unfold MkdirAll
  by_cases hp : p = []
  · simp only [hp, if_true]
    exact sub_refl fs
  · simp only [hp, if_false]
    have h := mkdirWalk_sub maxSymlinks (splitSlash p).length (splitSlash p) fs
      (if isAbs p = true then [] else fs.cwd)
    split
    · rename_i fs1 q hw
      rw [hw] at h
      exact h
    · rename_i fs1 e hw
      rw [hw] at h
      exact h

/-! ## Reading files -/

theorem readFile_of_resolve {fs : FS} {p : GoString} {q : Path} {data : Bytes}
    (hr : resolve fs true p = .ok q) (hg : fs.get q = some (Node.file data)) :
    ReadFile fs p = .ok data := by
  simp [ReadFile, Stat, hr, hg]

theorem readFile_ok {fs : FS} {p : GoString} {data : Bytes} (h : ReadFile fs p = .ok data) :
    ∃ q, resolve fs true p = .ok q ∧ fs.get q = some (Node.file data) := by
  unfold ReadFile Stat at h
  cases hr : resolve fs true p with
  | error e => simp [hr] at h
  | ok q =>
    simp only [hr] at h
    cases hg : fs.get q with
    | none => simp [hg] at h
    | some n =>
      cases n with
      | file d =>
        simp only [hg] at h
        injection h with h
        subst h
        exact ⟨q, rfl, hg⟩
      | dir => simp [hg] at h
      | link t => simp [hg] at h

theorem readFile_mono {a b : FS} (h : Sub a b) {p : GoString} {data : Bytes}
    (hr : ReadFile a p = .ok data) : ReadFile b p = .ok data := by
  obtain ⟨q, hq, hg⟩ := readFile_ok hr
  have hg2 := h.2 _ _ hg
  exact readFile_of_resolve
    (resolve_ext (sub_toExt h) true p q (fun _ t ht => by rw [hg2] at ht; cases ht) hq) hg2

theorem lstat_ok {fs : FS} {p : GoString} {n : Node} (h : Lstat fs p = .ok n) :
    ∃ q, resolve fs false p = .ok q ∧ fs.get q = some n := by
  unfold Lstat at h
  cases hr : resolve fs false p with
  | error e => simp [hr] at h
  | ok q =>
    simp only [hr] at h
    cases hg : fs.get q with
    | none => simp [hg] at h
    | some m =>
      simp only [hg] at h
      injection h with h
      subst h
      exact ⟨q, rfl, hg⟩

theorem lstat_of_resolve {fs : FS} {p : GoString} {q : Path} {n : Node}
    (hr : resolve fs false p = .ok q) (hg : fs.get q = some n) : Lstat fs p = .ok n := by
  simp [Lstat, hr, hg]

/-! ## Temporary files -/

theorem createTemp_ok {fs fs2 : FS} {dir pre suf : GoString} {loc : Path} {name : GoString} :
    ∀ rnd, CreateTemp fs dir pre suf rnd = .ok (fs2, loc, name) →
      ∃ r, name = dir ++ '/' :: (pre ++ r ++ suf) ∧ resolve fs false name = .ok loc ∧
        loc ≠ [] ∧ fs.get loc = none ∧ fs2 = fs.set loc (Node.file []) := by
  intro rnd
  induction rnd with
  | nil => intro h; simp [CreateTemp] at h
  | cons r rs ih =>
    intro h
    unfold CreateTemp at h
    simp only [List.append_assoc] at h
    cases hr : resolve fs false (dir ++ '/' :: (pre ++ (r ++ suf))) with
    | error e => simp [hr] at h
    | ok l =>
      simp only [hr] at h
      by_cases hl : l = []
      · simp [hl] at h
      · simp only [hl, if_false] at h
        cases hg : fs.get l with
        | some n =>
          simp only [hg] at h
          exact ih h
        | none =>
          simp only [hg] at h
          injection h with h
          injection h with h1 h2
          injection h2 with h2 h3
          subst h1 h2 h3
          exact ⟨r, by simp, hr, hl, hg, rfl⟩

/-! ## The last element of a path string -/

theorem lastSeg_slashFree (s : GoString) : '/' ∉ lastSeg s := by
  unfold lastSeg List.rtakeWhile
  intro h
  have h1 := List.mem_takeWhile_imp (List.mem_reverse.mp h)
  simp at h1

theorem lastSeg_decomp (s : GoString) : s = lastSeg s ∨ ∃ pre, s = pre ++ '/' :: lastSeg s := by
  have h0 : s.reverse = s.reverse.takeWhile (fun c => decide (c ≠ '/')) ++
      s.reverse.dropWhile (fun c => decide (c ≠ '/')) := (List.takeWhile_append_dropWhile _ _).symm
  have h1 : s = (s.reverse.dropWhile (fun c => decide (c ≠ '/'))).reverse ++ lastSeg s := by
    have h2 := congrArg List.reverse h0
    rw [List.reverse_reverse, List.reverse_append] at h2
    exact h2
  cases hd : s.reverse.dropWhile (fun c => decide (c ≠ '/')) with
  | nil =>
    left
    rw [hd] at h1
    simpa using h1
  | cons a l =>
    right
    have ha : a = '/' := by
      have h2 := List.head_dropWhile_not (fun c => decide (c ≠ '/')) s.reverse (by rw [hd]; simp)
      simp only [hd, List.head_cons] at h2
      simpa using h2
    refine ⟨l.reverse, ?_⟩
    rw [hd] at h1
    rw [ha] at h1
    simpa using h1

theorem takeWhile_append_of_all {α : Type} (p : α → Bool) (a b : List α)
    (h : ∀ x ∈ a, p x = true) : (a ++ b).takeWhile p = a ++ b.takeWhile p := by
  induction a with
  | nil => rfl
  | cons x xs ih =>
    have hx : p x = true := h x (by simp)
    simp only [List.cons_append, List.takeWhile_cons, hx, if_true]
    rw [ih (fun y hy => h y (by simp [hy]))]

theorem lastSeg_append (x y : GoString) (hy : '/' ∉ y) : lastSeg (x ++ y) = lastSeg x ++ y := by
  unfold lastSeg List.rtakeWhile
  rw [List.reverse_append, takeWhile_append_of_all]
  · simp
  · intro c hc
    have : c ≠ '/' := fun e => hy (by rw [← e]; exact List.mem_reverse.mp hc)
    simpa using this

theorem endsIn_lastSeg (s : GoString) : EndsIn s (lastSeg s) := by
  rcases lastSeg_decomp s with h | ⟨pre, h⟩
  · exact Or.inl h
  · exact Or.inr ⟨pre, h⟩

theorem endsIn_slash_lastSeg (dir s : GoString) : EndsIn (dir ++ '/' :: s) (lastSeg s) := by
  rcases lastSeg_decomp s with h | ⟨pre, h⟩
  · exact Or.inr ⟨dir, by rw [← h]⟩
  · refine Or.inr ⟨dir ++ '/' :: pre, ?_⟩
    conv_lhs => rw [h]
    simp

theorem isElem_lastSeg_append (x y : GoString) (hy : '/' ∉ y) (hlen : 3 ≤ y.length) :
    isElem (lastSeg (x ++ y)) := by
  have hl : 3 ≤ (lastSeg (x ++ y)).length := by
    rw [lastSeg_append x y hy, List.length_append]
    omega
  refine ⟨?_, lastSeg_slashFree _, ?_, ?_⟩
  · intro h
    rw [h] at hl
    simp at hl
  · intro h
    rw [h] at hl
    simp at hl
  · intro h
    rw [h] at hl
    simp at hl

theorem resolve_last {fs : FS} {p c : GoString} {q : Path} (he : EndsIn p c) (hc : isElem c)
    (h : resolve fs false p = .ok q) : ∃ q0, q = q0 ++ [c] := by
  obtain ⟨pre, hpre⟩ := endsIn_split he hc.2.1
  unfold resolve at h
  by_cases hp0 : p = []
  · simp [hp0] at h
  · simp only [hp0, if_false, hpre] at h
    exact walk_last fs c hc _ _ _ _ h

theorem Join_pair_endsIn_lastSeg (a s : GoString) (hs : s ≠ []) (hc : isElem (lastSeg s)) :
    EndsIn (Join [a, s]) (lastSeg s) := by
  unfold Join
  by_cases ha : a = []
  · subst ha
    simp only [List.dropWhile, decide_True, hs, decide_False, joinSlash]
    exact Clean_endsIn (endsIn_lastSeg s) hc.2.1 hc.1 hc.2.2.1 hc.2.2.2
  · simp only [List.dropWhile, ha, decide_False, joinSlash]
    exact Clean_endsIn (endsIn_slash_lastSeg a s) hc.2.1 hc.1 hc.2.2.1 hc.2.2.2

/-- The location of a temporary download file is never the location of a
cached archive: the names end differently. -/
theorem temp_ne_cache {fsA fsB : FS} (paths : Paths) (version r : GoString) {l1 l2 : Path}
    (h1 : resolve fsA false
      (paths.Cache ++ '/' :: ("download-".toList ++ r ++ ".tmp".toList)) = .ok l1)
    (h2 : resolve fsB false
      (paths.CachePath ("go".toList ++ version ++ ".tar.gz".toList)) = .ok l2) : l1 ≠ l2 := by
  have e1 := isElem_lastSeg_append ("download-".toList ++ r) ".tmp".toList (by decide) (by decide)
  have e2 := isElem_lastSeg_append ("go".toList ++ version) ".tar.gz".toList (by decide) (by decide)
  obtain ⟨q1, hq1⟩ := resolve_last (endsIn_slash_lastSeg paths.Cache _) e1 h1
  have hne : "go".toList ++ version ++ ".tar.gz".toList ≠ [] := by simp
  obtain ⟨q2, hq2⟩ := resolve_last (Join_pair_endsIn_lastSeg paths.Cache _ hne e2) e2 h2
  intro h
  rw [hq1, hq2] at h
  have h3 := (List.append_inj' h rfl).2
  simp only [List.cons.injEq, and_true] at h3
  rw [lastSeg_append ("download-".toList ++ r) ".tmp".toList (by decide),
    lastSeg_append ("go".toList ++ version) ".tar.gz".toList (by decide)] at h3
  have h4 := congrArg List.reverse h3
  simp at h4

/-! ## Download -/

theorem remove_file_ok {fs : FS} {p : GoString} {loc : Path} {data : Bytes}
    (hr : resolve fs false p = .ok loc) (h0 : loc ≠ []) (hg : fs.get loc = some (Node.file data)) :
    removeTemp fs p = fs.erase loc := by
  simp [removeTemp, Remove, hr, h0, hg]

theorem remove_absent {fs : FS} {p : GoString} {loc : Path}
    (hr : resolve fs false p = .ok loc) (hg : fs.get loc = none) :
    removeTemp fs p = fs := by
  unfold removeTemp Remove
  simp only [hr]
  by_cases h0 : loc = []
  · simp [h0]
  · simp [h0, hg]

theorem ext_of_agree {a b : FS} (hc : a.cwd = b.cwd) (S : Path → Prop)
    (hS : ∀ p, S p → ∀ n, a.get p = some n → n.isSkel = false)
    (hag : ∀ p, ¬ S p → b.get p = a.get p) : Ext a b := by
  refine ⟨hc, fun p n hp hs => ?_⟩
  by_cases h : S p
  · rw [hS p h n hp] at hs
    cases hs
  · rw [hag p h, hp]

theorem not_skel_of_ne {m : Node} (h1 : m ≠ Node.dir) (h2 : ∀ t, m ≠ Node.link t) :
    m.isSkel = false := by
  cases m with
  | file d => rfl
  | dir => exact absurd rfl h1
  | link t => exact absurd rfl (h2 t)

/-- The temporary file, once renamed onto the cache path, can be read back
there. -/
theorem rename_stores {fs1 fs3 fs4 : FS} {tmpPath dest : GoString} {tmpLoc : Path} {body : Bytes}
    (hrt : resolve fs1 false tmpPath = .ok tmpLoc) (ht0 : tmpLoc ≠ [])
    (hgt : fs1.get tmpLoc = none)
    (hnl : ∀ t, Lstat fs1 dest ≠ .ok (Node.link t))
    (hcwd : fs3.cwd = fs1.cwd)
    (hget3 : ∀ p, fs3.get p = if p = tmpLoc then some (Node.file body) else fs1.get p)
    (hlex : ∀ l2, resolve fs1 false dest = .ok l2 → tmpLoc ≠ l2)
    (hren : Rename fs3 tmpPath dest = .ok fs4) :
    ReadFile (removeTemp fs4 tmpPath) dest = .ok body := by
  have hext13 : Ext fs1 fs3 := ext_of_agree hcwd.symm (fun p => p = tmpLoc)
    (fun p hp n hn => by rw [hp, hgt] at hn; cases hn)
    (fun p hp => by rw [hget3, if_neg hp])
  have hext31 : Ext fs3 fs1 := ext_of_agree hcwd (fun p => p = tmpLoc)
    (fun p hp n hn => by
      rw [hget3, if_pos hp] at hn
      injection hn with hn
      rw [← hn]; rfl)
    (fun p hp => by rw [hget3, if_neg hp])
  have hrt3 : resolve fs3 false tmpPath = .ok tmpLoc := resolve_ext hext13 false _ _ (by simp) hrt
  unfold Rename at hren
  rw [hrt3] at hren
  cases hrd : resolve fs3 false dest with
  | error e => simp [hrd] at hren
  | ok r2 =>
    simp only [hrd, hget3 tmpLoc, if_true] at hren
    by_cases hr0 : r2 = []
    · simp [hr0] at hren
    · simp only [hr0, if_false] at hren
      have hrd1 : resolve fs1 false dest = .ok r2 := resolve_ext hext31 false _ _ (by simp) hrd
      have hne : tmpLoc ≠ r2 := hlex r2 hrd1
      have hne2 : r2 ≠ tmpLoc := fun e => hne e.symm
      have hg31 : fs3.get r2 = fs1.get r2 := by rw [hget3, if_neg hne2]
      have hnotlink : ∀ t, fs1.get r2 ≠ some (Node.link t) :=
        fun t ht => hnl t (lstat_of_resolve hrd1 ht)
      have hnotdir : fs1.get r2 ≠ some Node.dir := by
        intro hd
        rw [hg31, hd] at hren
        simp at hren
      have hfs4 : fs4 = (fs3.erase tmpLoc).set r2 (Node.file body) := by
        rw [hg31] at hren
        cases hg : fs1.get r2 with
        | none =>
          rw [hg] at hren
          injection hren with hren
          exact hren.symm
        | some m =>
          rw [hg] at hren
          cases m with
          | dir => exact absurd hg hnotdir
          | file d =>
            injection hren with hren
            exact hren.symm
          | link t => exact absurd hg (hnotlink t)
      have hget4 : ∀ p, fs4.get p =
          if p = r2 then some (Node.file body) else if p = tmpLoc then none else fs1.get p := by
        intro p
        rw [hfs4, get_set, get_erase, hget3]
        by_cases hp0 : p = []
        · subst hp0
          have h1 : ¬ ([] : Path) = r2 := fun e => hr0 e.symm
          have h2 : ¬ ([] : Path) = tmpLoc := fun e => ht0 e.symm
          simp [h1, h2, get_nil]
        · by_cases hp2 : p = r2
          · subst hp2
            simp [hp0]
          · by_cases hp3 : p = tmpLoc
            · subst hp3
              simp [hp0, hp2]
            · simp [hp0, hp2, hp3]
      have hcwd4 : fs1.cwd = fs4.cwd := by
        rw [hfs4]
        exact hcwd.symm
      have hext14 : Ext fs1 fs4 := ext_of_agree hcwd4 (fun p => p = r2 ∨ p = tmpLoc)
        (fun p hp n hn => by
          rcases hp with hp | hp
          · subst hp
            exact not_skel_of_ne (fun e => hnotdir (by rw [hn, e]))
              (fun t e => hnotlink t (by rw [hn, e]))
          · rw [hp, hgt] at hn
            cases hn)
        (fun p hp => by
          rw [hget4]
          have h1 : ¬ p = r2 := fun e => hp (Or.inl e)
          have h2 : ¬ p = tmpLoc := fun e => hp (Or.inr e)
          simp [h1, h2])
      have hrt4 : resolve fs4 false tmpPath = .ok tmpLoc :=
        resolve_ext hext14 false _ _ (by simp) hrt
      have hgt4 : fs4.get tmpLoc = none := by
        rw [hget4]
        simp [hne]
      rw [remove_absent hrt4 hgt4]
      have hg4 : fs4.get r2 = some (Node.file body) := by
        rw [hget4]
        simp
      have hrf1 : resolve fs1 true dest = .ok r2 := by
        rw [resolve_follow_eq hnl]
        exact hrd1
      exact readFile_of_resolve
        (resolve_ext hext14 true _ _ (fun _ t ht => by rw [hg4] at ht; cases ht) hrf1) hg4

theorem writeFile_ok {fs fs2 : FS} {p : GoString} {data : Bytes}
    (h : WriteFile fs p data = .ok fs2) :
    ∃ r, resolve fs true p = .ok r ∧ fs.get r ≠ some Node.dir ∧
      (∀ t, fs.get r ≠ some (Node.link t)) ∧ fs2 = fs.set r (Node.file data) := by
  unfold WriteFile at h
  cases hr : resolve fs true p with
  | error e => simp [hr] at h
  | ok r =>
    simp only [hr] at h
    cases hg : fs.get r with
    | none =>
      simp only [hg] at h
      injection h with h
      exact ⟨r, rfl, by rw [hg]; simp, fun t => by rw [hg]; simp, h.symm⟩
    | some m =>
      cases m with
      | dir => simp [hg] at h
      | link t => simp [hg] at h
      | file d =>
        simp only [hg] at h
        injection h with h
        exact ⟨r, rfl, by rw [hg]; simp, fun t => by rw [hg]; simp, h.symm⟩

/-- The temporary file, once copied to the cache path, can be read back
there. -/
theorem copy_stores {fs1 fs3 fs4 : FS} {tmpPath dest : GoString} {tmpLoc : Path} {body : Bytes}
    (hrt : resolve fs1 false tmpPath = .ok tmpLoc) (ht0 : tmpLoc ≠ [])
    (hgt : fs1.get tmpLoc = none)
    (hnl : ∀ t, Lstat fs1 dest ≠ .ok (Node.link t))
    (hcwd : fs3.cwd = fs1.cwd)
    (hget3 : ∀ p, fs3.get p = if p = tmpLoc then some (Node.file body) else fs1.get p)
    (hlex : ∀ l2, resolve fs1 false dest = .ok l2 → tmpLoc ≠ l2)
    (hcp : copyFile fs3 tmpPath dest = (fs4, none)) :
    ReadFile (removeTemp fs4 tmpPath) dest = .ok body := by
  have hext13 : Ext fs1 fs3 := ext_of_agree hcwd.symm (fun p => p = tmpLoc)
    (fun p hp n hn => by rw [hp, hgt] at hn; cases hn)
    (fun p hp => by rw [hget3, if_neg hp])
  have hext31 : Ext fs3 fs1 := ext_of_agree hcwd (fun p => p = tmpLoc)
    (fun p hp n hn => by
      rw [hget3, if_pos hp] at hn
      injection hn with hn
      rw [← hn]; rfl)
    (fun p hp => by rw [hget3, if_neg hp])
  have hrt3 : resolve fs3 false tmpPath = .ok tmpLoc := resolve_ext hext13 false _ _ (by simp) hrt
  have hgt3 : fs3.get tmpLoc = some (Node.file body) := by rw [hget3, if_pos rfl]
  have hnlt : ∀ t, Lstat fs3 tmpPath ≠ .ok (Node.link t) := by
    intro t ht
    rw [lstat_of_resolve hrt3 hgt3] at ht
    cases ht
  have hrtf3 : resolve fs3 true tmpPath = .ok tmpLoc := by
    rw [resolve_follow_eq hnlt, hrt3]
  have hnl3 : ∀ t, Lstat fs3 dest ≠ .ok (Node.link t) := by
    intro t ht
    obtain ⟨q, hq, hg⟩ := lstat_ok ht
    have hq1 := resolve_ext hext31 false _ _ (by simp) hq
    have hqt : q ≠ tmpLoc := by
      intro e
      rw [e, hgt3] at hg
      cases hg
    rw [hget3, if_neg hqt] at hg
    exact hnl t (lstat_of_resolve hq1 hg)
  unfold copyFile at hcp
  rw [hrtf3] at hcp
  simp only [hgt3] at hcp
  cases hw1 : WriteFile fs3 dest [] with
  | error e => simp [hw1] at hcp
  | ok fsa =>
    simp only [hw1] at hcp
    obtain ⟨r3, hrf3, hnd3, hnl3r, hfsa⟩ := writeFile_ok hw1
    have hrd : resolve fs3 false dest = .ok r3 := by
      rw [← resolve_follow_eq hnl3]; exact hrf3
    have hrd1 : resolve fs1 false dest = .ok r3 := resolve_ext hext31 false _ _ (by simp) hrd
    have hne : tmpLoc ≠ r3 := hlex r3 hrd1
    have hne2 : r3 ≠ tmpLoc := fun e => hne e.symm
    have hsrc : fsa.get tmpLoc = some (Node.file body) := by
      rw [hfsa, get_set, hgt3]
      simp [ht0, hne]
    simp only [hsrc] at hcp
    cases hw2 : WriteFile fsa dest body with
    | error e => simp [hw2] at hcp
    | ok fsb =>
      simp only [hw2] at hcp
      injection hcp with hfsb4 _
      have hg31 : fs3.get r3 = fs1.get r3 := by rw [hget3, if_neg hne2]
      have hnotlink : ∀ t, fs1.get r3 ≠ some (Node.link t) := fun t => hg31 ▸ hnl3r t
      have hnotdir : fs1.get r3 ≠ some Node.dir := hg31 ▸ hnd3
      have hr0 : r3 ≠ [] := by
        intro e
        apply hnotdir
        rw [e]
        exact get_nil fs1
      have hns : ∀ m, fs3.get r3 = some m → m.isSkel = false := by
        intro m hm
        rw [hg31] at hm
        exact not_skel_of_ne (fun e => hnotdir (by rw [hm, e]))
          (fun t e => hnotlink t (by rw [hm, e]))
      have hexta : Ext fs3 fsa := by
        rw [hfsa]
        exact ext_set_of_not_skel fs3 r3 _ hns
      have hga : fsa.get r3 = some (Node.file []) := by
        rw [hfsa]
        simp [get_set, hr0]
      have hrfa : resolve fsa true dest = .ok r3 :=
        resolve_ext hexta true _ _ (fun _ t ht => by rw [hga] at ht; cases ht) hrf3
      obtain ⟨r4, hrf4, _, _, hfsb⟩ := writeFile_ok hw2
      rw [hrfa] at hrf4
      injection hrf4 with hrf4
      subst hrf4
      have hfs4 : (fs3.set r3 (Node.file [])).set r3 (Node.file body) = fs4 := by
        rw [← hfsb4, hfsb, hfsa]
      have hget4 : ∀ p, fs4.get p =
          if p = r3 then some (Node.file body) else if p = tmpLoc then some (Node.file body)
          else fs1.get p := by
        intro p
        rw [← hfs4, get_set, get_set, hget3]
        by_cases hp0 : p = []
        · subst hp0
          have h1 : ¬ ([] : Path) = r3 := fun e => hr0 e.symm
          have h2 : ¬ ([] : Path) = tmpLoc := fun e => ht0 e.symm
          simp [h1, h2, get_nil]
        · by_cases hp2 : p = r3
          · subst hp2
            simp [hp0]
          · simp [hp0, hp2]
      have hcwd4 : fs1.cwd = fs4.cwd := by
        rw [← hfs4]
        exact hcwd.symm
      have hext14 : Ext fs1 fs4 := ext_of_agree hcwd4 (fun p => p = r3 ∨ p = tmpLoc)
        (fun p hp n hn => by
          rcases hp with hp | hp
          · subst hp
            exact not_skel_of_ne (fun e => hnotdir (by rw [hn, e]))
              (fun t e => hnotlink t (by rw [hn, e]))
          · rw [hp, hgt] at hn
            cases hn)
        (fun p hp => by
          rw [hget4]
          have h1 : ¬ p = r3 := fun e => hp (Or.inl e)
          have h2 : ¬ p = tmpLoc := fun e => hp (Or.inr e)
          simp [h1, h2])
      have hrt4 : resolve fs4 false tmpPath = .ok tmpLoc :=
        resolve_ext hext14 false _ _ (by simp) hrt
      have hgt4 : fs4.get tmpLoc = some (Node.file body) := by
        rw [hget4]
        simp [hne]
      rw [remove_file_ok hrt4 ht0 hgt4]
      have hg5 : (fs4.erase tmpLoc).get r3 = some (Node.file body) := by
        rw [get_erase, hget4]
        simp [hr0, hne2]
      have hext15 : Ext fs1 (fs4.erase tmpLoc) := ext_of_agree hcwd4 (fun p => p = r3 ∨ p = tmpLoc)
        (fun p hp n hn => by
          rcases hp with hp | hp
          · subst hp
            exact not_skel_of_ne (fun e => hnotdir (by rw [hn, e]))
              (fun t e => hnotlink t (by rw [hn, e]))
          · rw [hp, hgt] at hn
            cases hn)
        (fun p hp => by
          have h1 : ¬ p = r3 := fun e => hp (Or.inl e)
          have h2 : ¬ p = tmpLoc := fun e => hp (Or.inr e)
          rw [get_erase, hget4]
          by_cases hp0 : p = []
          · subst hp0
            simp [get_nil]
          · simp [h1, h2, hp0])
      have hrf1 : resolve fs1 true dest = .ok r3 := by
        rw [resolve_follow_eq hnl]
        exact hrd1
      exact readFile_of_resolve
        (resolve_ext hext15 true _ _ (fun _ t ht => by rw [hg5] at ht; cases ht) hrf1) hg5

theorem download_transfer (w : World) (paths : Paths) (fs : FS) (version url h : GoString)
    (hurl : GetDownloadURL w.fetched w.goos w.goarch version = .ok (url, h))
    (hcache : isValidCache w fs
      (paths.CachePath ("go".toList ++ version ++ ".tar.gz".toList)) h = false)
    (hnl : ∀ t, Lstat (MkdirAll fs paths.Cache).1
      (paths.CachePath ("go".toList ++ version ++ ".tar.gz".toList)) ≠ .ok (Node.link t))
    (herr : (Download w paths fs version).err = none) :
    ∃ resp, w.httpGet url = .ok resp ∧ (h = [] ∨ w.sha256hex resp.Body = h) ∧
      (Download w paths fs version).path =
        paths.CachePath ("go".toList ++ version ++ ".tar.gz".toList) ∧
      (Download w paths fs version).requested = [url] ∧
      ReadFile (Download w paths fs version).fs
        (paths.CachePath ("go".toList ++ version ++ ".tar.gz".toList)) = .ok resp.Body := by
  generalize hr : Download w paths fs version = r at herr ⊢
  generalize hdest : paths.CachePath ("go".toList ++ version ++ ".tar.gz".toList) = dest at *
  unfold Download at hr
  simp only [hurl, hdest, hcache] at hr
  rcases hm : MkdirAll fs paths.Cache with ⟨fs1, e1⟩
  rw [hm] at hr hnl
  simp only [Bool.false_eq_true, if_false] at hr hnl
  cases e1 with
  | some e =>
    simp only at hr
    rw [← hr] at herr
    simp at herr
  | none =>
    simp only at hr
    cases hg : w.httpGet url with
    | error e =>
      rw [hg] at hr
      rw [← hr] at herr
      simp at herr
    | ok resp =>
      rw [hg] at hr
      simp only at hr
      by_cases hst : resp.StatusCode ≠ 200
      · rw [if_pos hst] at hr
        rw [← hr] at herr
        simp at herr
      · rw [if_neg hst] at hr
        cases hct : CreateTemp fs1 paths.Cache "download-".toList ".tmp".toList w.rnd with
        | error e =>
          rw [hct] at hr
          rw [← hr] at herr
          simp at herr
        | ok t =>
          obtain ⟨fs2, tmpLoc, tmpPath⟩ := t
          rw [hct] at hr
          simp only at hr
          by_cases hb : resp.broken = true
          · rw [if_pos hb] at hr
            rw [← hr] at herr
            simp at herr
          · rw [if_neg hb] at hr
            by_cases hh : h ≠ [] ∧ w.sha256hex resp.Body ≠ h
            · rw [if_pos hh] at hr
              rw [← hr] at herr
              simp at herr
            · rw [if_neg hh] at hr
              have hhash : h = [] ∨ w.sha256hex resp.Body = h := by
                by_cases h0 : h = []
                · exact Or.inl h0
                · right
                  by_contra hne
                  exact hh ⟨h0, hne⟩
              obtain ⟨rr, hname, hrt, ht0, hgt, hfs2⟩ := createTemp_ok _ hct
              have hcwd : (fs2.set tmpLoc (Node.file resp.Body)).cwd = fs1.cwd := by
                rw [hfs2]; rfl
              have hget3 : ∀ p, (fs2.set tmpLoc (Node.file resp.Body)).get p =
                  if p = tmpLoc then some (Node.file resp.Body) else fs1.get p := by
                intro p
                rw [hfs2, get_set, get_set]
                by_cases hp0 : p = []
                · subst hp0
                  have h2 : ¬ ([] : Path) = tmpLoc := fun e => ht0 e.symm
                  simp [h2, get_nil]
                · by_cases hp : p = tmpLoc
                  · subst hp
                    simp [hp0]
                  · simp [hp0, hp]
              have hlex : ∀ l2, resolve fs1 false dest = .ok l2 → tmpLoc ≠ l2 := by
                intro l2 hl2
                rw [hname] at hrt
                rw [← hdest] at hl2
                exact temp_ne_cache paths version rr hrt hl2
              refine ⟨resp, rfl, hhash, ?_⟩
              cases hren : (if w.xdev = true then (Except.error Errno.EXDEV : Except Errno FS)
                  else Rename (fs2.set tmpLoc (Node.file resp.Body)) tmpPath dest) with
              | ok fs4 =>
                rw [hren] at hr
                simp only at hr
                have hren2 : Rename (fs2.set tmpLoc (Node.file resp.Body)) tmpPath dest = .ok fs4 := by
                  by_cases hx : w.xdev = true
                  · simp [hx] at hren
                  · simpa [hx] using hren
                rw [← hr]
                exact ⟨rfl, rfl, rename_stores hrt ht0 hgt hnl hcwd hget3 hlex hren2⟩
              | error a =>
                rw [hren] at hr
                simp only at hr
                rcases hcp : copyFile (fs2.set tmpLoc (Node.file resp.Body)) tmpPath dest with
                  ⟨fs4, e4⟩
                rw [hcp] at hr
                cases e4 with
                | some e =>
                  simp only at hr
                  rw [← hr] at herr
                  simp at herr
                | none =>
                  simp only at hr
                  rw [← hr]
                  exact ⟨rfl, rfl, copy_stores hrt ht0 hgt hnl hcwd hget3 hlex hcp⟩

/-! ## MkdirAll of an existing directory -/

theorem mkdirComps_noop (fs : FS) (q : Path) (hq : fs.get q = some Node.dir)
    (onW : GoString → Path → List GoString → Except Errno Path)
    (onM : FS → GoString → Path → List GoString → FS × Except Errno Path) (k : Nat)
    (hon : ∀ t cur rest, onW t cur rest = .ok q → onM fs t cur rest = (fs, .ok q)) :
    ∀ comps cur, walkComps fs onW true comps cur = .ok q →
      mkdirComps onM k fs comps cur = (fs, .ok q) := by
  intro comps
  induction comps with
  | nil =>
    intro cur hw
    unfold walkComps at hw
    injection hw with hw
    unfold mkdirComps
    rw [hw]
  | cons c rest ih =>
    intro cur hw
    unfold walkComps at hw
    unfold mkdirComps
    by_cases h1 : c = [] ∨ c = ".".toList
    · simp only [h1, if_true] at hw ⊢
      exact ih cur hw
    · simp only [h1, if_false] at hw ⊢
      by_cases h2 : c = "..".toList
      · simp only [h2, if_true] at hw ⊢
        exact ih _ hw
      · simp only [h2, if_false] at hw ⊢
        cases hg : fs.get (cur ++ [c]) with
        | none =>
          rw [hg] at hw
          simp only at hw
          by_cases hr : rest = []
          · simp only [hr, if_true] at hw
            injection hw with hw
            rw [hw, hq] at hg
            cases hg
          · simp [hr] at hw
        | some n =>
          rw [hg] at hw
          cases n with
          | dir =>
            simp only at hw ⊢
            exact ih _ hw
          | file d =>
            simp only at hw
            by_cases hr : rest = []
            · simp only [hr, if_true] at hw
              injection hw with hw
              rw [hw, hq] at hg
              cases hg
            · simp [hr] at hw
          | link t =>
            simp only at hw ⊢
            have hw2 : onW t cur rest = .ok q := by simpa using hw
            exact hon t cur rest hw2

theorem mkdirWalk_noop (fs : FS) (q : Path) (hq : fs.get q = some Node.dir) :
    ∀ n k comps cur, walk fs true n comps cur = .ok q →
      mkdirWalk n k fs comps cur = (fs, .ok q) := by
  intro n
  induction n with
  | zero =>
    intro k comps cur hw
    unfold walk at hw
    unfold mkdirWalk
    exact mkdirComps_noop fs q hq _ _ k (fun _ _ _ hx => by simp at hx) comps cur hw
  | succ n ih =>
    intro k comps cur hw
    unfold walk at hw
    unfold mkdirWalk
    refine mkdirComps_noop fs q hq _ _ k ?_ comps cur hw
    intro t cur rest hx
    by_cases ht : t = []
    · simp [ht] at hx
    · simp only [ht, if_false] at hx ⊢
      exact ih _ _ _ hx

/-- `MkdirAll` of a path that leads to a directory changes nothing. -/
theorem mkdirAll_existing {fs : FS} {p : GoString} (h : Stat fs p = .ok Node.dir) :
    MkdirAll fs p = (fs, none) := by
  unfold Stat at h
  cases hr : resolve fs true p with
  | error e => simp [hr] at h
  | ok q =>
    rw [hr] at h
    simp only at h
    cases hg : fs.get q with
    | none => simp [hg] at h
    | some n =>
      rw [hg] at h
      simp only at h
      injection h with h
      subst h
      unfold resolve at hr
      unfold MkdirAll
      by_cases hp : p = []
      · simp [hp] at hr
      · simp only [hp, if_false] at hr ⊢
        rw [mkdirWalk_noop fs q hg _ _ _ _ hr]

/-! ## Download -/

theorem isValidCache_true {w : World} {fs : FS} {p h : GoString}
    (hv : isValidCache w fs p h = true) :
    h ≠ [] ∧ ∃ data, ReadFile fs p = .ok data ∧ w.sha256hex data = h := by
  unfold isValidCache at hv
  by_cases h0 : h = []
  · simp [h0] at hv
  · simp only [h0, if_false] at hv
    refine ⟨h0, ?_⟩
    cases hr : ReadFile fs p with
    | error e => simp [hr] at hv
    | ok data =>
      rw [hr] at hv
      exact ⟨data, rfl, by simpa using hv⟩

theorem download_cached {w : World} {paths : Paths} {fs : FS} {version url h : GoString}
    (hurl : GetDownloadURL w.fetched w.goos w.goarch version = .ok (url, h))
    (hv : isValidCache w fs
      (paths.CachePath ("go".toList ++ version ++ ".tar.gz".toList)) h = true) :
    Download w paths fs version =
      ⟨fs, paths.CachePath ("go".toList ++ version ++ ".tar.gz".toList), none, []⟩ := by
  unfold Download
  simp only [hurl, hv, if_true]

/-- C5, amended: when the catalog declares a non-empty hash for the archive and
the cache path is not a symbolic link once the cache directory is in place,
every call of Download that returns without error returns a path whose file has
a content with exactly the declared hash. -/
theorem C5_download_hash (w : World) (paths : Paths) (fs : FS) (version url h : GoString)
    (hurl : GetDownloadURL w.fetched w.goos w.goarch version = .ok (url, h))
    (hh : h ≠ [])
    (hnl : ∀ t, Lstat (MkdirAll fs paths.Cache).1
      (paths.CachePath ("go".toList ++ version ++ ".tar.gz".toList)) ≠ .ok (Node.link t))
    (herr : (Download w paths fs version).err = none) :
    ∃ data, ReadFile (Download w paths fs version).fs (Download w paths fs version).path =
        .ok data ∧ w.sha256hex data = h := by
  by_cases hv : isValidCache w fs
      (paths.CachePath ("go".toList ++ version ++ ".tar.gz".toList)) h = true
  · rw [download_cached hurl hv]
    exact (isValidCache_true hv).2
  · have hc : isValidCache w fs
        (paths.CachePath ("go".toList ++ version ++ ".tar.gz".toList)) h = false := by
      simpa using hv
    obtain ⟨resp, _, hhash, hpath, _, hread⟩ :=
      download_transfer w paths fs version url h hurl hc hnl herr
    rw [hpath]
    refine ⟨resp.Body, hread, ?_⟩
    rcases hhash with h0 | h1
    · exact absurd h0 hh
    · exact h1

theorem C5_download_hash_witness :
    ∃ data, ReadFile (Download (demoWorld (demoDigest [1, 2, 3])) demoPaths demoInstalled
          "1.21.0".toList).fs
        (Download (demoWorld (demoDigest [1, 2, 3])) demoPaths demoInstalled
          "1.21.0".toList).path = .ok data ∧
      (demoWorld (demoDigest [1, 2, 3])).sha256hex data = demoDigest [1, 2, 3] :=
  C5_download_hash (demoWorld (demoDigest [1, 2, 3])) demoPaths demoInstalled "1.21.0".toList
    "https://go.dev/dl/go1.21.0.linux-amd64.tar.gz".toList (demoDigest [1, 2, 3])
    (by decide) (by decide)
    (fun t ht => by
      rw [show Lstat (MkdirAll demoInstalled demoPaths.Cache).1
        (demoPaths.CachePath ("go".toList ++ "1.21.0".toList ++ ".tar.gz".toList)) =
          .ok (Node.file [9]) from by decide] at ht
      cases ht)
    (by decide)

theorem lstat_of_absent {fs : FS} {p : GoString} {q : Path}
    (hr : resolve fs false p = .ok q) (hg : fs.get q = none) :
    Lstat fs p = .error Errno.ENOENT := by
  unfold Lstat
  rw [hr]
  simp [hg]

/-- A temporary file that was created and written is gone after the deferred
removal, and everything else is as before. -/
theorem temp_discarded {fs1 : FS} {tmpPath : GoString} {tmpLoc : Path} (body : Bytes)
    (hrt : resolve fs1 false tmpPath = .ok tmpLoc) (ht0 : tmpLoc ≠ [])
    (hgt : fs1.get tmpLoc = none) :
    Sub fs1 (removeTemp ((fs1.set tmpLoc (Node.file [])).set tmpLoc (Node.file body)) tmpPath) ∧
      Lstat (removeTemp ((fs1.set tmpLoc (Node.file [])).set tmpLoc (Node.file body)) tmpPath)
        tmpPath = .error Errno.ENOENT := by
  have hget3 : ∀ p, ((fs1.set tmpLoc (Node.file [])).set tmpLoc (Node.file body)).get p =
      if p = tmpLoc then some (Node.file body) else fs1.get p := by
    intro p
    rw [get_set, get_set]
    by_cases hp0 : p = []
    · subst hp0
      have h2 : ¬ ([] : Path) = tmpLoc := fun e => ht0 e.symm
      simp [h2, get_nil]
    · by_cases hp : p = tmpLoc
      · subst hp
        simp [hp0]
      · simp [hp0, hp]
  have hext : Ext fs1 ((fs1.set tmpLoc (Node.file [])).set tmpLoc (Node.file body)) :=
    ext_of_agree rfl (fun p => p = tmpLoc)
      (fun p hp n hn => by rw [hp, hgt] at hn; cases hn)
      (fun p hp => by rw [hget3, if_neg hp])
  have hrt3 := resolve_ext hext false _ _ (by simp) hrt
  have hgt3 : ((fs1.set tmpLoc (Node.file [])).set tmpLoc (Node.file body)).get tmpLoc =
      some (Node.file body) := by rw [hget3, if_pos rfl]
  rw [remove_file_ok hrt3 ht0 hgt3]
  have hget5 : ∀ p, (((fs1.set tmpLoc (Node.file [])).set tmpLoc (Node.file body)).erase
      tmpLoc).get p = fs1.get p := by
    intro p
    rw [get_erase, hget3]
    by_cases hp0 : p = []
    · subst hp0
      simp [get_nil]
    · by_cases hp : p = tmpLoc
      · subst hp
        simp [hp0, hgt]
      · simp [hp0, hp]
  have hsub : Sub fs1 (((fs1.set tmpLoc (Node.file [])).set tmpLoc (Node.file body)).erase
      tmpLoc) := ⟨rfl, fun p n hn => by rw [hget5]; exact hn⟩
  refine ⟨hsub, ?_⟩
  refine lstat_of_absent (resolve_ext (sub_toExt hsub) false _ _ (by simp) hrt) ?_
  rw [hget5]
  exact hgt

/-- C6, amended: when the catalog declares a non-empty hash, no valid cache
entry exists and the content the server delivers has a different hash, Download
returns an error, the temporary file it created no longer exists, and a file
that could be read at the cache path before the call reads the same after. -/
theorem C6_mismatch_rejected (w : World) (paths : Paths) (fs : FS)
    (version url h : GoString) (resp : Response)
    (hurl : GetDownloadURL w.fetched w.goos w.goarch version = .ok (url, h))
    (hh : h ≠ [])
    (hcache : isValidCache w fs
      (paths.CachePath ("go".toList ++ version ++ ".tar.gz".toList)) h = false)
    (hget : w.httpGet url = .ok resp)
    (hmis : w.sha256hex resp.Body ≠ h) :
    (Download w paths fs version).err ≠ none ∧
      (∀ fs2 loc tmpPath,
        CreateTemp (MkdirAll fs paths.Cache).1 paths.Cache "download-".toList ".tmp".toList
            w.rnd = .ok (fs2, loc, tmpPath) →
          Lstat (Download w paths fs version).fs tmpPath = .error Errno.ENOENT) ∧
      (∀ data,
        ReadFile fs (paths.CachePath ("go".toList ++ version ++ ".tar.gz".toList)) = .ok data →
          ReadFile (Download w paths fs version).fs
            (paths.CachePath ("go".toList ++ version ++ ".tar.gz".toList)) = .ok data) := by
  have hsub01 : Sub fs (MkdirAll fs paths.Cache).1 := mkdirAll_sub fs paths.Cache
  suffices hmain : (Download w paths fs version).err ≠ none ∧
      Sub (MkdirAll fs paths.Cache).1 (Download w paths fs version).fs ∧
      (∀ fs2 loc tmpPath,
        CreateTemp (MkdirAll fs paths.Cache).1 paths.Cache "download-".toList ".tmp".toList
            w.rnd = .ok (fs2, loc, tmpPath) →
          Lstat (Download w paths fs version).fs tmpPath = .error Errno.ENOENT) from
    ⟨hmain.1, hmain.2.2, fun data hd => readFile_mono (sub_trans hsub01 hmain.2.1) hd⟩
  generalize hr : Download w paths fs version = r
  unfold Download at hr
  simp only [hurl, hcache] at hr
  rcases hm : MkdirAll fs paths.Cache with ⟨fs1, e1⟩
  rw [hm] at hr
  simp only [Bool.false_eq_true, if_false] at hr
  have habs : ∀ fs2 loc tmpPath,
      CreateTemp fs1 paths.Cache "download-".toList ".tmp".toList w.rnd =
        .ok (fs2, loc, tmpPath) → Lstat fs1 tmpPath = .error Errno.ENOENT := by
    intro fs2 loc tmpPath hct
    obtain ⟨rr, _, hrt, _, hgt, _⟩ := createTemp_ok _ hct
    exact lstat_of_absent hrt hgt
  cases e1 with
  | some e =>
    simp only at hr
    rw [← hr]
    exact ⟨by simp, sub_refl _, habs⟩
  | none =>
    simp only [hget] at hr
    by_cases hst : resp.StatusCode ≠ 200
    · rw [if_pos hst] at hr
      rw [← hr]
      exact ⟨by simp, sub_refl _, habs⟩
    · rw [if_neg hst] at hr
      cases hct : CreateTemp fs1 paths.Cache "download-".toList ".tmp".toList w.rnd with
      | error e =>
        rw [hct] at hr
        rw [← hr]
        exact ⟨by simp, sub_refl _, fun _ _ _ hx => by cases hx⟩
      | ok t =>
        obtain ⟨fs2, tmpLoc, tmpPath⟩ := t
        rw [hct] at hr
        simp only at hr
        obtain ⟨rr, _, hrt, ht0, hgt, hfs2⟩ := createTemp_ok _ hct
        have hd := temp_discarded resp.Body hrt ht0 hgt
        rw [← hfs2] at hd
        have hfin : r.err ≠ none ∧ r.fs = removeTemp (fs2.set tmpLoc (Node.file resp.Body))
            tmpPath := by
          by_cases hb : resp.broken = true
          · rw [if_pos hb] at hr
            rw [← hr]
            exact ⟨by simp, rfl⟩
          · rw [if_neg hb] at hr
            rw [if_pos ⟨hh, hmis⟩] at hr
            rw [← hr]
            exact ⟨by simp, rfl⟩
        refine ⟨hfin.1, ?_, ?_⟩
        · rw [hfin.2]
          exact hd.1
        · intro fs2b locb tpb hctb
          injection hctb with hctb
          injection hctb with _ hctb
          injection hctb with _ htp
          rw [hfin.2, ← htp]
          exact hd.2

theorem C6_mismatch_rejected_witness :
    (Download (demoWorld (demoDigest [4])) demoPaths demoInstalled "1.21.0".toList).err ≠ none ∧
      (∀ fs2 loc tmpPath,
        CreateTemp (MkdirAll demoInstalled demoPaths.Cache).1 demoPaths.Cache "download-".toList
            ".tmp".toList (demoWorld (demoDigest [4])).rnd = .ok (fs2, loc, tmpPath) →
          Lstat (Download (demoWorld (demoDigest [4])) demoPaths demoInstalled
            "1.21.0".toList).fs tmpPath = .error Errno.ENOENT) ∧
      (∀ data,
        ReadFile demoInstalled
            (demoPaths.CachePath ("go".toList ++ "1.21.0".toList ++ ".tar.gz".toList)) =
            .ok data →
          ReadFile (Download (demoWorld (demoDigest [4])) demoPaths demoInstalled
              "1.21.0".toList).fs
            (demoPaths.CachePath ("go".toList ++ "1.21.0".toList ++ ".tar.gz".toList)) =
            .ok data) :=
  C6_mismatch_rejected (demoWorld (demoDigest [4])) demoPaths demoInstalled "1.21.0".toList
    "https://go.dev/dl/go1.21.0.linux-amd64.tar.gz".toList (demoDigest [4])
    ⟨200, [1, 2, 3], false⟩ (by decide) (by decide) (by decide) rfl (by decide)

/-- After creating the cache directory succeeded and with no valid cache
entry, Download requests the archive. -/
theorem download_requests {w : World} {paths : Paths} {fs : FS} {version url h : GoString}
    (hurl : GetDownloadURL w.fetched w.goos w.goarch version = .ok (url, h))
    (hcache : isValidCache w fs
      (paths.CachePath ("go".toList ++ version ++ ".tar.gz".toList)) h = false)
    (hmk : (MkdirAll fs paths.Cache).2 = none) :
    (Download w paths fs version).requested = [url] := by
  unfold Download
  simp only [hurl, hcache]
  rcases hm : MkdirAll fs paths.Cache with ⟨fs1, e1⟩
  rw [hm] at hmk
  simp only at hmk
  subst hmk
  simp only [Bool.false_eq_true, if_false]
  cases w.httpGet url with
  | error e => rfl
  | ok resp =>
    simp only
    split
    · rfl
    · cases CreateTemp fs1 paths.Cache "download-".toList ".tmp".toList w.rnd with
      | error e => rfl
      | ok t =>
        obtain ⟨fs2, tmpLoc, tmpPath⟩ := t
        simp only
        split
        · rfl
        · split
          · rfl
          · split
            · rfl
            · split <;> rfl

/-- C7: with a regular file at the cache path of the version (in an existing
cache directory), Download returns the cache path at once, requesting nothing
and leaving the file system as it is, when the file has the hash the catalog
declares; when its hash is different, Download requests the archive, and if it
returns without error the returned path is the cache path and the file there
holds the content just downloaded. -/
theorem C7_cache_hit_or_transfer (w : World) (paths : Paths) (fs : FS)
    (version url h : GoString) (data : Bytes)
    (hurl : GetDownloadURL w.fetched w.goos w.goarch version = .ok (url, h))
    (hdir : Stat fs paths.Cache = .ok Node.dir)
    (hfile : Lstat fs (paths.CachePath ("go".toList ++ version ++ ".tar.gz".toList)) =
      .ok (Node.file data)) :
    (w.sha256hex data = h →
      Download w paths fs version =
        ⟨fs, paths.CachePath ("go".toList ++ version ++ ".tar.gz".toList), none, []⟩) ∧
    (w.sha256hex data ≠ h →
      (Download w paths fs version).requested = [url] ∧
      ((Download w paths fs version).err = none →
        ∃ resp, w.httpGet url = .ok resp ∧
          (Download w paths fs version).path =
            paths.CachePath ("go".toList ++ version ++ ".tar.gz".toList) ∧
          ReadFile (Download w paths fs version).fs
            (paths.CachePath ("go".toList ++ version ++ ".tar.gz".toList)) = .ok resp.Body)) := by
  have hnl : ∀ t, Lstat fs (paths.CachePath ("go".toList ++ version ++ ".tar.gz".toList)) ≠
      .ok (Node.link t) := by
    intro t ht
    rw [hfile] at ht
    cases ht
  obtain ⟨q, hq, hg⟩ := lstat_ok hfile
  have hread : ReadFile fs (paths.CachePath ("go".toList ++ version ++ ".tar.gz".toList)) =
      .ok data := readFile_of_resolve (by rw [resolve_follow_eq hnl]; exact hq) hg
  have hmk := mkdirAll_existing hdir
  constructor
  · intro hhash
    apply download_cached hurl
    unfold isValidCache
    have h0 : h ≠ [] := by
      intro e
      have hl := w.sha256hex_length data
      rw [hhash, e] at hl
      simp at hl
    simp only [h0, if_false, hread]
    simpa using hhash
  · intro hhash
    have hc : isValidCache w fs
        (paths.CachePath ("go".toList ++ version ++ ".tar.gz".toList)) h = false := by
      unfold isValidCache
      by_cases h0 : h = []
      · simp [h0]
      · simp only [h0, if_false, hread]
        simpa using hhash
    refine ⟨download_requests hurl hc (by rw [hmk]), ?_⟩
    intro herr
    obtain ⟨resp, hget, _, hpath, _, hrd⟩ :=
      download_transfer w paths fs version url h hurl hc (by rw [hmk]; exact hnl) herr
    exact ⟨resp, hget, hpath, hrd⟩

theorem C7_cache_hit_or_transfer_witness :
    Download (demoWorld (demoDigest [9])) demoPaths demoInstalled "1.21.0".toList =
        ⟨demoInstalled, demoPaths.CachePath ("go".toList ++ "1.21.0".toList ++ ".tar.gz".toList),
          none, []⟩ ∧
      (Download (demoWorld (demoDigest [1, 2, 3])) demoPaths demoInstalled
          "1.21.0".toList).requested =
        ["https://go.dev/dl/go1.21.0.linux-amd64.tar.gz".toList] ∧
      ∃ resp, (demoWorld (demoDigest [1, 2, 3])).httpGet
          "https://go.dev/dl/go1.21.0.linux-amd64.tar.gz".toList = .ok resp ∧
        (Download (demoWorld (demoDigest [1, 2, 3])) demoPaths demoInstalled
            "1.21.0".toList).path =
          demoPaths.CachePath ("go".toList ++ "1.21.0".toList ++ ".tar.gz".toList) ∧
        ReadFile (Download (demoWorld (demoDigest [1, 2, 3])) demoPaths demoInstalled
            "1.21.0".toList).fs
          (demoPaths.CachePath ("go".toList ++ "1.21.0".toList ++ ".tar.gz".toList)) =
          .ok resp.Body :=
  ⟨(C7_cache_hit_or_transfer (demoWorld (demoDigest [9])) demoPaths demoInstalled
      "1.21.0".toList "https://go.dev/dl/go1.21.0.linux-amd64.tar.gz".toList (demoDigest [9]) [9]
      (by decide) (by decide) (by decide)).1 (by decide),
    ((C7_cache_hit_or_transfer (demoWorld (demoDigest [1, 2, 3])) demoPaths demoInstalled
      "1.21.0".toList "https://go.dev/dl/go1.21.0.linux-amd64.tar.gz".toList
      (demoDigest [1, 2, 3]) [9] (by decide) (by decide) (by decide)).2 (by decide)).1,
    ((C7_cache_hit_or_transfer (demoWorld (demoDigest [1, 2, 3])) demoPaths demoInstalled
      "1.21.0".toList "https://go.dev/dl/go1.21.0.linux-amd64.tar.gz".toList
      (demoDigest [1, 2, 3]) [9] (by decide) (by decide) (by decide)).2 (by decide)).2
      (by decide)⟩

/-- C11: `SetCurrent` accepts a version whose toolchain entrypoint go/bin/go
is missing.  In the state `demoHalf` version 1.22.0 has a go directory but no
entrypoint and is not installed, the pointer leads to 1.21.0; `SetCurrent` of
1.22.0 returns no error and the pointer then leads to 1.22.0. -/
theorem C11_set_current_without_entrypoint :
    Stat demoHalf "/r/versions/1.22.0/go/bin/go".toList = .error Errno.ENOENT ∧
      IsInstalled demoPaths demoHalf "1.22.0".toList = false ∧
      Readlink demoHalf demoPaths.Current = .ok "/r/versions/1.21.0/go".toList ∧
      (SetCurrent demoPaths demoHalf "1.22.0".toList).2 = none ∧
      Readlink (SetCurrent demoPaths demoHalf "1.22.0".toList).1 demoPaths.Current =
        .ok "/r/versions/1.22.0/go".toList := by
  decide

/-- C12, as stated, fails: in the state `demoBroken` version 1.21.0 has no
go/bin/go and is not installed, yet `Uninstall` returns no error and removes
the directory of the version. -/
theorem C12_counterexample :
    IsInstalled demoPaths demoBroken "1.21.0".toList = false ∧
      Lstat demoBroken "/r/versions/1.21.0".toList = .ok Node.dir ∧
      (Uninstall demoPaths demoBroken "1.21.0".toList).2 = none ∧
      Lstat (Uninstall demoPaths demoBroken "1.21.0".toList).1 "/r/versions/1.21.0".toList =
        .error Errno.ENOENT := by
  decide

/-- C12, amended: `Installer.Uninstall` returns an error and leaves the file
system as it is whenever the directory of the version does not exist; the test
for the entrypoint go/bin/go is made by `Manager.Uninstall`, which returns an
error and leaves the file system as it is whenever the normalized version is
not installed. -/
theorem C12_uninstall_not_installed (paths : Paths) (fs : FS) (version : GoString) :
    (∀ e, Stat fs (paths.VersionPath version) = .error e → IsNotExist e = true →
      (Uninstall paths fs version).2 ≠ none ∧ (Uninstall paths fs version).1 = fs) ∧
    (IsInstalled paths fs (NormalizeVersion version) = false →
      (Manager.Uninstall paths fs version).2 ≠ none ∧
        (Manager.Uninstall paths fs version).1 = fs) := by
  constructor
  · intro e hs hne
    unfold Uninstall
    simp [hs, hne]
  · intro h
    unfold Manager.Uninstall
    simp [h]

theorem C12_uninstall_not_installed_witness :
    ((Uninstall demoPaths demoBroken "1.22.0".toList).2 ≠ none ∧
      (Uninstall demoPaths demoBroken "1.22.0".toList).1 = demoBroken) ∧
    ((Manager.Uninstall demoPaths demoBroken "go1.21.0".toList).2 ≠ none ∧
      (Manager.Uninstall demoPaths demoBroken "go1.21.0".toList).1 = demoBroken) :=
  ⟨(C12_uninstall_not_installed demoPaths demoBroken "1.22.0".toList).1 Errno.ENOENT
      (by decide) (by decide),
    (C12_uninstall_not_installed demoPaths demoBroken "go1.21.0".toList).2 (by decide)⟩

theorem mapGet_mapSet (m : StrMap) (k v : GoString) : mapGet (mapSet m k v) k = some v := by
  simp [mapSet, mapGet]

/-- C19: for an alias whose stored target is empty, `ResolveVersion` returns
the normalized alias name; with the default configuration the reserved names
"stable" and "latest" resolve to themselves. -/
theorem C19_empty_alias_resolves_to_name :
    (∀ (cfg : Config) (name : GoString), GetAlias cfg name = ([], true) →
      ResolveVersion cfg name = NormalizeVersion name) ∧
    (∀ cfg : Config, GetAlias cfg "stable".toList = ([], true) →
      ResolveVersion cfg "stable".toList = "stable".toList) ∧
    GetAlias DefaultConfig "stable".toList = ([], true) ∧
    GetAlias DefaultConfig "latest".toList = ([], true) ∧
    ResolveVersion DefaultConfig "stable".toList = "stable".toList ∧
    ResolveVersion DefaultConfig "latest".toList = "latest".toList := by
  have h1 : ∀ (cfg : Config) (name : GoString), GetAlias cfg name = ([], true) →
      ResolveVersion cfg name = NormalizeVersion name := by
    intro cfg name h
    unfold ResolveVersion
    rw [h]
    simp
  refine ⟨h1, ?_, by decide, by decide, by decide, by decide⟩
  intro cfg h
  rw [h1 cfg _ h]
  decide

theorem C19_empty_alias_resolves_to_name_witness :
    ResolveVersion DefaultConfig "latest".toList = NormalizeVersion "latest".toList :=
  C19_empty_alias_resolves_to_name.1 DefaultConfig "latest".toList (by decide)

/-- C20, as stated, fails: `SetAlias` of the name "x" to "gogo1.21", with a
configuration loaded and `Save` succeeding, returns no error, and the target
then stored for "x" is "go1.21", which is neither empty nor unchanged by
`NormalizeVersion`. -/
theorem C20_counterexample :
    (SetAlias (some DefaultConfig) none "x".toList "gogo1.21".toList).err = none ∧
      GetAlias (Get (SetAlias (some DefaultConfig) none "x".toList "gogo1.21".toList).cfg)
        "x".toList = ("go1.21".toList, true) ∧
      NormalizeVersion "go1.21".toList = "1.21".toList := by
  decide

/-- C20, amended: after `SetAlias` of `name` to `v` has returned without
error, the target the process configuration holds for `name` is empty or
`NormalizeVersion v`: it is `NormalizeVersion v` in the configuration handed to
`Save`, and in the process configuration when one is loaded, while without a
loaded configuration the process keeps nothing.  Normalizing
`NormalizeVersion v` once more changes nothing provided it does not itself
begin with "go" or "v". -/
theorem C20_stored_target (loaded : Option Config) (saveResult : Option Err)
    (name v : GoString) (_hok : (SetAlias loaded saveResult name v).err = none) :
    ((GetAlias (Get (SetAlias loaded saveResult name v).cfg) name).1 = [] ∨
      (GetAlias (Get (SetAlias loaded saveResult name v).cfg) name).1 = NormalizeVersion v) ∧
    (∃ c, (SetAlias loaded saveResult name v).saved = some c ∧
      GetAlias c name = (NormalizeVersion v, true)) ∧
    (loaded ≠ none →
      GetAlias (Get (SetAlias loaded saveResult name v).cfg) name = (NormalizeVersion v, true)) ∧
    (loaded = none → (SetAlias loaded saveResult name v).cfg = none) ∧
    (HasPrefix (NormalizeVersion v) "go".toList = false →
      HasPrefix (NormalizeVersion v) "v".toList = false →
      NormalizeVersion (NormalizeVersion v) = NormalizeVersion v) := by
  have hsome : ∀ c, GetAlias (Get (SetAlias (some c) saveResult name v).cfg) name =
      (NormalizeVersion v, true) := by
    intro c
    unfold SetAlias GetAlias Get
    simp only [Option.map_some', mapGet_mapSet]
  refine ⟨?_, ?_, ?_, ?_, ?_⟩
  · cases loaded with
    | some c =>
      right
      rw [hsome c]
    | none =>
      left
      have hd : (SetAlias none saveResult name v).cfg = none := rfl
      rw [hd]
      unfold GetAlias Get DefaultConfig
      simp only
      unfold mapGet
      by_cases h1 : "stable".toList = name
      · simp only [h1, if_true]
      · simp only [h1, if_false]
        unfold mapGet
        by_cases h2 : "latest".toList = name
        · simp only [h2, if_true]
        · simp only [h2, if_false]
          rfl
  · refine ⟨_, rfl, ?_⟩
    unfold GetAlias
    simp only [mapGet_mapSet]
  · intro h
    cases loaded with
    | some c => exact hsome c
    | none => exact absurd rfl h
  · intro h
    rw [h]
    rfl
  · intro h1 h2
    have e : NormalizeVersion (NormalizeVersion v) = TrimSpace (NormalizeVersion v) := by
      show TrimSpace (TrimPrefix (TrimPrefix (NormalizeVersion v) "go".toList) "v".toList) = _
      rw [TrimPrefix_of_not _ _ h1, TrimPrefix_of_not _ _ h2]
    rw [e]
    unfold NormalizeVersion
    exact TrimSpace_idem _

theorem C20_stored_target_witness :
    GetAlias (Get (SetAlias (some DefaultConfig) none "prod".toList "go1.21.0".toList).cfg)
        "prod".toList = (NormalizeVersion "go1.21.0".toList, true) ∧
      NormalizeVersion (NormalizeVersion "go1.21.0".toList) = NormalizeVersion "go1.21.0".toList :=
  ⟨(C20_stored_target (some DefaultConfig) none "prod".toList "go1.21.0".toList
      (by decide)).2.2.1 (by decide),
    (C20_stored_target (some DefaultConfig) none "prod".toList "go1.21.0".toList
      (by decide)).2.2.2.2 (by decide) (by decide)⟩

/-! ## Insertion sort meets the contract of `sort.Slice` -/

theorem insertBack_perm (less : GoString → GoString → Bool) (x : GoString) :
    ∀ l, (insertBack less x l).Perm (x :: l) := by
  intro l
  induction l with
  | nil => exact List.Perm.refl _
  | cons y ys ih =>
    unfold insertBack
    by_cases h : less x y = true
    · simp only [h, if_true]
      exact (List.Perm.cons y ih).trans (List.Perm.swap x y ys)
    · simp only [h]
      exact List.Perm.refl _

theorem insertionLoop_perm (less : GoString → GoString → Bool) :
    ∀ l acc, (insertionLoop less acc l).Perm (acc.reverse ++ l) := by
  intro l
  induction l with
  | nil =>
    intro acc
    unfold insertionLoop
    simp
  | cons x xs ih =>
    intro acc
    unfold insertionLoop
    refine (ih (insertBack less x acc)).trans ?_
    have h1 : (insertBack less x acc).reverse.Perm (acc.reverse ++ [x]) := by
      refine (List.reverse_perm _).trans ((insertBack_perm less x acc).trans ?_)
      have h2 : (acc.reverse ++ [x]).Perm (x :: acc) := by
        rw [← List.reverse_cons]
        exact List.reverse_perm _
      exact h2.symm
    have h3 := List.Perm.append_right xs h1
    simpa using h3

theorem insertBack_sorted (less : GoString → GoString → Bool) (M : GoString → Prop)
    (hasym : ∀ a, M a → ∀ b, M b → less a b = true → less b a = false)
    (htr : ∀ a, M a → ∀ b, M b → ∀ c, M c → less a b = false → less b c = false →
      less a c = false)
    (x : GoString) (hx : M x) :
    ∀ acc, (∀ y ∈ acc, M y) → acc.Pairwise (fun u w => less u w = false) →
      (insertBack less x acc).Pairwise (fun u w => less u w = false) := by
  intro acc
  induction acc with
  | nil =>
    intro _ _
    unfold insertBack
    simp
  | cons y ys ih =>
    intro hM hp
    have hy : M y := hM y (by simp)
    have hys : ∀ z ∈ ys, M z := fun z hz => hM z (by simp [hz])
    rw [List.pairwise_cons] at hp
    unfold insertBack
    by_cases h : less x y = true
    · simp only [h, if_true]
      rw [List.pairwise_cons]
      refine ⟨?_, ih hys hp.2⟩
      intro z hz
      have hz2 : z ∈ x :: ys := (insertBack_perm less x ys).mem_iff.mp hz
      rcases List.mem_cons.mp hz2 with e | e
      · rw [e]
        exact hasym x hx y hy h
      · exact hp.1 z e
    · have h0 : less x y = false := by simpa using h
      simp only [h0, Bool.false_eq_true, if_false]
      rw [List.pairwise_cons]
      refine ⟨?_, List.pairwise_cons.mpr hp⟩
      intro z hz
      rcases List.mem_cons.mp hz with e | e
      · rw [e]
        exact h0
      · exact htr x hx y hy z (hys z e) h0 (hp.1 z e)

theorem insertionLoop_sorted (less : GoString → GoString → Bool) (M : GoString → Prop)
    (hasym : ∀ a, M a → ∀ b, M b → less a b = true → less b a = false)
    (htr : ∀ a, M a → ∀ b, M b → ∀ c, M c → less a b = false → less b c = false →
      less a c = false) :
    ∀ l acc, (∀ y ∈ l, M y) → (∀ y ∈ acc, M y) →
      acc.Pairwise (fun u w => less u w = false) →
      (insertionLoop less acc l).Pairwise (fun a b => less b a = false) := by
  intro l
  induction l with
  | nil =>
    intro acc _ _ hp
    unfold insertionLoop
    exact List.pairwise_reverse.mpr hp
  | cons x xs ih =>
    intro acc hl hacc hp
    unfold insertionLoop
    have hx : M x := hl x (by simp)
    refine ih _ (fun y hy => hl y (by simp [hy])) ?_
      (insertBack_sorted less M hasym htr x hx acc hacc hp)
    intro y hy
    have hy2 : y ∈ x :: acc := (insertBack_perm less x acc).mem_iff.mp hy
    rcases List.mem_cons.mp hy2 with e | e
    · rw [e]
      exact hx
    · exact hacc y e

/-- The sample libraries meet the contract of `sort.Slice`. -/
theorem demoLibs_sorts : demoLibs.Sorts := by
  intro less l
  constructor
  · have h := insertionLoop_perm less l []
    simpa [insertionSort, demoLibs] using h
  · intro hasym htr
    exact insertionLoop_sorted less (fun a => a ∈ l)
      (fun a ha b hb => hasym a ha b hb) (fun a ha b hb c hc => htr a ha b hb c hc)
      l [] (fun _ h => h) (fun _ h => by simp at h) List.Pairwise.nil

/-- The comparison of the sample libraries is a strict weak order on every
list of version strings. -/
theorem demoLibs_orderedOn (l : List GoString) : demoLibs.OrderedOn l := by
  have k1 : ∀ a b : Nat, decide (b < a) = true → decide (a < b) = false := by
    intro a b h
    have h1 : b < a := of_decide_eq_true h
    exact decide_eq_false (by omega)
  have k2 : ∀ a b c : Nat, decide (b < a) = false → decide (c < b) = false →
      decide (c < a) = false := by
    intro a b c h1 h2
    have h3 : ¬ b < a := of_decide_eq_false h1
    have h4 : ¬ c < b := of_decide_eq_false h2
    exact decide_eq_false (by omega)
  constructor
  · intro a _ b _ h
    unfold newer at h ⊢
    cases ha : demoLibs.NewVersion a with
    | none => cases hb : demoLibs.NewVersion b <;> rfl
    | some x =>
      cases hb : demoLibs.NewVersion b with
      | none => rfl
      | some y =>
        rw [ha, hb] at h
        exact k1 x y h
  · intro a _ b _ c _ hbp h1 h2
    obtain ⟨y, hb⟩ := Option.isSome_iff_exists.mp hbp
    unfold newer at h1 h2 ⊢
    cases ha : demoLibs.NewVersion a with
    | none => cases hc : demoLibs.NewVersion c <;> rfl
    | some x =>
      cases hc : demoLibs.NewVersion c with
      | none => rfl
      | some z =>
        rw [ha, hb] at h1
        rw [hb, hc] at h2
        exact k2 x y z h1 h2

/-! ## Sorted version lists -/

theorem versionLess_parsed (lib : Libs) {a b : GoString} {x y : lib.Version}
    (ha : lib.NewVersion a = some x) (hb : lib.NewVersion b = some y) :
    versionLess lib a b = lib.GreaterThan x y := by
  unfold versionLess
  rw [ha, hb]

theorem not_newer_of_less (lib : Libs) {a b : GoString} (h : versionLess lib b a = false) :
    newer lib b a = false := by
  unfold newer
  unfold versionLess at h
  cases hb : lib.NewVersion b with
  | none => rfl
  | some x =>
    cases ha : lib.NewVersion a with
    | none => rfl
    | some y =>
      rw [hb, ha] at h
      exact h

/-- On two strings that parse, the comparison of `sortVersionsDesc` is
"newer". -/
theorem versionLess_newer (lib : Libs) {a b : GoString}
    (ha : (lib.NewVersion a).isSome = true) (hb : (lib.NewVersion b).isSome = true) :
    versionLess lib a b = newer lib a b := by
  obtain ⟨x, hx⟩ := Option.isSome_iff_exists.mp ha
  obtain ⟨y, hy⟩ := Option.isSome_iff_exists.mp hb
  unfold versionLess newer
  rw [hx, hy]

theorem orderedOn_subset (lib : Libs) {l m : List GoString} (h : ∀ a ∈ m, a ∈ l)
    (hO : lib.OrderedOn l) : lib.OrderedOn m :=
  ⟨fun a ha b hb => hO.1 a (h a ha) b (h b hb),
    fun a ha b hb c hc => hO.2 a (h a ha) b (h b hb) c (h c hc)⟩

/-- Sorting version strings that all parse and on which the comparison of the
library is a strict weak order: the result is a rearrangement in which no
string is less than a string before it. -/
theorem sortVersionsDesc_sorted (lib : Libs) (hS : lib.Sorts)
    (l : List GoString) (hO : lib.OrderedOn l)
    (hp : ∀ a ∈ l, (lib.NewVersion a).isSome = true) :
    (sortVersionsDesc lib l).Perm l ∧
      (sortVersionsDesc lib l).Pairwise (fun a b => versionLess lib b a = false) := by
  obtain ⟨hperm, hsorted⟩ := hS (versionLess lib) l
  refine ⟨hperm, hsorted ?_ ?_⟩
  · intro a ha b hb h
    rw [versionLess_newer lib (hp a ha) (hp b hb)] at h
    rw [versionLess_newer lib (hp b hb) (hp a ha)]
    exact hO.1 a ha b hb h
  · intro a ha b hb c hc h1 h2
    rw [versionLess_newer lib (hp a ha) (hp b hb)] at h1
    rw [versionLess_newer lib (hp b hb) (hp c hc)] at h2
    rw [versionLess_newer lib (hp a ha) (hp c hc)]
    exact hO.2 a ha b hb c hc (hp b hb) h1 h2

/-- C18: `GetLatestStable` returns the first stable entry in the order of the
catalog.  For the catalog `demoUnordered`, which lists the stable version
1.20.0 before the stable version 1.21.0, it returns 1.20.0, while
`ListStableVersions` puts 1.21.0 first, which is the newer one. -/
theorem C18_latest_stable_follows_catalog_order :
    GetLatestStable (.ok demoUnordered) = .ok "1.20.0".toList ∧
      ListStableVersions demoLibs (.ok demoUnordered) =
        .ok ["1.21.0".toList, "1.20.0".toList] ∧
      newer demoLibs "1.21.0".toList "1.20.0".toList = true := by
  decide

/-! ## Completing a detected version -/

theorem completes_iff (s v : GoString) :
    (HasPrefix v (s ++ ".".toList) || decide (v = s)) = true ↔ completes s v := by
  unfold completes
  simp

/-- C15, as stated, fails.  The catalog `demoOdd` holds a version string that
is no semantic version, the list is then not in order, and for the specifier
1.21 the result is 1.21.9 although the catalog holds the newer 1.21.10.  And
in the catalog `demoPreCatalog` every entry parses, but with a library that
compares pre-releases as hashicorp/go-version does the three are newer than
one another in a circle; for the specifier 5.4 the result is 5.4.0-alpha.1
although the catalog holds 5.4.0-alpha.beta, which is newer. -/
theorem C15_counterexample :
    ((splitDot "1.21".toList).length < 3 ∧
      NormalizeDetectedVersion demoLibs (.ok demoOdd) "1.21".toList = ("1.21.9".toList, none) ∧
      demoEntry "go1.21.10".toList true ∈ demoOdd ∧
      completes "1.21".toList "1.21.10".toList ∧
      newer demoLibs "1.21.10".toList "1.21.9".toList = true) ∧
    ((splitDot "5.4".toList).length < 3 ∧ allParse demoPreLibs demoPreCatalog ∧
      NormalizeDetectedVersion demoPreLibs (.ok demoPreCatalog) "5.4".toList =
        ("5.4.0-alpha.1".toList, none) ∧
      demoEntry "go5.4.0-alpha.beta".toList false ∈ demoPreCatalog ∧
      completes "5.4".toList "5.4.0-alpha.beta".toList ∧
      newer demoPreLibs "5.4.0-alpha.beta".toList "5.4.0-alpha.1".toList = true) := by
  decide

/-- C15, amended: for a specifier with fewer than three components and a
catalog whose entries all parse and on whose versions the comparison of the
library is a strict weak order, one of which completes the specifier, the
result of `NormalizeDetectedVersion` is the version of a catalog entry that
completes the specifier, and no catalog version completing the specifier is
newer than the result. -/
theorem C15_highest_patch (lib : Libs) (hS : lib.Sorts)
    (versions : List RemoteVersion) (spec : GoString)
    (hp : allParse lib versions)
    (hO : lib.OrderedOn (versions.map (fun v => normalizeVersionString v.Version)))
    (hshort : (splitDot spec).length < 3)
    (hex : ∃ v ∈ versions, completes spec (normalizeVersionString v.Version)) :
    (NormalizeDetectedVersion lib (.ok versions) spec).2 = none ∧
      (∃ v ∈ versions, normalizeVersionString v.Version =
        (NormalizeDetectedVersion lib (.ok versions) spec).1) ∧
      completes spec (NormalizeDetectedVersion lib (.ok versions) spec).1 ∧
      ∀ v ∈ versions, completes spec (normalizeVersionString v.Version) →
        newer lib (normalizeVersionString v.Version)
          (NormalizeDetectedVersion lib (.ok versions) spec).1 = false := by
  have hall := sortVersionsDesc_sorted lib hS
    (versions.map (fun v => normalizeVersionString v.Version)) hO
    (by
      intro a ha
      obtain ⟨v, hv, rfl⟩ := List.mem_map.mp ha
      exact hp v hv)
  obtain ⟨hperm, hsorted⟩ := hall
  have hnot : ¬ (splitDot spec).length ≥ 3 := by omega
  unfold NormalizeDetectedVersion ListAllVersions
  simp only [hnot, if_false]
  generalize hsl : sortVersionsDesc lib
    (versions.map (fun v => normalizeVersionString v.Version)) = all at hperm hsorted ⊢
  cases hf : all.find? (fun v => HasPrefix v (spec ++ ".".toList) || decide (v = spec)) with
  | none =>
    exfalso
    obtain ⟨v, hv, hc⟩ := hex
    have hmem : normalizeVersionString v.Version ∈ all :=
      hperm.mem_iff.mpr (List.mem_map.mpr ⟨v, hv, rfl⟩)
    have := List.find?_eq_none.mp hf _ hmem
    exact this ((completes_iff _ _).mpr hc)
  | some r =>
    simp only
    obtain ⟨hpr, pre, post, hsplit, hpre⟩ := List.find?_eq_some.mp hf
    have hrmem : r ∈ all := List.mem_of_find?_eq_some hf
    refine ⟨trivial, ?_, (completes_iff _ _).mp hpr, ?_⟩
    · obtain ⟨v, hv, hvr⟩ := List.mem_map.mp (hperm.mem_iff.mp hrmem)
      exact ⟨v, hv, hvr⟩
    · intro v hv hc
      have hmem : normalizeVersionString v.Version ∈ all :=
        hperm.mem_iff.mpr (List.mem_map.mpr ⟨v, hv, rfl⟩)
      rw [hsplit] at hmem hsorted
      rcases List.mem_append.mp hmem with h1 | h1
      · have := hpre _ h1
        rw [(completes_iff _ _).mpr hc] at this
        cases this
      · rcases List.mem_cons.mp h1 with h2 | h2
        · rw [h2]
          have hr0 := hperm.mem_iff.mp hrmem
          cases hg : newer lib r r with
          | false => rfl
          | true =>
            have := hO.1 r hr0 r hr0 hg
            rw [hg] at this
            cases this
        · have hpw := (List.pairwise_append.mp hsorted).2.1
          rw [List.pairwise_cons] at hpw
          exact not_newer_of_less lib (hpw.1 _ h2)

theorem C15_highest_patch_witness :
    (NormalizeDetectedVersion demoLibs (.ok demoCandidate) "1.21".toList).2 = none ∧
      (∃ v ∈ demoCandidate, normalizeVersionString v.Version =
        (NormalizeDetectedVersion demoLibs (.ok demoCandidate) "1.21".toList).1) ∧
      completes "1.21".toList
        (NormalizeDetectedVersion demoLibs (.ok demoCandidate) "1.21".toList).1 ∧
      ∀ v ∈ demoCandidate, completes "1.21".toList (normalizeVersionString v.Version) →
        newer demoLibs (normalizeVersionString v.Version)
          (NormalizeDetectedVersion demoLibs (.ok demoCandidate) "1.21".toList).1 = false :=
  C15_highest_patch demoLibs demoLibs_sorts demoCandidate "1.21".toList
    (by decide) (by decide) (by decide) ⟨demoEntry "go1.21.0".toList true, by decide, by decide⟩

/-- C16: `NormalizeDetectedVersion` never returns an error.  A specifier with
three or more components is returned as it is; a shorter one is returned with
".0" appended when the catalog cannot be fetched, and also when the catalog is
fetched and none of its versions completes the specifier. -/
theorem C16_never_fails (lib : Libs) (fetched : Except Err (List RemoteVersion))
    (spec : GoString) :
    (NormalizeDetectedVersion lib fetched spec).2 = none ∧
      (3 ≤ (splitDot spec).length → (NormalizeDetectedVersion lib fetched spec).1 = spec) ∧
      ((splitDot spec).length < 3 →
        (∀ e, fetched = .error e →
          (NormalizeDetectedVersion lib fetched spec).1 = spec ++ ".0".toList) ∧
        (lib.Sorts → ∀ versions, fetched = .ok versions →
          (∀ v ∈ versions, ¬ completes spec (normalizeVersionString v.Version)) →
          (NormalizeDetectedVersion lib fetched spec).1 = spec ++ ".0".toList)) := by
  refine ⟨?_, ?_, ?_⟩
  · unfold NormalizeDetectedVersion
    simp only
    split
    · rfl
    · split
      · rfl
      · split <;> rfl
  · intro h
    unfold NormalizeDetectedVersion
    simp only [ge_iff_le, h, if_true]
  · intro h
    have hnot : ¬ (splitDot spec).length ≥ 3 := by omega
    constructor
    · intro e he
      unfold NormalizeDetectedVersion ListAllVersions
      simp only [hnot, if_false, he]
    · intro hS versions hv hnone
      unfold NormalizeDetectedVersion ListAllVersions
      simp only [hnot, if_false, hv]
      have hperm := (hS (versionLess lib)
        (versions.map (fun v => normalizeVersionString v.Version))).1
      have hf : (sortVersionsDesc lib
          (versions.map (fun v => normalizeVersionString v.Version))).find?
          (fun v => HasPrefix v (spec ++ ".".toList) || decide (v = spec)) = none := by
        apply List.find?_eq_none.mpr
        intro x hx hc
        obtain ⟨v, hvm, hvx⟩ := List.mem_map.mp (hperm.mem_iff.mp hx)
        apply hnone v hvm
        rw [hvx]
        exact (completes_iff _ _).mp hc
      rw [hf]

theorem C16_never_fails_witness :
    (NormalizeDetectedVersion demoLibs (.ok demoCandidate) "1.21.0".toList).1 = "1.21.0".toList ∧
      (NormalizeDetectedVersion demoLibs (.error (Err.msg "failed to fetch versions"))
        "1.21".toList).1 = "1.21.0".toList ∧
      (NormalizeDetectedVersion demoLibs (.ok demoCandidate) "1.22".toList).1 =
        "1.22.0".toList :=
  ⟨(C16_never_fails demoLibs (.ok demoCandidate) "1.21.0".toList).2.1 (by decide),
    ((C16_never_fails demoLibs (.error (Err.msg "failed to fetch versions"))
      "1.21".toList).2.2 (by decide)).1 _ rfl,
    ((C16_never_fails demoLibs (.ok demoCandidate) "1.22".toList).2.2 (by decide)).2
      demoLibs_sorts demoCandidate rfl (by decide)⟩

/-! ## `filepath.Dir` shortens an absolute path -/

theorem joinSlash_length (l : List GoString) (h : l ≠ []) :
    (joinSlash l).length + 1 = (l.map (fun x => x.length + 1)).sum := by
  induction l with
  | nil => exact absurd rfl h
  | cons x xs ih =>
    cases xs with
    | nil => simp [joinSlash]
    | cons y ys =>
      have := ih (by simp)
      simp only [joinSlash, List.length_append, List.length_cons, List.map_cons,
        List.sum_cons] at this ⊢
      omega

theorem splitSlash_weight (t : GoString) :
    ((splitSlash t).map (fun x => x.length + 1)).sum = t.length + 1 := by
  induction t with
  | nil => simp [splitSlash]
  | cons c cs ih =>
    unfold splitSlash
    by_cases hc : c = '/'
    · simp only [hc, if_true, List.map_cons, List.sum_cons, List.length_nil, List.length_cons]
      omega
    · simp only [hc, if_false]
      cases hs : splitSlash cs with
      | nil => exact absurd hs (splitSlash_ne_nil cs)
      | cons x xs =>
        rw [hs] at ih
        simp only [List.map_cons, List.sum_cons, List.length_cons] at ih ⊢
        omega

theorem cleanElems_weight (rooted : Bool) :
    ∀ cs st, ((cleanElems rooted st cs).map (fun x => x.length + 1)).sum ≤
      (st.map (fun x => x.length + 1)).sum + (cs.map (fun x => x.length + 1)).sum := by
  intro cs
  induction cs with
  | nil =>
    intro st
    unfold cleanElems
    simp [List.sum_reverse]
  | cons c cs ih =>
    intro st
    by_cases h1 : c = [] ∨ c = ".".toList
    · rw [cleanElems_cons_skip rooted st cs c h1]
      have := ih st
      simp only [List.map_cons, List.sum_cons]
      omega
    · by_cases h2 : c = "..".toList
      · subst h2
        cases st with
        | nil =>
          rw [cleanElems_cons_dotdot_nil]
          cases rooted with
          | true =>
            have := ih []
            simp only [if_true, List.map_cons, List.sum_cons, List.map_nil, List.sum_nil] at this ⊢
            omega
          | false =>
            have := ih ["..".toList]
            simp only [Bool.false_eq_true, if_false, List.map_cons, List.sum_cons, List.map_nil,
              List.sum_nil] at this ⊢
            omega
        | cons top below =>
          rw [cleanElems_cons_dotdot_cons]
          by_cases h3 : top = "..".toList
          · have := ih ("..".toList :: top :: below)
            simp only [h3, if_true, List.map_cons, List.sum_cons] at this ⊢
            omega
          · have := ih below
            simp only [h3, if_false, List.map_cons, List.sum_cons] at this ⊢
            omega
      · rw [cleanElems_cons_elem rooted st cs c h1 h2]
        have := ih (c :: st)
        simp only [List.map_cons, List.sum_cons] at this ⊢
        omega

theorem Clean_rooted (t : GoString) :
    Clean ('/' :: t) = '/' :: joinSlash (cleanElems true [] (splitSlash t)) := by
  have hs : splitSlash ('/' :: t) = [] :: splitSlash t := by
    simp [splitSlash]
  unfold Clean
  simp only [List.cons_ne_nil, if_false, List.head?_cons, decide_True, if_true, hs]
  rw [cleanElems_cons_skip true [] _ [] (Or.inl rfl)]

theorem joinSlash_le_weight (l : List GoString) :
    (joinSlash l).length + 1 ≤ max 1 ((l.map (fun x => x.length + 1)).sum) := by
  cases l with
  | nil => simp [joinSlash]
  | cons x xs =>
    have := joinSlash_length (x :: xs) (by simp)
    omega

/-- Cleaning a rooted path never lengthens it. -/
theorem Clean_rooted_length (t : GoString) : (Clean ('/' :: t)).length ≤ t.length + 1 := by
  rw [Clean_rooted]
  have h1 := cleanElems_weight true (splitSlash t) []
  have h2 := splitSlash_weight t
  have h3 := joinSlash_le_weight (cleanElems true [] (splitSlash t))
  simp only [List.map_nil, List.sum_nil, List.length_cons] at h1 ⊢
  omega

/-- Cleaning a rooted path with a trailing slash shortens it. -/
theorem Clean_rooted_trailing (t : GoString) :
    (Clean ('/' :: (t ++ ['/']))).length ≤ t.length + 1 := by
  rw [Clean_rooted, splitSlash_append_slash]
  have hs : splitSlash [] = [[]] := rfl
  rw [hs, cleanElems_append_empty]
  have h1 := cleanElems_weight true (splitSlash t) []
  have h2 := splitSlash_weight t
  have h3 := joinSlash_le_weight (cleanElems true [] (splitSlash t))
  simp only [List.map_nil, List.sum_nil, List.length_cons] at h1 ⊢
  omega

/-- The part of an absolute path up to its last slash: it starts with a
slash, is the slash alone or ends with a further slash, and is not longer than
the path. -/
theorem dirPart_abs (t : GoString) :
    ∃ t0, List.rdropWhile (fun c => decide (c ≠ '/')) ('/' :: t) = '/' :: t0 ∧
      t0.length ≤ t.length ∧ (t0 = [] ∨ ∃ t1, t0 = t1 ++ ['/']) := by
  have hne : List.rdropWhile (fun c => decide (c ≠ '/')) ('/' :: t) ≠ [] := by
    intro h
    have := List.rdropWhile_eq_nil_iff.mp h '/' (by simp)
    simp at this
  obtain ⟨s, hs⟩ := List.rdropWhile_prefix (fun c => decide (c ≠ '/')) ('/' :: t)
  have hlast := List.rdropWhile_last_not (fun c => decide (c ≠ '/')) ('/' :: t) hne
  generalize List.rdropWhile (fun c => decide (c ≠ '/')) ('/' :: t) = q at hne hs hlast
  cases q with
  | nil => exact absurd rfl hne
  | cons c t0 =>
    simp only [List.cons_append, List.cons.injEq] at hs
    obtain ⟨hc, ht⟩ := hs
    subst hc
    refine ⟨t0, rfl, ?_, ?_⟩
    · rw [← ht]
      simp
    · rcases List.eq_nil_or_concat t0 with h0 | ⟨t1, b, h1⟩
      · exact Or.inl h0
      · right
        rw [List.concat_eq_append] at h1
        subst h1
        have hb : b = '/' := by
          have h2 : (('/' : Char) :: (t1 ++ [b])).getLast hne = b := by
            simp [List.getLast_cons, List.getLast_append]
          rw [h2] at hlast
          simpa using hlast
        exact ⟨t1, by rw [hb]⟩

/-- The parent of an absolute path is absolute, and shorter unless it is the
path itself. -/
theorem Dir_abs (p : GoString) (h : isAbs p = true) :
    isAbs (Dir p) = true ∧ (Dir p ≠ p → (Dir p).length < p.length) := by
  cases p with
  | nil => simp [isAbs] at h
  | cons c t =>
    have hc : c = '/' := by simpa [isAbs] using h
    subst hc
    obtain ⟨t0, hq, hlen, hform⟩ := dirPart_abs t
    have hd : Dir ('/' :: t) = Clean ('/' :: t0) := by
      unfold Dir
      rw [hq]
    rw [hd]
    constructor
    · rw [Clean_rooted]
      simp [isAbs]
    · intro hne
      rcases hform with h0 | ⟨t1, h1⟩
      · subst h0
        have hroot : Clean ['/'] = ['/'] := by decide
        rw [hroot] at hne ⊢
        cases t with
        | nil => exact absurd rfl hne
        | cons a t2 => simp
      · subst h1
        have := Clean_rooted_trailing t1
        simp only [List.length_cons, List.length_append, List.length_nil] at hlen ⊢
        omega

theorem ancestor_fixed (d : GoString) (h : Dir d = d) : ∀ k, ancestor k d = d := by
  intro k
  induction k with
  | zero => rfl
  | succ k ih =>
    unfold ancestor
    rw [h]
    exact ih

/-! ## Detection -/

theorem Abs_isAbs {fs : FS} {dir d : GoString} (h : Abs fs dir = .ok d) : isAbs d = true := by
  unfold Abs at h
  by_cases ha : isAbs dir = true
  · simp only [ha, if_true] at h
    injection h with h
    cases dir with
    | nil => simp [isAbs] at ha
    | cons c t =>
      have hc : c = '/' := by simpa [isAbs] using ha
      subst hc
      rw [← h, Clean_rooted]
      simp [isAbs]
  · simp only [ha] at h
    unfold Getwd at h
    by_cases hw : fs.get fs.cwd = some Node.dir
    · simp only [hw, if_true] at h
      injection h with h
      rw [← h, Join_cons_ne _ _ (by simp)]
      simp only [joinSlash, List.cons_append]
      rw [Clean_rooted]
      simp [isAbs]
    · simp [hw] at h

theorem matchGoVersion_ne_nil {line v : GoString} (h : matchGoVersion line = some v) : v ≠ [] := by
  unfold matchGoVersion at h
  simp only at h
  split at h
  · cases h
  · split at h
    · cases h
    · split at h
      · cases h
      · split at h
        · split at h
          · cases h
          · split at h
            · split at h <;>
              · injection h with h
                rw [← h]
                simp
            · injection h with h
              rw [← h]
              simp
        · cases h

theorem scanForVersion_ne_nil {v : GoString} :
    ∀ lines, scanForVersion lines = some v → v ≠ [] := by
  intro lines
  induction lines with
  | nil =>
    intro h
    simp [scanForVersion] at h
  | cons text rest ih =>
    intro h
    unfold scanForVersion at h
    simp only at h
    split at h
    · exact ih h
    · split at h
      · injection h with h
        rename_i w hw
        rw [← h]
        exact matchGoVersion_ne_nil hw
      · exact ih h

/-- A version that `parseGoVersionFile` returns is never empty. -/
theorem parseGoVersionFile_ne_nil {fs : FS} {path v : GoString}
    (h : parseGoVersionFile fs path = .ok v) : v ≠ [] := by
  unfold parseGoVersionFile at h
  split at h
  · cases h
  · split at h
    · injection h with h
      rename_i w hw
      rw [← h]
      exact scanForVersion_ne_nil _ hw
    · cases h
  · cases h

/-- The test of the detection functions passes exactly when
`parseGoVersionFile` returns a version. -/
theorem manifestVersion_iff (fs : FS) (path a : GoString) :
    manifestVersion fs path = some a ↔ parseGoVersionFile fs path = .ok a := by
  unfold manifestVersion
  constructor
  · intro h
    split at h
    · split at h
      · injection h with h
        rename_i e _
        rw [e, h]
      · cases h
    · cases h
  · intro h
    rw [h]
    simp [parseGoVersionFile_ne_nil h]

theorem searchUp_found (fs : FS) (a p : GoString) :
    ∀ k d n, isAbs d = true → d.length < n →
      (∀ j, j < k →
        manifestVersion fs (Join [ancestor j d, "go.work".toList]) = none ∧
        manifestVersion fs (Join [ancestor j d, "go.mod".toList]) = none) →
      ((manifestVersion fs (Join [ancestor k d, "go.work".toList]) = some a ∧
          p = Join [ancestor k d, "go.work".toList]) ∨
        (manifestVersion fs (Join [ancestor k d, "go.work".toList]) = none ∧
          manifestVersion fs (Join [ancestor k d, "go.mod".toList]) = some a ∧
          p = Join [ancestor k d, "go.mod".toList])) →
      searchUp fs n d = some (.ok (a, p)) := by
  intro k
  induction k with
  | zero =>
    intro d n _ hn _ hfound
    cases n with
    | zero => omega
    | succ m =>
      unfold searchUp
      simp only [ancestor] at hfound
      rcases hfound with ⟨hw, hp⟩ | ⟨hw, hm, hp⟩
      · simp only [hw, hp]
      · simp only [hw, hm, hp]
  | succ k ih =>
    intro d n habs hn hnone hfound
    cases n with
    | zero => omega
    | succ m =>
      have h0 := hnone 0 (by omega)
      simp only [ancestor] at h0
      have hpar : Dir d ≠ d := by
        intro hfix
        have hk := ancestor_fixed d hfix (k + 1)
        rw [hk] at hfound
        rcases hfound with ⟨hw, _⟩ | ⟨_, hm, _⟩
        · rw [h0.1] at hw
          cases hw
        · rw [h0.2] at hm
          cases hm
      obtain ⟨habs2, hlt⟩ := Dir_abs d habs
      have hlen := hlt hpar
      unfold searchUp
      simp only [h0.1, h0.2, hpar, if_false]
      refine ih (Dir d) m habs2 (by omega) ?_ hfound
      intro j hj
      exact hnone (j + 1) (by omega)

theorem getVersionInfo_find (versions : List RemoteVersion) (version : GoString) :
    GetVersionInfo (.ok versions) version =
      match versions.find? (entryFor version) with
      | some v => .ok v
      | none => .error (Err.msg ("version " ++
          String.mk (normalizeVersionString version) ++ " not found")) := by
  unfold GetVersionInfo
  have : (fun v : RemoteVersion =>
      decide (v.Version = "go".toList ++ normalizeVersionString version ∨
        normalizeVersionString v.Version = normalizeVersionString version)) =
      entryFor version := by
    funext v
    simp [entryFor]
  simp only [this]
  try rfl

theorem getDownloadURL_find (versions : List RemoteVersion) (goos goarch version : GoString)
    (info : RemoteVersion) (h : versions.find? (entryFor version) = some info) :
    GetDownloadURL (.ok versions) goos goarch version =
      match info.Files.find? (archiveFor goos goarch) with
      | some f => .ok (goDownloadURL ++ f.Filename, f.SHA256)
      | none => .error (Err.msg "no archive found for this platform") := by
  unfold GetDownloadURL
  rw [getVersionInfo_find, h]
  have : (fun f : VersionFile =>
      decide (f.OS = goos ∧ f.Arch = goarch ∧ f.Kind = "archive".toList)) =
      archiveFor goos goarch := by
    funext f
    simp [archiveFor, Bool.and_assoc]
  simp only [this]
  try rfl

/-- C21: `GetDownloadURL` takes the first catalog entry of the version and in
it the first file whose os and arch are the platform's and whose kind is
"archive", and returns the base URL followed by its filename, with its sha256.
It returns an error when the catalog has no entry of the version, and when the
entry has no such file. -/
theorem C21_download_descriptor (versions : List RemoteVersion)
    (goos goarch version : GoString) :
    (∀ info f, versions.find? (entryFor version) = some info →
      info.Files.find? (archiveFor goos goarch) = some f →
      GetDownloadURL (.ok versions) goos goarch version =
          .ok (goDownloadURL ++ f.Filename, f.SHA256) ∧
        f ∈ info.Files ∧ f.OS = goos ∧ f.Arch = goarch ∧ f.Kind = "archive".toList) ∧
    ((∀ v ∈ versions, entryFor version v = false) →
      ∃ e, GetDownloadURL (.ok versions) goos goarch version = .error e) ∧
    (∀ info, versions.find? (entryFor version) = some info →
      (∀ f ∈ info.Files, ¬ (f.OS = goos ∧ f.Arch = goarch ∧ f.Kind = "archive".toList)) →
      ∃ e, GetDownloadURL (.ok versions) goos goarch version = .error e) := by
  refine ⟨?_, ?_, ?_⟩
  · intro info f hi hf
    rw [getDownloadURL_find _ _ _ _ _ hi, hf]
    have hp := List.find?_some hf
    simp only [archiveFor, Bool.and_eq_true, decide_eq_true_eq] at hp
    exact ⟨rfl, List.mem_of_find?_eq_some hf, hp.1.1, hp.1.2, hp.2⟩
  · intro hnone
    have hf : versions.find? (entryFor version) = none := by
      apply List.find?_eq_none.mpr
      intro v hv
      rw [hnone v hv]
      simp
    unfold GetDownloadURL
    rw [getVersionInfo_find, hf]
    exact ⟨_, rfl⟩
  · intro info hi hnone
    have hf : info.Files.find? (archiveFor goos goarch) = none := by
      apply List.find?_eq_none.mpr
      intro f hfm hc
      apply hnone f hfm
      simp only [archiveFor, Bool.and_eq_true, decide_eq_true_eq] at hc
      exact ⟨hc.1.1, hc.1.2, hc.2⟩
    rw [getDownloadURL_find _ _ _ _ _ hi, hf]
    exact ⟨_, rfl⟩

theorem C21_download_descriptor_witness :
    GetDownloadURL (.ok (demoCatalog "abc".toList)) "linux".toList "amd64".toList
        "go1.21.0".toList =
      .ok ("https://go.dev/dl/go1.21.0.linux-amd64.tar.gz".toList, "abc".toList) ∧
    (∃ e, GetDownloadURL (.ok (demoCatalog "abc".toList)) "linux".toList "amd64".toList
      "1.22.0".toList = .error e) ∧
    (∃ e, GetDownloadURL (.ok (demoCatalog "abc".toList)) "darwin".toList "arm64".toList
      "1.21.0".toList = .error e) :=
  ⟨((C21_download_descriptor (demoCatalog "abc".toList) "linux".toList "amd64".toList
      "go1.21.0".toList).1 (demoRelease "abc".toList) (demoFile "abc".toList)
      (by decide) (by decide)).1,
    (C21_download_descriptor (demoCatalog "abc".toList) "linux".toList "amd64".toList
      "1.22.0".toList).2.1 (by decide),
    (C21_download_descriptor (demoCatalog "abc".toList) "darwin".toList "arm64".toList
      "1.21.0".toList).2.2 (demoRelease "abc".toList) (by decide) (by decide)⟩

/-! ## The manager -/

theorem setCurrent_ok {paths : Paths} {fs fs2 : FS} {version : GoString}
    (hset : SetCurrent paths fs version = (fs2, none)) :
    Readlink fs2 paths.Current = .ok (Join [paths.VersionPath version, "go".toList]) := by
  unfold SetCurrent at hset
  simp only at hset
  split at hset
  · simp at hset
  · split at hset
    · simp at hset
    · rename_i fs1 _
      split at hset
      · simp at hset
      · rename_i fs3 hsym
        injection hset with h1 _
        subst h1
        exact (symlink_ok hsym).1

theorem setCurrent_pointer {paths : Paths} {fs : FS} {version : GoString}
    (h : (SetCurrent paths fs version).2 = none) :
    Readlink (SetCurrent paths fs version).1 paths.Current =
      .ok (Join [paths.VersionPath version, "go".toList]) := by
  apply @setCurrent_ok paths fs
  rw [← h]

theorem remove_frame {fs fs1 : FS} {path : GoString} (h : Remove fs path = .ok fs1)
    (p : Path) (hp : resolve fs false path ≠ .ok p) : fs1.get p = fs.get p := by
  unfold Remove at h
  cases hr : resolve fs false path with
  | error e => simp [hr] at h
  | ok r =>
    have hne : p ≠ r := fun e => hp (by rw [hr, e])
    simp only [hr] at h
    by_cases hr0 : r = []
    · simp [hr0] at h
    · simp only [hr0, if_false] at h
      have key : (fs.erase r).get p = fs.get p := by
        rw [get_erase]
        by_cases hp0 : p = []
        · simp [hp0, get_nil]
        · simp [hp0, hne]
      split at h
      · cases h
      · split at h
        · cases h
        · injection h with h
          rw [← h]
          exact key
      · injection h with h
        rw [← h]
        exact key

theorem symlink_frame {fs fs2 : FS} {target path : GoString}
    (h : Symlink fs target path = .ok fs2) (p : Path) (n : Node) (hg : fs.get p = some n) :
    fs2.get p = some n := by
  unfold Symlink at h
  cases hr : resolve fs false path with
  | error e => simp [hr] at h
  | ok r =>
    simp only [hr] at h
    by_cases hr0 : r = []
    · simp [hr0] at h
    · simp only [hr0, if_false] at h
      cases hgr : fs.get r with
      | some m => simp [hgr] at h
      | none =>
        simp only [hgr] at h
        injection h with h
        rw [← h, get_set]
        by_cases hp0 : p = []
        · subst hp0
          rw [get_nil] at hg
          simp [hg]
        · have hne : p ≠ r := fun e => by rw [e, hgr] at hg; cases hg
          simp [hp0, hne, hg]

/-- `SetCurrent` keeps every node other than the one at the location of the
pointer. -/
theorem setCurrent_frame (paths : Paths) (fs : FS) (version : GoString) (p : Path) (n : Node)
    (hg : fs.get p = some n) (hp : resolve fs false paths.Current ≠ .ok p) :
    (SetCurrent paths fs version).1.get p = some n := by
  unfold SetCurrent
  simp only
  split
  · exact hg
  · split
    · exact hg
    · rename_i fs1 he
      have hg1 : fs1.get p = some n := by
        cases hrm : Remove fs paths.Current with
        | error e =>
          rw [hrm] at he
          simp only at he
          split at he
          · injection he with he
            rw [← he]
            exact hg
          · cases he
        | ok fsr =>
          rw [hrm] at he
          simp only at he
          injection he with he
          rw [← he, remove_frame hrm p hp]
          exact hg
      split
      · exact hg1
      · rename_i fs3 hsym
        exact symlink_frame hsym p n hg1

/-- A call of `Manager.Use` that returns without error ends with a successful
`SetCurrent` of the resolved version. -/
theorem use_success_pointer (env : Env) :
    ∀ n fs version o, Manager.Use env n fs version = some o → o.err = none →
      Readlink o.fs env.paths.Current =
        .ok (Join [env.paths.VersionPath (ResolveVersion env.cfg version), "go".toList]) := by
  intro n fs version o h hok
  cases n with
  | zero => simp [Manager.Use] at h
  | succ n =>
    unfold Manager.Use at h
    simp only at h
    split at h
    · split at h
      · split at h
        · cases h
        · rename_i o1 _
          split at h
          · rename_i herr
            injection h with h
            rw [← h] at hok
            exact absurd hok herr
          · injection h with h
            rw [← h] at hok ⊢
            exact setCurrent_pointer hok
      · injection h with h
        rw [← h] at hok
        simp at hok
    · injection h with h
      rw [← h] at hok ⊢
      exact setCurrent_pointer hok

/-- C25: a failed fetch of the catalog does not reach the caller of
`Manager.Install`.  With a catalog that cannot be fetched and version 1.21.0
not installed, `Install` fetches the catalog once and returns the error
"version 1.21.0 is not available for download", which does not carry the
error of the fetch. -/
theorem C25_fetch_failure_lost :
    demoOffline.w.fetched =
        .error (Err.wrap "failed to fetch versions" (Err.msg "dial tcp: timeout")) ∧
      IsInstalled demoOffline.paths demoFresh "1.21.0".toList = false ∧
      Manager.Install demoOffline 0 demoFresh "1.21.0".toList false true =
        some ⟨demoFresh, some (Err.msg "version 1.21.0 is not available for download"),
          [Event.catalog]⟩ ∧
      Err.carries (Err.msg "version 1.21.0 is not available for download")
        (Err.wrap "failed to fetch versions" (Err.msg "dial tcp: timeout")) = false ∧
      Err.carries (Err.msg "version 1.21.0 is not available for download")
        (Err.msg "dial tcp: timeout") = false := by
  decide

/-- C22, as stated, fails.  With an alias that has the name of the installed
version 1.21.0 and leads to 1.22.0, `Install` of 1.21.0 with setDefault looks
the version 1.22.0 up in the catalog and returns an error.  And without any
alias, where the only installed version directory is named go1.21.0, `Install`
of gogo1.21.0 with setDefault finds go1.21.0 installed, and `Use` then
normalizes that name once more: the version 1.21.0 is looked up, downloaded,
unpacked and made current. -/
theorem C22_counterexample :
    (IsInstalled demoPaths demoInstalled (NormalizeVersion "1.21.0".toList) = true ∧
      GetAlias demoShadow "1.21.0".toList = ("1.22.0".toList, true) ∧
      (Manager.Install (demoEnv demoShadow demoGoArchive) 2 demoInstalled "1.21.0".toList
        true true).map (fun o => (o.err, o.log)) =
        some (some (Err.msg "version 1.22.0 is not available for download"),
          [Event.catalog])) ∧
    (NormalizeVersion "gogo1.21.0".toList = "go1.21.0".toList ∧
      IsInstalled demoPaths demoPrefixed "go1.21.0".toList = true ∧
      GetAlias DefaultConfig "go1.21.0".toList = ([], false) ∧
      ResolveVersion DefaultConfig "go1.21.0".toList = "1.21.0".toList ∧
      (Manager.Install (demoEnv DefaultConfig demoGoArchive) 2 demoPrefixed "gogo1.21.0".toList
        true true).map (fun o => (o.err, o.log, GetCurrent demoPaths o.fs)) =
        some (none,
          [Event.catalog, Event.catalog,
            Event.transfer "https://go.dev/dl/go1.21.0.linux-amd64.tar.gz".toList,
            Event.extract "1.21.0".toList],
          ("1.21.0".toList, none))) := by
  decide

/-- C22, amended: when the normalized version is installed, `Manager.Install`
without setDefault returns at once, with no event and the file system as it
is.  With setDefault, provided `ResolveVersion` returns the normalized version
as it is (no alias of its name has a non-empty target, and `NormalizeVersion`
does not change it again), it does what `SetCurrent` of the version does and
nothing else: no event happens, and every node other than the one at the
pointer is kept. -/
theorem C22_install_installed (env : Env) (n : Nat) (fs : FS) (version : GoString)
    (showProgress : Bool)
    (hinst : IsInstalled env.paths fs (NormalizeVersion version) = true) :
    Manager.Install env n fs version false showProgress = some ⟨fs, none, []⟩ ∧
    (ResolveVersion env.cfg (NormalizeVersion version) = NormalizeVersion version →
      Manager.Install env (n + 1) fs version true showProgress =
          some ⟨(SetCurrent env.paths fs (NormalizeVersion version)).1,
            (SetCurrent env.paths fs (NormalizeVersion version)).2, []⟩ ∧
        ∀ p m, fs.get p = some m → resolve fs false env.paths.Current ≠ .ok p →
          (SetCurrent env.paths fs (NormalizeVersion version)).1.get p = some m) := by
  constructor
  · unfold Manager.Install Manager.InstallWith
    simp only [hinst, if_true]
    simp
  · intro hres
    constructor
    · unfold Manager.Install Manager.InstallWith
      simp only [hinst, if_true]
      unfold Manager.Use
      simp only [hres, hinst]
      simp
    · intro p m hg hp
      exact setCurrent_frame env.paths fs _ p m hg hp

theorem C22_install_installed_witness :
    Manager.Install (demoEnv DefaultConfig demoGoArchive) 0 demoInstalled "go1.21.0".toList
        false true = some ⟨demoInstalled, none, []⟩ ∧
      Manager.Install (demoEnv DefaultConfig demoGoArchive) 1 demoInstalled "go1.21.0".toList
        true true =
        some ⟨(SetCurrent demoPaths demoInstalled (NormalizeVersion "go1.21.0".toList)).1,
          (SetCurrent demoPaths demoInstalled (NormalizeVersion "go1.21.0".toList)).2, []⟩ :=
  ⟨(C22_install_installed (demoEnv DefaultConfig demoGoArchive) 0 demoInstalled
      "go1.21.0".toList true (by decide)).1,
    ((C22_install_installed (demoEnv DefaultConfig demoGoArchive) 0 demoInstalled
      "go1.21.0".toList true (by decide)).2 (by decide)).1⟩

/-- C23, as stated, fails.  With an alias of the name 1.21.0 that leads to the
installed version 1.20.0, `Install` of 1.21.0 with setDefault succeeds and
installs it, and the current version is then 1.20.0.  With an archive that
plants a pointer through a symbolic link, `Install` without setDefault, started
with no version active, succeeds and the current version is then 9.9.9.  And
without any alias, `Install` of gogo1.21.0, started with nothing installed and
no version active, installs the version directory go1.21.0, and `Use` then
normalizes that name once more: 1.21.0 is installed as well and is then the
current version. -/
theorem C23_counterexample :
    (NormalizeVersion "gogo1.21.0".toList = "go1.21.0".toList ∧
      IsInstalled demoPaths demoFresh "go1.21.0".toList = false ∧
      GetAlias DefaultConfig "go1.21.0".toList = ([], false) ∧
      GetCurrent demoPaths demoFresh = ([], none) ∧
      (Manager.Install (demoEnv DefaultConfig demoGoArchive) 2 demoFresh "gogo1.21.0".toList
        false true).map
          (fun o => (o.err, IsInstalled demoPaths o.fs "go1.21.0".toList,
            GetCurrent demoPaths o.fs)) =
        some (none, true, ("1.21.0".toList, none))) ∧
    (IsInstalled demoPaths demoOld "1.21.0".toList = false ∧
      (Manager.Install (demoEnv demoShadowOld demoGoArchive) 1 demoOld "1.21.0".toList
        true true).map
          (fun o => (o.err, IsInstalled demoPaths o.fs "1.21.0".toList,
            GetCurrent demoPaths o.fs)) =
        some (none, true, ("1.20.0".toList, none))) ∧
    (GetCurrent demoPaths demoFresh = ([], none) ∧
      (Manager.Install (demoEnv DefaultConfig demoPlantArchive) 1 demoFresh "1.21.0".toList
        false true).map
          (fun o => (o.err, IsInstalled demoPaths o.fs "1.21.0".toList,
            GetCurrent demoPaths o.fs)) =
        some (none, true, ("9.9.9".toList, none))) := by
  decide

/-- C23, amended: let `Manager.Install` of a version that is not installed
return without error, and let `ResolveVersion` return the normalized version
as it is (no alias of its name has a non-empty target, and `NormalizeVersion`
does not change it again).  If setDefault is set, or no version is current
once the archive has been unpacked, the pointer then leads to the toolchain
directory of the version; otherwise the file system is left as the unpacking
left it. -/
theorem C23_install_activates (env : Env) (n : Nat) (fs : FS) (version : GoString)
    (setDefault showProgress : Bool) (o : Outcome)
    (hnot : IsInstalled env.paths fs (NormalizeVersion version) = false)
    (hres : ResolveVersion env.cfg (NormalizeVersion version) = NormalizeVersion version)
    (hrun : Manager.Install env n fs version setDefault showProgress = some o)
    (hok : o.err = none) :
    ((setDefault = true ∨
        GetCurrent env.paths (afterExtraction env fs (NormalizeVersion version)) = ([], none)) →
      Readlink o.fs env.paths.Current =
        .ok (Join [env.paths.VersionPath (NormalizeVersion version), "go".toList])) ∧
    ((setDefault = false ∧
        GetCurrent env.paths (afterExtraction env fs (NormalizeVersion version)) ≠ ([], none)) →
      o.fs = afterExtraction env fs (NormalizeVersion version)) := by
  have huse : ∀ fs2 pre, (match Manager.Use env n fs2 (NormalizeVersion version) with
      | none => none
      | some o1 => some { o1 with log := pre ++ o1.log }) = some o →
      Readlink o.fs env.paths.Current =
        .ok (Join [env.paths.VersionPath (NormalizeVersion version), "go".toList]) := by
    intro fs2 pre h
    cases hu : Manager.Use env n fs2 (NormalizeVersion version) with
    | none => simp [hu] at h
    | some o1 =>
      rw [hu] at h
      simp only at h
      injection h with h
      have hfs : o.fs = o1.fs := by rw [← h]
      have herr : o1.err = none := by rw [← h] at hok; exact hok
      have := use_success_pointer env n fs2 _ o1 hu herr
      rw [hres] at this
      rw [hfs]
      exact this
  unfold Manager.Install Manager.InstallWith at hrun
  simp only [hnot, Bool.false_eq_true, if_false] at hrun
  unfold afterExtraction
  generalize Download env.w env.paths fs (NormalizeVersion version) = r at hrun ⊢
  split at hrun
  · injection hrun with hrun
    rw [← hrun] at hok
    simp at hok
  · injection hrun with hrun
    rw [← hrun] at hok
    simp at hok
  · split at hrun
    · injection hrun with hrun
      rw [← hrun] at hok
      simp at hok
    · rcases hin : Govm.Install env.untar env.paths r.fs r.path (NormalizeVersion version) with
        ⟨fs2, e2⟩
      rw [hin] at hrun
      cases e2 with
      | some e =>
        simp only at hrun
        injection hrun with hrun
        rw [← hrun] at hok
        simp at hok
      | none =>
        simp only at hrun ⊢
        by_cases hsd : setDefault = true
        · simp only [hsd, if_true] at hrun
          exact ⟨fun _ => huse _ _ hrun, fun h => by simp [hsd] at h⟩
        · have hsd2 : setDefault = false := by simpa using hsd
          simp only [hsd2, Bool.false_eq_true, if_false] at hrun
          rcases hcur : GetCurrent env.paths fs2 with ⟨current, err⟩
          rw [hcur] at hrun
          simp only at hrun
          by_cases hc : err = none ∧ current = []
          · simp only [hc, and_self, if_true] at hrun
            refine ⟨fun _ => huse _ _ hrun, fun h => ?_⟩
            exfalso
            apply h.2
            rw [hc.1, hc.2]
          · simp only [hc, if_false] at hrun
            injection hrun with hrun
            refine ⟨fun h => ?_, fun _ => by rw [← hrun]⟩
            rcases h with h | h
            · exact absurd h hsd
            · exfalso
              apply hc
              injection h with h1 h2
              exact ⟨h2, h1⟩

theorem C23_install_activates_witness :
    ∃ o, Manager.Install (demoEnv DefaultConfig demoGoArchive) 1 demoFresh "1.21.0".toList
        false true = some o ∧
      Readlink o.fs demoPaths.Current = .ok "/r/versions/1.21.0/go".toList :=
  ⟨(Manager.Install (demoEnv DefaultConfig demoGoArchive) 1 demoFresh "1.21.0".toList
      false true).get (by decide), by simp,
    (C23_install_activates (demoEnv DefaultConfig demoGoArchive) 1 demoFresh "1.21.0".toList
      false true _ (by decide) (by decide) (by simp) (by decide)).1 (Or.inr (by decide))⟩

/-- One round of `Manager.Install` on a version that is not installed, is
available, downloads and unpacks without error and leaves no version current:
the call ends as the call of `Manager.Use` it makes. -/
theorem installWith_round (env : Env) (use : FS → GoString → Option Outcome) (fs fs2 : FS)
    (v : GoString) (hn : NormalizeVersion v = v)
    (hi : IsInstalled env.paths fs v = false)
    (ha : IsVersionAvailable env.w.fetched v = (true, none))
    (hd : (Download env.w env.paths fs v).err = none)
    (he : Govm.Install env.untar env.paths (Download env.w env.paths fs v).fs
      (Download env.w env.paths fs v).path v = (fs2, none))
    (hc : GetCurrent env.paths fs2 = ([], none)) (hu : use fs2 v = none) :
    Manager.InstallWith env use fs v false true = none := by
  unfold Manager.InstallWith
  simp only [hn, hi, ha, hd, he, hc, hu, Bool.false_eq_true, if_false, and_self, if_true]

/-- When a round of `Manager.Install` started in the state `fs2` ends in
`fs2` again with the version still not installed, `Manager.Use` does not
return, however deep the calls may nest. -/
theorem use_never_returns (env : Env) (fs2 : FS) (v : GoString)
    (hr : ResolveVersion env.cfg v = v) (hn : NormalizeVersion v = v)
    (hauto : env.cfg.AutoInstall = true)
    (hi : IsInstalled env.paths fs2 v = false)
    (ha : IsVersionAvailable env.w.fetched v = (true, none))
    (hd : (Download env.w env.paths fs2 v).err = none)
    (he : Govm.Install env.untar env.paths (Download env.w env.paths fs2 v).fs
      (Download env.w env.paths fs2 v).path v = (fs2, none))
    (hc : GetCurrent env.paths fs2 = ([], none)) :
    ∀ n, Manager.Use env n fs2 v = none := by
  intro n
  induction n with
  | zero => rfl
  | succ n ih =>
    unfold Manager.Use
    simp only [hr, hi, hauto, Bool.false_eq_true, not_false_eq_true, if_true]
    rw [installWith_round env _ fs2 fs2 v hn hi ha hd he hc ih]

/-- C27: `Manager.Use` and `Manager.Install` do not terminate on every input.
With auto-install on, no version current and an archive that unpacks without
error but holds no go/bin/go, `Use` of 1.21.0 calls `Install`, which calls
`Use`, which calls `Install` again, and so on: no nesting depth suffices for
the call to return. -/
theorem C27_use_install_recursion_unbounded :
    ∀ n, Manager.Use (demoEnv DefaultConfig demoNoEntrypoint) n demoFresh "1.21.0".toList =
      none := by
  have hloop := use_never_returns (demoEnv DefaultConfig demoNoEntrypoint)
    (afterExtraction (demoEnv DefaultConfig demoNoEntrypoint) demoFresh "1.21.0".toList)
    "1.21.0".toList (by decide) (by decide) (by decide) (by decide) (by decide) (by decide)
    (by decide) (by decide)
  intro n
  cases n with
  | zero => rfl
  | succ n =>
    unfold Manager.Use
    have hr : ResolveVersion (demoEnv DefaultConfig demoNoEntrypoint).cfg "1.21.0".toList =
        "1.21.0".toList := by decide
    have hi : IsInstalled (demoEnv DefaultConfig demoNoEntrypoint).paths demoFresh
        "1.21.0".toList = false := by decide
    have hauto : (demoEnv DefaultConfig demoNoEntrypoint).cfg.AutoInstall = true := by decide
    simp only [hr, hi, hauto, Bool.false_eq_true, not_false_eq_true, if_true]
    rw [installWith_round (demoEnv DefaultConfig demoNoEntrypoint) _ demoFresh
      (afterExtraction (demoEnv DefaultConfig demoNoEntrypoint) demoFresh "1.21.0".toList)
      "1.21.0".toList (by decide) hi (by decide) (by decide) (by decide) (by decide)
      (hloop n)]

/-! ## `Use` and `QuietUse` -/

theorem walkComps_keep {a b : FS} (h : Ext a b) (follow : Bool) (q : Path)
    (hsame : b.get q = a.get q)
    (onA onB : GoString → Path → List GoString → Except Errno Path)
    (hon : ∀ t cur rest, onA t cur rest = .ok q → onB t cur rest = .ok q) :
    ∀ comps cur, walkComps a onA follow comps cur = .ok q →
      walkComps b onB follow comps cur = .ok q := by
  intro comps
  induction comps with
  | nil => intro cur hw; simpa [walkComps] using hw
  | cons c rest ih =>
    intro cur hw
    unfold walkComps at hw ⊢
    by_cases h1 : c = [] ∨ c = ".".toList
    · simp only [h1, if_true] at hw ⊢
      exact ih _ hw
    · simp only [h1, if_false] at hw ⊢
      by_cases h2 : c = "..".toList
      · simp only [h2, if_true] at hw ⊢
        exact ih _ hw
      · simp only [h2, if_false] at hw ⊢
        cases ha : a.get (cur ++ [c]) with
        | none =>
          rw [ha] at hw
          by_cases hr : rest = []
          · simp only [hr, if_true] at hw
            have hqx : cur ++ [c] = q := by
              injection hw with hw
            rw [hqx, hsame, ← hqx, ha]
            simp [hr, hqx]
          · simp [hr] at hw
        | some m =>
          rw [ha] at hw
          cases m with
          | dir =>
            rw [h.2 _ _ ha rfl]
            exact ih _ hw
          | file d =>
            by_cases hr : rest = []
            · simp only [hr, if_true] at hw
              have hqx : cur ++ [c] = q := by
                injection hw with hw
              rw [hqx, hsame, ← hqx, ha]
              simp [hr, hqx]
            · simp [hr] at hw
          | link t =>
            rw [h.2 _ _ ha rfl]
            by_cases hc : rest = [] ∧ follow = false
            · simp only [hc, and_self, if_true] at hw ⊢
              exact hw
            · simp only [hc, if_false] at hw ⊢
              exact hon _ _ _ hw

theorem walk_keep {a b : FS} (h : Ext a b) (follow : Bool) (q : Path)
    (hsame : b.get q = a.get q) :
    ∀ n comps cur, walk a follow n comps cur = .ok q → walk b follow n comps cur = .ok q := by
  intro n
  induction n with
  | zero =>
    intro comps cur hw
    unfold walk at hw ⊢
    exact walkComps_keep h follow q hsame _ _ (fun _ _ _ hx => by simp at hx) comps cur hw
  | succ n ih =>
    intro comps cur hw
    unfold walk at hw ⊢
    refine walkComps_keep h follow q hsame _ _ ?_ comps cur hw
    intro t cur rest hx
    by_cases ht : t = []
    · simp [ht] at hx
    · simp only [ht, if_false] at hx ⊢
      exact ih _ _ hx

/-- Resolution carries over to a file system that keeps the directories and
links and holds at the resolved location what was there. -/
theorem resolve_keep {a b : FS} (h : Ext a b) (follow : Bool) (path : GoString) (q : Path)
    (hsame : b.get q = a.get q)
    (hr : resolve a follow path = .ok q) : resolve b follow path = .ok q := by
  unfold resolve at hr ⊢
  by_cases hp : path = []
  · simp [hp] at hr
  · simp only [hp, if_false] at hr ⊢
    rw [← h.1]
    exact walk_keep h follow q hsame _ _ _ hr

theorem Base_ne_nil (p : GoString) : Base p ≠ [] := by
  unfold Base
  by_cases hp : p = []
  · simp [hp]
  · simp only [hp, if_false]
    split
    · simp
    · assumption

/-- When `GetCurrent` reports that no version is current, nothing exists at
the path of the pointer. -/
theorem getCurrent_none {paths : Paths} {fs : FS} (h : GetCurrent paths fs = ([], none)) :
    Lstat fs paths.Current = .error Errno.ENOENT := by
  unfold GetCurrent at h
  cases hr : Readlink fs paths.Current with
  | ok target =>
    rw [hr] at h
    simp only at h
    injection h with h1 _
    exact absurd h1 (Base_ne_nil _)
  | error e =>
    rw [hr] at h
    simp only at h
    by_cases he : IsNotExist e = true
    · have : e = Errno.ENOENT := by
        unfold IsNotExist at he
        simpa using he
      rw [this] at hr
      exact lstat_of_readlink_enoent hr
    · simp [he] at h

theorem remove_of_lstat_enoent {fs : FS} {p : GoString}
    (h : Lstat fs p = .error Errno.ENOENT) : Remove fs p = .error Errno.ENOENT := by
  unfold Lstat at h
  unfold Remove
  cases hr : resolve fs false p with
  | error e =>
    rw [hr] at h
    simp only at h ⊢
    injection h with h
    rw [h]
  | ok r =>
    rw [hr] at h
    simp only at h ⊢
    cases hg : fs.get r with
    | some n => simp [hg] at h
    | none =>
      have hr0 : r ≠ [] := by
        intro e
        rw [e, get_nil] at hg
        cases hg
      simp [hr0]

theorem symlink_inv {fs fs2 : FS} {target p : GoString} (h : Symlink fs target p = .ok fs2) :
    ∃ r, resolve fs false p = .ok r ∧ r ≠ [] ∧ fs.get r = none ∧
      fs2 = fs.set r (Node.link target) := by
  unfold Symlink at h
  cases hr : resolve fs false p with
  | error e => simp [hr] at h
  | ok r =>
    simp only [hr] at h
    by_cases hr0 : r = []
    · simp [hr0] at h
    · simp only [hr0, if_false] at h
      cases hg : fs.get r with
      | some n => simp [hg] at h
      | none =>
        simp only [hg] at h
        injection h with h
        exact ⟨r, rfl, hr0, hg, h.symm⟩

theorem lookupNode_none_filter (l : List (Path × Node)) (r : Path)
    (h : lookupNode l r = none) : l.filter (fun e => decide (e.1 ≠ r)) = l := by
  induction l with
  | nil => rfl
  | cons x xs ih =>
    obtain ⟨k, n⟩ := x
    unfold lookupNode at h
    by_cases hk : k = r
    · simp [hk] at h
    · simp only [hk, if_false] at h
      simp only [List.filter_cons, ne_eq, hk, not_false_eq_true, decide_True, if_true]
      rw [ih h]

/-- Removing a node that was put at a location where nothing was gives the
file system back. -/
theorem erase_set_absent (fs : FS) (r : Path) (n : Node) (h0 : r ≠ [])
    (hg : fs.get r = none) : (fs.set r n).erase r = fs := by
  have hl : lookupNode fs.nodes r = none := by
    unfold FS.get at hg
    simpa [h0] using hg
  have hf := lookupNode_none_filter fs.nodes r hl
  unfold FS.set FS.erase
  simp only [List.filter_cons, ne_eq, not_true_eq_false, decide_False, Bool.false_eq_true,
    if_false, List.filter_filter, Bool.and_self]
  simp only [ne_eq] at hf
  rw [hf]

/-- The test of `SetCurrent` for the toolchain directory gives the same
answer after a node was put at a location where nothing was. -/
theorem notExist_set_absent (fs : FS) (r : Path) (n : Node) (p : GoString)
    (hg : fs.get r = none)
    (hflag : (match Stat fs p with
      | .error e => IsNotExist e
      | .ok _ => false) = false) :
    (match Stat (fs.set r n) p with
      | .error e => IsNotExist e
      | .ok _ => false) = false := by
  have hsub : Sub fs (fs.set r n) := sub_set_of_none fs r n hg
  unfold Stat at hflag ⊢
  cases hr : resolve fs true p with
  | error e =>
    rw [hr] at hflag
    simp only at hflag
    rcases resolve_sub_err hsub true p e hr with he | he
    · rw [he] at hflag
      simp [IsNotExist] at hflag
    · rw [he]
      simp only
      exact hflag
  | ok q =>
    rw [hr] at hflag
    simp only at hflag
    cases hq : fs.get q with
    | none =>
      rw [hq] at hflag
      simp [IsNotExist] at hflag
    | some m =>
      have hqr : q ≠ r := by
        intro e
        rw [e, hg] at hq
        cases hq
      have hsame : (fs.set r n).get q = fs.get q := by
        rw [hq]
        exact hsub.2 q m hq
      rw [resolve_keep (sub_toExt hsub) true p q hsame hr]
      simp only
      rw [hsame, hq]

/-- A second `SetCurrent` of the same version, after one that succeeded where
no pointer was, succeeds and changes nothing. -/
theorem setCurrent_again {paths : Paths} {fs S1 : FS} {v : GoString}
    (hnone : Lstat fs paths.Current = .error Errno.ENOENT)
    (hset : SetCurrent paths fs v = (S1, none)) :
    SetCurrent paths S1 v = (S1, none) := by
  have hrem := remove_of_lstat_enoent hnone
  unfold SetCurrent at hset
  simp only [hrem] at hset
  split at hset
  · simp at hset
  · rename_i hflag
    have hne : IsNotExist Errno.ENOENT = true := rfl
    simp only [hne, if_true] at hset
    split at hset
    · simp at hset
    · rename_i fs3 hsym
      injection hset with h1 _
      subst h1
      obtain ⟨r, hres, hr0, hg, hfs⟩ := symlink_inv hsym
      have hflag0 : (match Stat fs (Join [paths.VersionPath v, "go".toList]) with
          | .error e => IsNotExist e
          | .ok _ => false) = false := by
        simpa using hflag
      have hflag1 := notExist_set_absent fs r (Node.link (Join [paths.VersionPath v,
        "go".toList])) _ hg hflag0
      rw [← hfs] at hflag1
      have hext : Ext fs fs3 := by
        rw [hfs]
        exact sub_toExt (sub_set_of_none fs r _ hg)
      have hres3 : resolve fs3 false paths.Current = .ok r :=
        resolve_ext hext false _ r (by simp) hres
      have hg3 : fs3.get r = some (Node.link (Join [paths.VersionPath v, "go".toList])) := by
        rw [hfs, get_set]
        simp [hr0]
      have hrem3 : Remove fs3 paths.Current = .ok fs := by
        unfold Remove
        rw [hres3]
        simp only [hr0, if_false, hg3]
        rw [hfs, erase_set_absent fs r _ hr0 hg]
      unfold SetCurrent
      simp only [hflag1, hrem3, hsym, Bool.false_eq_true, if_false]
      try exact if_neg (fun hc => Bool.false_ne_true (hflag1.symm.trans hc))

/-- Without an entry of the version in the catalog, `Download` fails before it
touches the file system. -/
theorem download_unavailable (w : World) (paths : Paths) (fs : FS) (v : GoString) (e : Err)
    (h : GetVersionInfo w.fetched v = .error e) :
    (Download w paths fs v).fs = fs ∧ (Download w paths fs v).err ≠ none := by
  have hu : GetDownloadURL w.fetched w.goos w.goarch v = .error e := by
    unfold GetDownloadURL
    rw [h]
  unfold Download
  rw [hu]
  simp

/-- C24, as stated, fails: with 1.21.0 installed and no version current, the
specifier gogo1.21.0 resolves to go1.21.0; `Manager.Use` finds 1.21.0 installed
inside `Install`, installs nothing, fails and leaves no version current, while
`Manager.QuietUse` downloads and unpacks a directory go1.21.0 and makes it
current. -/
theorem C24_counterexample :
    (Manager.Use (demoEnv DefaultConfig demoGoArchive) 3 demoInstalled "gogo1.21.0".toList).map
        (fun o => (o.err, o.log, IsInstalled demoPaths o.fs "go1.21.0".toList,
          GetCurrent demoPaths o.fs)) =
      some (some (Err.msg "version go1.21.0 is not installed"), [], false, ([], none)) ∧
    ((Manager.QuietUse (demoEnv DefaultConfig demoGoArchive) demoInstalled
        "gogo1.21.0".toList).err = none ∧
      IsInstalled demoPaths (Manager.QuietUse (demoEnv DefaultConfig demoGoArchive) demoInstalled
        "gogo1.21.0".toList).fs "go1.21.0".toList = true ∧
      GetCurrent demoPaths (Manager.QuietUse (demoEnv DefaultConfig demoGoArchive) demoInstalled
        "gogo1.21.0".toList).fs = ("go1.21.0".toList, none)) := by
  decide

/-- C24, amended: let the resolved version `v` of a specifier be unchanged by
`NormalizeVersion` and by a further `ResolveVersion`, and let the archive of
`v`, when it unpacks without error, provide the entrypoint go/bin/go.  Then
`Manager.Use` returns (one nested call of `Use` suffices), it leaves the same
file system as `Manager.QuietUse`, and it succeeds exactly when `QuietUse`
does. -/
theorem C24_use_matches_quiet_use (env : Env) (fs : FS) (spec v : GoString) (n : Nat)
    (hv : ResolveVersion env.cfg spec = v)
    (hnorm : NormalizeVersion v = v)
    (hres : ResolveVersion env.cfg v = v)
    (hentry : (Govm.Install env.untar env.paths (Download env.w env.paths fs v).fs
        (Download env.w env.paths fs v).path v).2 = none →
      IsInstalled env.paths (afterExtraction env fs v) v = true) :
    ∃ o, Manager.Use env (n + 2) fs spec = some o ∧
      o.fs = (Manager.QuietUse env fs spec).fs ∧
      (o.err = none ↔ (Manager.QuietUse env fs spec).err = none) := by
  unfold Manager.QuietUse
  rw [Manager.Use]
  simp only [hv]
  by_cases hin : IsInstalled env.paths fs v = true
  · simp only [hin, not_true_eq_false, if_false]
    exact ⟨_, rfl, rfl, Iff.rfl⟩
  · have hin0 : IsInstalled env.paths fs v = false := by simpa using hin
    simp only [hin0, Bool.false_eq_true, not_false_eq_true, if_true]
    by_cases hauto : env.cfg.AutoInstall = true
    · simp only [hauto, if_true]
      unfold Manager.InstallWith
      simp only [hnorm, hin0, Bool.false_eq_true, if_false]
      unfold IsVersionAvailable
      cases hgi : GetVersionInfo env.w.fetched v with
      | error e =>
        obtain ⟨hd1, hd2⟩ := download_unavailable env.w env.paths fs v e hgi
        simp only
        cases hde : (Download env.w env.paths fs v).err with
        | none => exact absurd hde hd2
        | some e1 =>
          simp only
          refine ⟨_, rfl, ?_, ?_⟩
          · simp only [hd1]
          · simp
      | ok info =>
        simp only
        unfold afterExtraction at hentry
        generalize Download env.w env.paths fs v = r at hentry ⊢
        cases hre : r.err with
        | some e1 =>
          simp only
          exact ⟨_, rfl, rfl, by simp⟩
        | none =>
          simp only
          rcases hinst : Govm.Install env.untar env.paths r.fs r.path v with ⟨fs2, e2⟩
          rw [hinst] at hentry
          cases e2 with
          | some e =>
            simp only
            exact ⟨_, rfl, rfl, by simp⟩
          | none =>
            simp only at hentry ⊢
            have hin2 : IsInstalled env.paths fs2 v = true := hentry trivial
            rcases hcur : GetCurrent env.paths fs2 with ⟨current, err⟩
            simp only
            by_cases hc : err = none ∧ current = []
            · have hcur2 : GetCurrent env.paths fs2 = ([], none) := by
                rw [hcur, hc.1, hc.2]
              have hnone := getCurrent_none hcur2
              simp only [hc, and_self, if_true]
              rw [Manager.Use]
              simp only [hres, hin2, not_true_eq_false, if_false]
              cases hs2 : (SetCurrent env.paths fs2 v).2 with
              | some e =>
                simp only [ne_eq, not_false_eq_true, if_true, reduceCtorEq]
                exact ⟨_, rfl, rfl, by simp [hs2]⟩
              | none =>
                have hset : SetCurrent env.paths fs2 v = ((SetCurrent env.paths fs2 v).1, none) := by
                  rw [← hs2]
                have hagain := setCurrent_again hnone hset
                simp only [ne_eq, not_true_eq_false, if_false, hagain]
                exact ⟨_, rfl, rfl, by simp⟩
            · simp only [hc, if_false]
              simp only [ne_eq, not_true_eq_false, if_false]
              exact ⟨_, rfl, rfl, Iff.rfl⟩
    · have hauto0 : env.cfg.AutoInstall = false := by simpa using hauto
      simp only [hauto0, Bool.false_eq_true, if_false]
      exact ⟨_, rfl, rfl, by simp⟩

theorem C24_use_matches_quiet_use_witness :
    ∃ o, Manager.Use (demoEnv DefaultConfig demoGoArchive) 2 demoFresh "1.21.0".toList = some o ∧
      o.fs = (Manager.QuietUse (demoEnv DefaultConfig demoGoArchive) demoFresh
        "1.21.0".toList).fs ∧
      (o.err = none ↔ (Manager.QuietUse (demoEnv DefaultConfig demoGoArchive) demoFresh
        "1.21.0".toList).err = none) :=
  C24_use_matches_quiet_use (demoEnv DefaultConfig demoGoArchive) demoFresh "1.21.0".toList
    "1.21.0".toList 0 (by decide) (by decide) (by decide) (by decide)

/-! ## Falling through to go.mod -/

/-- Proper names pass the element pass of `Clean` unchanged. -/
theorem cleanElems_names (rooted : Bool) :
    ∀ names st, (∀ x ∈ names, isElem x) →
      cleanElems rooted st names = st.reverse ++ names := by
  intro names
  induction names with
  | nil =>
    intro st _
    simp [cleanElems]
  | cons d ds ih =>
    intro st h
    have hd := h d (by simp)
    rw [cleanElems_cons_elem rooted st ds d (isElem_not_lead hd) hd.2.2.2,
      ih (d :: st) (fun x hx => h x (by simp [hx]))]
    simp

/-- The elements of a cleaned rooted path are proper names. -/
theorem cleanElems_rooted_names (cs : List GoString) (h : ∀ x ∈ cs, '/' ∉ x) :
    ∀ x ∈ cleanElems true [] cs, isElem x := by
  obtain ⟨j, names, hout, hj, hn⟩ := cleanElems_form true cs [] h ⟨0, [], by simp, by simp, by simp⟩
  have hj0 : j = 0 := hj rfl
  subst hj0
  rw [hout]
  simpa using hn

/-- Cleaning a cleaned rooted path changes nothing. -/
theorem Clean_rooted_idem (t : GoString) : Clean (Clean ('/' :: t)) = Clean ('/' :: t) := by
  rw [Clean_rooted t, Clean_rooted]
  have hn := cleanElems_rooted_names (splitSlash t) (splitSlash_slashFree t)
  generalize cleanElems true [] (splitSlash t) = out at hn
  by_cases hne : out = []
  · subst hne
    decide
  · rw [splitSlash_joinSlash out hne (fun x hx => (hn x hx).2.1), cleanElems_names true out [] hn]
    simp

/-- The parent of an absolute path is its own absolute form. -/
theorem Abs_Dir (fs : FS) (d : GoString) (h : isAbs d = true) : Abs fs (Dir d) = .ok (Dir d) := by
  have habs := (Dir_abs d h).1
  unfold Abs
  simp only [habs, if_true]
  cases d with
  | nil => simp [isAbs] at h
  | cons c t =>
    have hc : c = '/' := by simpa [isAbs] using h
    subst hc
    obtain ⟨t0, hq, _, _⟩ := dirPart_abs t
    have hd : Dir ('/' :: t) = Clean ('/' :: t0) := by
      unfold Dir
      rw [hq]
    rw [hd, Clean_rooted_idem]

/-- More rounds do not change the result of a search that has ended. -/
theorem searchUp_mono (fs : FS) :
    ∀ n d r, searchUp fs n d = some r → searchUp fs (n + 1) d = some r := by
  intro n
  induction n with
  | zero =>
    intro d r h
    simp [searchUp] at h
  | succ n ih =>
    intro d r h
    rw [searchUp] at h ⊢
    cases hw : manifestVersion fs (Join [d, "go.work".toList]) with
    | some v =>
      rw [hw] at h
      exact h
    | none =>
      rw [hw] at h
      simp only at h ⊢
      cases hm : manifestVersion fs (Join [d, "go.mod".toList]) with
      | some v =>
        rw [hm] at h
        exact h
      | none =>
        rw [hm] at h
        simp only at h ⊢
        by_cases hp : Dir d = d
        · simp only [hp, if_true] at h ⊢
          exact h
        · simp only [hp, if_false] at h ⊢
          exact ih _ _ h

theorem searchUp_mono_le (fs : FS) (d : GoString) (r : Except Err (GoString × GoString))
    (n m : Nat) (hnm : n ≤ m) (h : searchUp fs n d = some r) : searchUp fs m d = some r := by
  induction hnm with
  | refl => exact h
  | step _ ih => exact searchUp_mono fs _ d r ih

/-- The search from an absolute path ends within as many rounds as the path
has characters, and one more. -/
theorem searchUp_ends (fs : FS) :
    ∀ n d, isAbs d = true → d.length < n → ∃ r, searchUp fs n d = some r := by
  intro n
  induction n with
  | zero =>
    intro d _ h
    omega
  | succ n ih =>
    intro d habs hlen
    rw [searchUp]
    cases hw : manifestVersion fs (Join [d, "go.work".toList]) with
    | some v => exact ⟨_, rfl⟩
    | none =>
      simp only
      cases hm : manifestVersion fs (Join [d, "go.mod".toList]) with
      | some v => exact ⟨_, rfl⟩
      | none =>
        simp only
        by_cases hp : Dir d = d
        · simp only [hp, if_true]
          exact ⟨_, rfl⟩
        · simp only [hp, if_false]
          obtain ⟨habs2, hlt⟩ := Dir_abs d habs
          exact ih (Dir d) habs2 (by have := hlt hp; omega)

/-- C30: let no version be read from the go.work of a directory (the file
declares none, or cannot be read).  When the go.mod of the directory declares
the version `b`, `DetectVersionInDir` examining the directory and
`DetectVersion` starting in it both return `b` with the path of go.mod.  When
no version is read from go.mod either, `DetectVersionInDir` returns an error,
and `DetectVersion` returns what it returns for the parent directory, or an
error when the directory is its own parent. -/
theorem C30_falls_through_to_go_mod (fs : FS) (dir d : GoString)
    (hwork : manifestVersion fs (Join [d, "go.work".toList]) = none) :
    (∀ b, parseGoVersionFile fs (Join [d, "go.mod".toList]) = .ok b →
      (examinedDir fs dir = .ok d →
        DetectVersionInDir fs dir = .ok (b, Join [d, "go.mod".toList])) ∧
      (searchStart fs dir = .ok d →
        DetectVersion fs dir = .ok (b, Join [d, "go.mod".toList]))) ∧
    (manifestVersion fs (Join [d, "go.mod".toList]) = none →
      (examinedDir fs dir = .ok d →
        DetectVersionInDir fs dir =
          .error (Err.msg ("no go.mod or go.work found in " ++ String.mk d))) ∧
      (searchStart fs dir = .ok d →
        DetectVersion fs dir =
          if Dir d = d then .error (Err.msg "no go.mod or go.work found")
          else DetectVersion fs (Dir d))) := by
  constructor
  · intro b hmod
    replace hmod := (manifestVersion_iff fs _ b).mpr hmod
    constructor
    · intro hd
      unfold examinedDir at hd
      unfold DetectVersionInDir
      simp only [hd, hwork, hmod]
    · intro hs
      unfold searchStart examinedDir at hs
      unfold DetectVersion
      cases h1 : (if dir = [] then Getwd fs else Except.ok dir) with
      | error e => simp [h1] at hs
      | ok d1 =>
        rw [h1] at hs
        simp only at hs ⊢
        rw [hs]
        simp only
        have habs := Abs_isAbs hs
        rw [searchUp_found fs b (Join [d, "go.mod".toList]) 0 d _ habs (by omega)
          (fun j hj => by omega) (Or.inr ⟨hwork, hmod, rfl⟩)]
  · intro hmod
    constructor
    · intro hd
      unfold examinedDir at hd
      unfold DetectVersionInDir
      simp only [hd, hwork, hmod]
    · intro hs
      have habs : isAbs d = true := by
        unfold searchStart at hs
        split at hs
        · cases hs
        · exact Abs_isAbs hs
      have hrun : DetectVersion fs dir =
          match searchUp fs (d.length + 1) d with
          | some result => result
          | none => .error (Err.msg "search not finished") := by
        unfold searchStart examinedDir at hs
        unfold DetectVersion
        cases h1 : (if dir = [] then Getwd fs else Except.ok dir) with
        | error e => simp [h1] at hs
        | ok d1 =>
          rw [h1] at hs
          simp only at hs ⊢
          rw [hs]
          try rfl
      rw [hrun, searchUp]
      simp only [hwork, hmod]
      by_cases hp : Dir d = d
      · simp only [hp, if_true]
      · simp only [hp, if_false]
        obtain ⟨habs2, hlt⟩ := Dir_abs d habs
        have hlen := hlt hp
        have hne : Dir d ≠ [] := by
          intro h0
          rw [h0] at habs2
          simp [isAbs] at habs2
        obtain ⟨r, hr⟩ := searchUp_ends fs ((Dir d).length + 1) (Dir d) habs2 (by omega)
        have hr2 := searchUp_mono_le fs (Dir d) r _ d.length (by omega) hr
        unfold DetectVersion
        simp only [hne, if_false, Abs_Dir fs d habs, hr, hr2]

theorem C30_falls_through_to_go_mod_witness :
    (DetectVersionInDir demoFallthrough "/w".toList = .ok ("1.19".toList, "/w/go.mod".toList) ∧
      DetectVersion demoFallthrough "/w".toList = .ok ("1.19".toList, "/w/go.mod".toList)) ∧
    (DetectVersionInDir demoFallthrough [] =
        .error (Err.msg "no go.mod or go.work found in /w/a") ∧
      DetectVersion demoFallthrough [] = DetectVersion demoFallthrough "/w".toList) :=
  ⟨⟨((C30_falls_through_to_go_mod demoFallthrough "/w".toList "/w".toList (by decide)).1
        "1.19".toList (by decide)).1 (by decide),
      ((C30_falls_through_to_go_mod demoFallthrough "/w".toList "/w".toList (by decide)).1
        "1.19".toList (by decide)).2 (by decide)⟩,
    ⟨((C30_falls_through_to_go_mod demoFallthrough [] "/w/a".toList (by decide)).2
        (by decide)).1 (by decide),
      (((C30_falls_through_to_go_mod demoFallthrough [] "/w/a".toList (by decide)).2
        (by decide)).2 (by decide)).trans (if_neg (by decide))⟩⟩

/-! ## The line `parseGoVersionFile` reads the version from -/

theorem scanForVersion_cons (text : Bytes) (rest : List Bytes) :
    scanForVersion (text :: rest) =
      match lineVersion text with
      | some v => some v
      | none => scanForVersion rest := by
  rw [scanForVersion]
  unfold lineVersion
  simp only
  by_cases h : TrimSpace (bytesToString text) = [] ∨
      HasPrefix (TrimSpace (bytesToString text)) "//".toList = true
  · simp only [h, if_true]
  · simp only [h, if_false]
    try rfl

/-- The scanning loop returns what the first line that declares a version
declares. -/
theorem scanForVersion_iff (v : GoString) :
    ∀ lines, scanForVersion lines = some v ↔
      ∃ pre text rest, lines = pre ++ text :: rest ∧ (∀ t ∈ pre, lineVersion t = none) ∧
        lineVersion text = some v := by
  intro lines
  induction lines with
  | nil =>
    constructor
    · intro h
      simp [scanForVersion] at h
    · rintro ⟨pre, text, rest, h, _⟩
      simp at h
  | cons x xs ih =>
    rw [scanForVersion_cons]
    cases hx : lineVersion x with
    | some w =>
      simp only
      constructor
      · intro h
        injection h with h
        exact ⟨[], x, xs, rfl, by simp, by rw [hx, h]⟩
      · rintro ⟨pre, text, rest, h, hpre, ht⟩
        cases pre with
        | nil =>
          simp only [List.nil_append] at h
          injection h with h1 h2
          rw [← h1, hx] at ht
          exact ht
        | cons p ps =>
          simp only [List.cons_append] at h
          injection h with h1 h2
          have := hpre p (by simp)
          rw [← h1, hx] at this
          cases this
    | none =>
      simp only
      rw [ih]
      constructor
      · rintro ⟨pre, text, rest, h, hpre, ht⟩
        refine ⟨x :: pre, text, rest, by rw [h]; rfl, ?_, ht⟩
        intro t ht2
        rcases List.mem_cons.mp ht2 with h1 | h1
        · rw [h1]; exact hx
        · exact hpre t h1
      · rintro ⟨pre, text, rest, h, hpre, ht⟩
        cases pre with
        | nil =>
          simp only [List.nil_append] at h
          injection h with h1 h2
          rw [← h1, hx] at ht
          cases ht
        | cons p ps =>
          simp only [List.cons_append] at h
          injection h with h1 h2
          exact ⟨ps, text, rest, h2, fun t ht2 => hpre t (by simp [ht2]), ht⟩

theorem scanForVersion_none :
    ∀ lines, (∀ t ∈ lines, lineVersion t = none) → scanForVersion lines = none := by
  intro lines
  induction lines with
  | nil =>
    intro _
    rfl
  | cons x xs ih =>
    intro h
    rw [scanForVersion_cons, h x (by simp)]
    exact ih (fun t ht => h t (by simp [ht]))

/-- The scanner yields nothing from a first line that does not fit its
buffer. -/
theorem scanLines_too_long (n : Nat) (data : Bytes)
    (h : maxScanTokenSize ≤ (data.takeWhile (fun b => b ≠ 10)).length) :
    scanLines n data = [] := by
  cases n with
  | zero => rfl
  | succ n =>
    rw [scanLines]
    simp only [h, if_true, ite_self]

theorem takeWhile_replicate_line (k : Nat) (rest : Bytes) :
    (List.replicate k 120 ++ 10 :: rest).takeWhile (fun b => decide (b ≠ 10)) =
      List.replicate k 120 := by
  induction k with
  | zero => simp [List.takeWhile]
  | succ k ih =>
    rw [List.replicate_succ, List.cons_append, List.takeWhile_cons]
    simp only [ih]
    simp

/-! ### The form of a captured version -/

theorem splitDot_digits (d : GoString) (h : ∀ c ∈ d, isReDigit c = true) : splitDot d = [d] := by
  induction d with
  | nil => rfl
  | cons c cs ih =>
    have hc : c ≠ '.' := by
      intro h0
      have := h c (by simp)
      rw [h0] at this
      exact absurd this (by decide)
    rw [splitDot]
    simp only [hc, if_false, ih (fun x hx => h x (by simp [hx]))]

theorem splitDot_append_dot (d r : GoString) (h : ∀ c ∈ d, isReDigit c = true) :
    splitDot (d ++ '.' :: r) = d :: splitDot r := by
  induction d with
  | nil =>
    rw [List.nil_append, splitDot]
    simp
  | cons c cs ih =>
    have hc : c ≠ '.' := by
      intro h0
      have := h c (by simp)
      rw [h0] at this
      exact absurd this (by decide)
    rw [List.cons_append, splitDot]
    simp only [hc, if_false, ih (fun x hx => h x (by simp [hx]))]

theorem takeWhile_digits (r : GoString) : ∀ c ∈ r.takeWhile isReDigit, isReDigit c = true := by
  intro c hc
  exact (List.mem_takeWhile_imp hc)

theorem isVersionForm_two (d1 d2 : GoString) (h1 : d1 ≠ []) (h2 : d2 ≠ [])
    (g1 : ∀ c ∈ d1, isReDigit c = true) (g2 : ∀ c ∈ d2, isReDigit c = true) :
    isVersionForm (d1 ++ '.' :: d2) = true := by
  unfold isVersionForm
  rw [splitDot_append_dot d1 d2 g1, splitDot_digits d2 g2]
  simp [h1, h2, List.all_eq_true]
  exact ⟨g1, g2⟩

theorem isVersionForm_three (d1 d2 d3 : GoString) (h1 : d1 ≠ []) (h2 : d2 ≠ []) (h3 : d3 ≠ [])
    (g1 : ∀ c ∈ d1, isReDigit c = true) (g2 : ∀ c ∈ d2, isReDigit c = true)
    (g3 : ∀ c ∈ d3, isReDigit c = true) :
    isVersionForm (d1 ++ '.' :: d2 ++ '.' :: d3) = true := by
  unfold isVersionForm
  rw [List.append_assoc, List.cons_append, splitDot_append_dot d1 _ g1,
    splitDot_append_dot d2 d3 g2, splitDot_digits d3 g3]
  simp [h1, h2, h3, List.all_eq_true]
  exact ⟨g1, g2, g3⟩

theorem matchGoVersion_form {line v : GoString} (h : matchGoVersion line = some v) :
    isVersionForm v = true := by
  unfold matchGoVersion at h
  simp only at h
  split at h
  · cases h
  · split at h
    · cases h
    · split at h
      · cases h
      · rename_i hd1
        split at h
        · split at h
          · cases h
          · rename_i hd2
            split at h
            · split at h
              · injection h with h
                rw [← h]
                exact isVersionForm_two _ _ hd1 hd2 (takeWhile_digits _) (takeWhile_digits _)
              · rename_i hd3
                injection h with h
                rw [← h]
                exact isVersionForm_three _ _ _ hd1 hd2 hd3 (takeWhile_digits _)
                  (takeWhile_digits _) (takeWhile_digits _)
            · injection h with h
              rw [← h]
              exact isVersionForm_two _ _ hd1 hd2 (takeWhile_digits _) (takeWhile_digits _)
        · cases h

theorem lineVersion_form {text : Bytes} {v : GoString} (h : lineVersion text = some v) :
    isVersionForm v = true := by
  unfold lineVersion at h
  simp only at h
  split at h
  · cases h
  · exact matchGoVersion_form h

theorem parseGoVersionFile_scan (fs : FS) (path : GoString) (data : Bytes)
    (h : Stat fs path = .ok (Node.file data)) :
    parseGoVersionFile fs path =
      match scanForVersion (scanLines data.length data) with
      | some v => .ok v
      | none => .error (Err.msg ("no go version found in " ++ String.mk path)) := by
  unfold parseGoVersionFile
  rw [h]
  try rfl

/-- C26, as stated, fails: the go.mod of `demoLongFile` has a first line of
65536 letters and the second line "go 1.21", which declares the version 1.21,
and `parseGoVersionFile` finds no version in it. -/
theorem C26_counterexample :
    Stat demoLongFile "/w/go.mod".toList = .ok (Node.file demoLongLine) ∧
      demoLongLine = List.replicate 65536 120 ++ 10 :: demoText "go 1.21\n" ∧
      lineVersion (demoText "go 1.21") = some "1.21".toList ∧
      parseGoVersionFile demoLongFile "/w/go.mod".toList =
        .error (Err.msg "no go version found in /w/go.mod") := by
  have hstat : Stat demoLongFile "/w/go.mod".toList = .ok (Node.file demoLongLine) := rfl
  refine ⟨hstat, rfl, by decide, ?_⟩
  rw [parseGoVersionFile_scan _ _ _ hstat, scanLines_too_long]
  · rfl
  · unfold demoLongLine
    rw [takeWhile_replicate_line, List.length_replicate]
    decide

/-- C26, amended: `parseGoVersionFile` returns the version `v` exactly when
the path leads to a file and, among the lines the scanner yields from it (the
lines before the first one of 65536 bytes or more), the first line that after
trimming is non-empty, does not start with "//" and matches the pattern
captures `v`; lines after it are not looked at.  It returns an error when no
yielded line is such a line, and every version it returns consists of two or
three decimal numbers separated by dots. -/
theorem C26_first_scanned_line (fs : FS) (path v : GoString) :
    (parseGoVersionFile fs path = .ok v ↔
      ∃ data pre text rest, Stat fs path = .ok (Node.file data) ∧
        scanLines data.length data = pre ++ text :: rest ∧
        (∀ t ∈ pre, lineVersion t = none) ∧ lineVersion text = some v) ∧
    ((∀ data, Stat fs path = .ok (Node.file data) →
        ∀ t ∈ scanLines data.length data, lineVersion t = none) →
      ∃ e, parseGoVersionFile fs path = .error e) ∧
    (parseGoVersionFile fs path = .ok v → isVersionForm v = true) := by
  have hiff : parseGoVersionFile fs path = .ok v ↔
      ∃ data pre text rest, Stat fs path = .ok (Node.file data) ∧
        scanLines data.length data = pre ++ text :: rest ∧
        (∀ t ∈ pre, lineVersion t = none) ∧ lineVersion text = some v := by
    constructor
    · intro h
      unfold parseGoVersionFile at h
      split at h
      · cases h
      · rename_i data hst
        split at h
        · rename_i w hw
          injection h with h
          rw [h] at hw
          obtain ⟨pre, text, rest, h1, h2, h3⟩ := (scanForVersion_iff v _).mp hw
          exact ⟨data, pre, text, rest, hst, h1, h2, h3⟩
        · cases h
      · cases h
    · rintro ⟨data, pre, text, rest, hst, h1, h2, h3⟩
      rw [parseGoVersionFile_scan fs path data hst,
        (scanForVersion_iff v _).mpr ⟨pre, text, rest, h1, h2, h3⟩]
  refine ⟨hiff, ?_, ?_⟩
  · intro hnone
    unfold parseGoVersionFile
    split
    · exact ⟨_, rfl⟩
    · rename_i data hst
      rw [scanForVersion_none _ (hnone data hst)]
      exact ⟨_, rfl⟩
    · exact ⟨_, rfl⟩
  · intro h
    obtain ⟨_, _, _, _, _, _, _, h3⟩ := hiff.mp h
    exact lineVersion_form h3

theorem C26_first_scanned_line_witness :
    parseGoVersionFile demoProject "/w/go.mod".toList = .ok "1.19".toList ∧
      isVersionForm "1.19".toList = true :=
  ⟨(C26_first_scanned_line demoProject "/w/go.mod".toList "1.19".toList).1.mpr
      ⟨demoText "module example.com/m\n\ngo 1.19\n",
        [demoText "module example.com/m", []], demoText "go 1.19", [],
        by decide, by decide, by decide, by decide⟩,
    (C26_first_scanned_line demoProject "/w/go.mod".toList "1.19".toList).2.2 (by decide)⟩

/-! ## The order `sortVersionsDesc` sorts by -/

theorem stringLess_nil_right (a : GoString) : stringLess a [] = false := by
  cases a <;> rfl

theorem stringLess_cons_cons (a b : Char) (s t : GoString) :
    stringLess (a :: s) (b :: t) =
      if a.toNat < b.toNat then true
      else if b.toNat < a.toNat then false
      else stringLess s t := by
  rw [stringLess]

theorem stringLess_irrefl (a : GoString) : stringLess a a = false := by
  induction a with
  | nil => rfl
  | cons c cs ih =>
    rw [stringLess_cons_cons]
    simp only [Nat.lt_irrefl, if_false, ih]

theorem stringLess_asymm : ∀ a b, stringLess a b = true → stringLess b a = false := by
  intro a
  induction a with
  | nil =>
    intro b _
    exact stringLess_nil_right b
  | cons c cs ih =>
    intro b h
    cases b with
    | nil => simp [stringLess] at h
    | cons d ds =>
      rw [stringLess_cons_cons] at h ⊢
      by_cases h1 : c.toNat < d.toNat
      · have h2 : ¬ d.toNat < c.toNat := by omega
        simp only [h2, h1, if_false, if_true]
      · simp only [h1, if_false] at h
        by_cases h2 : d.toNat < c.toNat
        · simp only [h2, if_true] at h
          cases h
        · simp only [h2, if_false] at h
          simp only [h1, h2, if_false]
          exact ih ds h

theorem stringLess_trans :
    ∀ a b c, stringLess a b = true → stringLess b c = true → stringLess a c = true := by
  intro a
  induction a with
  | nil =>
    intro b c h1 h2
    cases c with
    | nil => rw [stringLess_nil_right] at h2; cases h2
    | cons e es => rfl
  | cons x xs ih =>
    intro b c h1 h2
    cases b with
    | nil => rw [stringLess_nil_right] at h1; cases h1
    | cons y ys =>
      cases c with
      | nil => rw [stringLess_nil_right] at h2; cases h2
      | cons z zs =>
        rw [stringLess_cons_cons] at h1 h2 ⊢
        by_cases p1 : x.toNat < y.toNat
        · by_cases p2 : y.toNat < z.toNat
          · have : x.toNat < z.toNat := by omega
            simp only [this, if_true]
          · simp only [p2, if_false] at h2
            by_cases p3 : z.toNat < y.toNat
            · simp only [p3, if_true] at h2
              cases h2
            · have : x.toNat < z.toNat := by omega
              simp only [this, if_true]
        · simp only [p1, if_false] at h1
          by_cases q1 : y.toNat < x.toNat
          · simp only [q1, if_true] at h1
            cases h1
          · simp only [q1, if_false] at h1
            by_cases p2 : y.toNat < z.toNat
            · have : x.toNat < z.toNat := by omega
              simp only [this, if_true]
            · simp only [p2, if_false] at h2
              by_cases p3 : z.toNat < y.toNat
              · simp only [p3, if_true] at h2
                cases h2
              · simp only [p3, if_false] at h2
                have a1 : ¬ x.toNat < z.toNat := by omega
                have a2 : ¬ z.toNat < x.toNat := by omega
                simp only [a1, a2, if_false]
                exact ih ys zs h1 h2

theorem stringLess_negtrans :
    ∀ a b c, stringLess a b = false → stringLess b c = false → stringLess a c = false := by
  intro a
  induction a with
  | nil =>
    intro b c h1 h2
    cases b with
    | nil => exact h2
    | cons y ys => cases h1
  | cons x xs ih =>
    intro b c h1 h2
    cases c with
    | nil => rfl
    | cons z zs =>
      cases b with
      | nil => cases h2
      | cons y ys =>
        rw [stringLess_cons_cons] at h1 h2 ⊢
        by_cases p1 : x.toNat < y.toNat
        · simp only [p1, if_true] at h1
          cases h1
        · simp only [p1, if_false] at h1
          by_cases p2 : y.toNat < z.toNat
          · simp only [p2, if_true] at h2
            cases h2
          · simp only [p2, if_false] at h2
            by_cases q1 : y.toNat < x.toNat
            · have a1 : ¬ x.toNat < z.toNat := by omega
              have a2 : z.toNat < x.toNat := by omega
              simp only [a1, a2, if_false, if_true]
            · simp only [q1, if_false] at h1
              by_cases q2 : z.toNat < y.toNat
              · have a1 : ¬ x.toNat < z.toNat := by omega
                have a2 : z.toNat < x.toNat := by omega
                simp only [a1, a2, if_false, if_true]
              · simp only [q2, if_false] at h2
                have a1 : ¬ x.toNat < z.toNat := by omega
                have a2 : ¬ z.toNat < x.toNat := by omega
                simp only [a1, a2, if_false]
                exact ih ys zs h1 h2

/-- With a string that does not parse, the comparison is the one of the
strings. -/
theorem versionLess_unparsed (lib : Libs) (a b : GoString)
    (h : lib.NewVersion a = none ∨ lib.NewVersion b = none) :
    versionLess lib a b = stringLess b a := by
  unfold versionLess
  rcases h with h | h
  · rw [h]
  · rw [h]
    cases lib.NewVersion a <;> rfl

/-- Of three strings of which at most one parses, every two hold one that
does not parse. -/
theorem parse_cases (lib : Libs) (a b c : GoString)
    (h : ([a, b, c].filter (fun s => (lib.NewVersion s).isSome)).length ≤ 1) :
    (lib.NewVersion a = none ∨ lib.NewVersion b = none) ∧
      (lib.NewVersion b = none ∨ lib.NewVersion c = none) ∧
      (lib.NewVersion a = none ∨ lib.NewVersion c = none) := by
  cases ha : lib.NewVersion a <;> cases hb : lib.NewVersion b <;> cases hc : lib.NewVersion c <;>
    simp [List.filter, ha, hb, hc] at h ⊢

/-- C28, as stated, fails, on mixed lists and on lists that all parse.  With
the first sample library, 1.21.10 is newer than 1.21.9 as a version, 1.21.9 is
newer than the string 1.21.5_, which does not parse, as a string, and 1.21.10
is not newer than 1.21.5_: as strings it is the other way round.  With a
library that compares pre-releases as hashicorp/go-version does, the three
pre-releases 5.4.0-alpha.beta, 5.4.0-alpha.1 and 5.4.0-alpha all parse and are
newer than one another in a circle. -/
theorem C28_counterexample :
    ((demoLibs.NewVersion "1.21.5_".toList).isSome = false ∧
      versionLess demoLibs "1.21.10".toList "1.21.9".toList = true ∧
      versionLess demoLibs "1.21.9".toList "1.21.5_".toList = true ∧
      versionLess demoLibs "1.21.10".toList "1.21.5_".toList = false ∧
      versionLess demoLibs "1.21.5_".toList "1.21.10".toList = true) ∧
    (allParse demoPreLibs demoPreCatalog ∧
      versionLess demoPreLibs "5.4.0-alpha.beta".toList "5.4.0-alpha.1".toList = true ∧
      versionLess demoPreLibs "5.4.0-alpha.1".toList "5.4.0-alpha".toList = true ∧
      versionLess demoPreLibs "5.4.0-alpha.beta".toList "5.4.0-alpha".toList = false ∧
      versionLess demoPreLibs "5.4.0-alpha".toList "5.4.0-alpha.beta".toList = true) := by
  decide

/-- C28, amended: the relation `sortVersionsDesc` sorts by is the comparison
of the strings as soon as one of the two does not parse, and the comparison
of the library when both parse.  On any three strings of which at most one
parses it is asymmetric and transitive, and so is its complement; it is
irreflexive on every string that does not parse; and it is asymmetric on all
strings when the comparison of the library is asymmetric. -/
theorem C28_newer_than_order (lib : Libs) (a b c : GoString) :
    ((lib.NewVersion a = none ∨ lib.NewVersion b = none) →
      versionLess lib a b = stringLess b a) ∧
    (∀ x y, lib.NewVersion a = some x → lib.NewVersion b = some y →
      versionLess lib a b = lib.GreaterThan x y) ∧
    (([a, b, c].filter (fun s => (lib.NewVersion s).isSome)).length ≤ 1 →
      (versionLess lib a b = true → versionLess lib b a = false) ∧
      (versionLess lib a b = true → versionLess lib b c = true → versionLess lib a c = true) ∧
      (versionLess lib a b = false → versionLess lib b c = false →
        versionLess lib a c = false)) ∧
    (lib.NewVersion a = none → versionLess lib a a = false) ∧
    ((∀ x y, lib.GreaterThan x y = true → lib.GreaterThan y x = false) →
      versionLess lib a a = false ∧
      (versionLess lib a b = true → versionLess lib b a = false)) := by
  refine ⟨versionLess_unparsed lib a b, fun x y ha hb => versionLess_parsed lib ha hb, ?_, ?_, ?_⟩
  · intro hcount
    obtain ⟨hab, hbc, hac⟩ := parse_cases lib a b c hcount
    rw [versionLess_unparsed lib a b hab, versionLess_unparsed lib b c hbc,
      versionLess_unparsed lib a c hac, versionLess_unparsed lib b a (Or.symm hab)]
    refine ⟨?_, ?_, ?_⟩
    · intro h
      exact stringLess_asymm _ _ h
    · intro h1 h2
      exact stringLess_trans c b a h2 h1
    · intro h1 h2
      exact stringLess_negtrans c b a h2 h1
  · intro ha
    rw [versionLess_unparsed lib a a (Or.inl ha)]
    exact stringLess_irrefl a
  · intro hlib
    have hasym : ∀ s t, versionLess lib s t = true → versionLess lib t s = false := by
      intro s t h
      cases hs : lib.NewVersion s with
      | none =>
        rw [versionLess_unparsed lib s t (Or.inl hs)] at h
        rw [versionLess_unparsed lib t s (Or.inr hs)]
        exact stringLess_asymm _ _ h
      | some x =>
        cases ht : lib.NewVersion t with
        | none =>
          rw [versionLess_unparsed lib s t (Or.inr ht)] at h
          rw [versionLess_unparsed lib t s (Or.inl ht)]
          exact stringLess_asymm _ _ h
        | some y =>
          rw [versionLess_parsed lib hs ht] at h
          rw [versionLess_parsed lib ht hs]
          exact hlib x y h
    refine ⟨?_, hasym a b⟩
    cases h : versionLess lib a a with
    | false => rfl
    | true =>
      have := hasym a a h
      rw [h] at this
      cases this

theorem C28_newer_than_order_witness :
    versionLess demoLibs "1.21.5_".toList "1.21.5".toList = true ∧
      versionLess demoLibs "1.21.5_".toList "1.21.5_".toList = false ∧
      versionLess demoLibs "1.21.x".toList "1.21.5".toList = true :=
  ⟨((C28_newer_than_order demoLibs "1.21.5_".toList "1.21.5".toList "1.21.5".toList).1
      (Or.inl (by rfl))).trans (by decide),
    (C28_newer_than_order demoLibs "1.21.5_".toList "1.21.5".toList "1.21.5".toList).2.2.2.1
      (by rfl),
    ((C28_newer_than_order demoLibs "1.21.x".toList "1.21.5_".toList "1.21.5".toList).2.2.1
      (by decide)).2.1 (by decide) (by decide)⟩

/-! ## The path test of `extractTarGz` -/

/-- The element pass of `Clean` over two lists in a row. -/
theorem cleanElems_append (rooted : Bool) :
    ∀ A st B, cleanElems rooted st (A ++ B) =
      cleanElems rooted (cleanElems rooted st A).reverse B := by
  intro A
  induction A with
  | nil =>
    intro st B
    simp [cleanElems]
  | cons d ds ih =>
    intro st B
    rw [List.cons_append]
    by_cases hd : d = [] ∨ d = ".".toList
    · rw [cleanElems_cons_skip _ _ _ _ hd, cleanElems_cons_skip _ _ _ _ hd]
      exact ih st B
    · by_cases hdd : d = "..".toList
      · subst hdd
        cases st with
        | nil =>
          rw [cleanElems_cons_dotdot_nil, cleanElems_cons_dotdot_nil]
          cases rooted
          · exact ih _ B
          · exact ih _ B
        | cons top below =>
          rw [cleanElems_cons_dotdot_cons, cleanElems_cons_dotdot_cons]
          by_cases ht : top = "..".toList
          · rw [if_pos ht, if_pos ht]; exact ih _ B
          · rw [if_neg ht, if_neg ht]; exact ih _ B
      · rw [cleanElems_cons_elem _ _ _ _ hd hdd, cleanElems_cons_elem _ _ _ _ hd hdd]
        exact ih _ B

theorem cleanForm_elems {rooted : Bool} {out : List GoString} (h : CleanForm rooted out) :
    ∀ x ∈ out, x ≠ [] ∧ '/' ∉ x ∧ x ≠ ".".toList := by
  obtain ⟨j, names, hout, _, hn⟩ := h
  intro x hx
  rw [hout] at hx
  rcases List.mem_append.mp hx with h1 | h1
  · rw [List.eq_of_mem_replicate h1]
    decide
  · exact ⟨(hn x h1).1, (hn x h1).2.1, (hn x h1).2.2.1⟩

theorem cleanElems_cleanForm (rooted : Bool) (s : GoString) :
    CleanForm rooted (cleanElems rooted [] (splitSlash s)) :=
  cleanElems_form rooted (splitSlash s) [] (splitSlash_slashFree s) ⟨0, [], by simp, by simp, by simp⟩

theorem joinSlash_append (A B : List GoString) (hA : A ≠ []) (hB : B ≠ []) :
    joinSlash (A ++ B) = joinSlash A ++ '/' :: joinSlash B := by
  induction A with
  | nil => exact absurd rfl hA
  | cons a as ih =>
    cases as with
    | nil =>
      cases B with
      | nil => exact absurd rfl hB
      | cons b bs => simp [joinSlash]
    | cons a2 as2 =>
      have := ih (by simp)
      simp only [List.cons_append] at this ⊢
      simp [joinSlash, this]

theorem joinSlash_ne_nil (R : List GoString) (hR : R ≠ []) (h : ∀ x ∈ R, x ≠ []) :
    joinSlash R ≠ [] := by
  cases R with
  | nil => exact absurd rfl hR
  | cons x xs =>
    have hx := h x (by simp)
    cases xs with
    | nil => simpa [joinSlash] using hx
    | cons y ys => simp [joinSlash, hx]

/-- The test on the joined strings is the test on the element lists. -/
theorem hasPrefix_joinSlash (R E : List GoString) (hR : R ≠ [])
    (hRs : ∀ x ∈ R, '/' ∉ x) (hEs : ∀ x ∈ E, '/' ∉ x) :
    HasPrefix (joinSlash E) (joinSlash R ++ ['/']) = true ↔ ∃ x rest, E = R ++ x :: rest := by
  unfold HasPrefix
  rw [List.isPrefixOf_iff_prefix]
  constructor
  · rintro ⟨t, ht⟩
    have hE : E ≠ [] := by
      intro h0
      rw [h0] at ht
      simp [joinSlash] at ht
    have h1 := splitSlash_joinSlash E hE hEs
    rw [← ht, List.append_assoc, List.singleton_append, splitSlash_append_slash,
      splitSlash_joinSlash R hR hRs] at h1
    cases hsp : splitSlash t with
    | nil => exact absurd hsp (splitSlash_ne_nil t)
    | cons x rest =>
      rw [hsp] at h1
      exact ⟨x, rest, h1.symm⟩
  · rintro ⟨x, rest, h⟩
    rw [h, joinSlash_append R (x :: rest) hR (by simp)]
    exact ⟨joinSlash (x :: rest), by simp⟩

theorem pathElems_joinSlash (out : List GoString) (hne : out ≠ [])
    (h : ∀ x ∈ out, x ≠ [] ∧ '/' ∉ x ∧ x ≠ ".".toList) : pathElems (joinSlash out) = out := by
  unfold pathElems
  rw [splitSlash_joinSlash out hne (fun x hx => (h x hx).2.1)]
  apply List.filter_eq_self.mpr
  intro x hx
  have := h x hx
  exact decide_eq_true ⟨this.1, this.2.2⟩

theorem pathElems_rooted (out : List GoString)
    (h : ∀ x ∈ out, x ≠ [] ∧ '/' ∉ x ∧ x ≠ ".".toList) :
    pathElems ('/' :: joinSlash out) = out := by
  by_cases hne : out = []
  · subst hne
    decide
  · have := pathElems_joinSlash out hne h
    unfold pathElems at this ⊢
    have hsp : splitSlash ('/' :: joinSlash out) = [] :: splitSlash (joinSlash out) := by
      simp [splitSlash]
    rw [hsp, List.filter_cons]
    simpa using this

/-- In a list of ".." elements followed by names, nothing after a name is
"..". -/
theorem dotdot_not_after (d : GoString) :
    ∀ (j : Nat) (names pre : List GoString) (c : GoString) (rest : List GoString),
      List.replicate j d ++ names = pre ++ c :: rest → c ≠ d → (∀ x ∈ names, x ≠ d) →
      d ∉ rest := by
  intro j
  induction j with
  | zero =>
    intro names pre c rest h _ hn hm
    simp only [List.replicate_zero, List.nil_append] at h
    exact hn d (by rw [h]; simp [hm]) rfl
  | succ j ih =>
    intro names pre c rest h hc hn
    rw [List.replicate_succ, List.cons_append] at h
    cases pre with
    | nil =>
      simp only [List.nil_append] at h
      injection h with h1 _
      exact absurd h1.symm hc
    | cons p ps =>
      simp only [List.cons_append] at h
      injection h with _ h2
      exact ih names ps c rest h2 hc hn

theorem Clean_abs (s : GoString) (h : s.head? = some '/') :
    Clean s = '/' :: joinSlash (cleanElems true [] (splitSlash s)) := by
  have hs : s ≠ [] := by
    intro h0
    rw [h0] at h
    cases h
  unfold Clean
  simp only [hs, if_false, h, decide_True, if_true]

theorem Clean_rel (s : GoString) (hs : s ≠ []) (h : s.head? ≠ some '/') :
    Clean s =
      if cleanElems false [] (splitSlash s) = [] then ".".toList
      else joinSlash (cleanElems false [] (splitSlash s)) := by
  unfold Clean
  simp only [hs, if_false, h, decide_False]

theorem isAbs_joinSlash (R : List GoString) (hR : R ≠ [])
    (h : ∀ x ∈ R, x ≠ [] ∧ '/' ∉ x ∧ x ≠ ".".toList) : isAbs (joinSlash R) = false := by
  cases R with
  | nil => exact absurd rfl hR
  | cons x xs =>
    obtain ⟨hx, hs, _⟩ := h x (by simp)
    cases x with
    | nil => exact absurd rfl hx
    | cons a as =>
      have ha : a ≠ '/' := fun e => hs (by simp [e])
      cases xs with
      | nil => simp [joinSlash, isAbs, ha]
      | cons y ys => simp [joinSlash, isAbs, ha]

/-- The relation `strictlyBelow` on two cleaned paths of the same kind, in
terms of their elements, when the root ends in a proper name. -/
theorem strictlyBelow_iff (rooted : Bool) (root target : GoString) (R0 R E : List GoString)
    (c : GoString) (hc : isElem c) (hR : R = R0 ++ [c]) (hE : CleanForm rooted E)
    (hroot : pathElems root = R) (htarget : pathElems target = E)
    (habs : isAbs root = isAbs target) :
    strictlyBelow root target = true ↔ ∃ x rest, E = R ++ x :: rest := by
  unfold strictlyBelow
  rw [hroot, htarget, decide_eq_true_iff]
  constructor
  · rintro ⟨_, hp, hd, _⟩
    obtain ⟨t, ht⟩ := List.isPrefixOf_iff_prefix.mp hp
    rw [← ht, List.drop_left] at hd
    cases t with
    | nil => exact absurd rfl hd
    | cons x rest => exact ⟨x, rest, ht.symm⟩
  · rintro ⟨x, rest, h⟩
    refine ⟨habs, ?_, ?_, ?_⟩
    · rw [h]
      exact List.isPrefixOf_iff_prefix.mpr ⟨x :: rest, rfl⟩
    · rw [h, List.drop_left]
      simp
    · rw [h, List.drop_left]
      obtain ⟨j, names, hout, _, hn⟩ := hE
      rw [hout, hR, List.append_assoc, List.singleton_append] at h
      exact dotdot_not_after "..".toList j names R0 c (x :: rest) h hc.2.2.2
        (fun y hy => (hn y hy).2.2.2)

theorem last_of_cons {α : Type} (a : α) (R pre : List α) (c : α) (h : a :: R = pre ++ [c])
    (hR : R ≠ []) : ∃ R0, R = R0 ++ [c] := by
  cases pre with
  | nil =>
    simp only [List.nil_append] at h
    injection h with _ h2
    exact absurd h2 hR
  | cons p ps =>
    simp only [List.cons_append] at h
    injection h with _ h2
    exact ⟨ps, h2⟩

/-- For an extraction root that ends in a proper name, the path test of
`extractTarGz` holds exactly for the paths strictly below the root. -/
theorem pathTest_iff (dest name : GoString) (hroot : namedPath (Clean dest)) :
    HasPrefix (Join [dest, name]) (Clean dest ++ "/".toList) =
      strictlyBelow (Clean dest) (Join [dest, name]) := by
  obtain ⟨c, hc, hend⟩ := hroot
  have hd : dest ≠ [] := by
    intro h0
    subst h0
    have h1 : Clean [] = ".".toList := by decide
    rw [h1] at hend
    rcases hend with h | ⟨pre, h⟩
    · exact hc.2.2.1 h.symm
    · cases pre with
      | nil => simp at h
      | cons p ps =>
        cases ps <;> simp at h
  obtain ⟨pre, hpre⟩ := endsIn_split hend hc.2.1
  have hjoin : Join [dest, name] = Clean (dest ++ '/' :: name) := by
    rw [Join_cons_ne dest [name] hd]
    rfl
  have hhead : (dest ++ '/' :: name).head? = dest.head? := by
    cases dest with
    | nil => exact absurd rfl hd
    | cons a as => rfl
  have hne2 : dest ++ '/' :: name ≠ [] := by simp
  have hslash : "/".toList = ['/'] := rfl
  rw [hjoin, hslash]
  apply Bool.eq_iff_iff.mpr
  by_cases hr : dest.head? = some '/'
  · have hE := cleanElems_cleanForm true (dest ++ '/' :: name)
    have hRf := cleanElems_cleanForm true dest
    have h1 := Clean_abs dest hr
    have h2 := Clean_abs (dest ++ '/' :: name) (hhead.trans hr)
    generalize cleanElems true [] (splitSlash (dest ++ '/' :: name)) = E at hE h2
    generalize cleanElems true [] (splitSlash dest) = R at hRf h1
    rw [h1] at hpre ⊢
    rw [h2]
    have hRe := cleanForm_elems hRf
    have hEe := cleanForm_elems hE
    have hRne : R ≠ [] := by
      intro h0
      subst h0
      have h3 : splitSlash ('/' :: joinSlash []) = [[], []] := by decide
      rw [h3] at hpre
      cases pre with
      | nil => simp at hpre
      | cons p ps =>
        cases ps with
        | nil =>
          simp only [List.cons_append, List.nil_append] at hpre
          injection hpre with _ h4
          injection h4 with h5 _
          exact hc.1 h5.symm
        | cons q qs =>
          cases qs <;> simp at hpre
    have hsp : splitSlash ('/' :: joinSlash R) = [] :: R := by
      have : splitSlash ('/' :: joinSlash R) = [] :: splitSlash (joinSlash R) := by
        simp [splitSlash]
      rw [this, splitSlash_joinSlash R hRne (fun x hx => (hRe x hx).2.1)]
    rw [hsp] at hpre
    obtain ⟨R0, hR0⟩ := last_of_cons [] R pre c hpre hRne
    have hpfx : HasPrefix ('/' :: joinSlash E) ('/' :: joinSlash R ++ ['/']) =
        HasPrefix (joinSlash E) (joinSlash R ++ ['/']) := by
      simp [HasPrefix, List.isPrefixOf]
    rw [hpfx, hasPrefix_joinSlash R E hRne (fun x hx => (hRe x hx).2.1)
      (fun x hx => (hEe x hx).2.1)]
    exact (strictlyBelow_iff true _ _ R0 R E c hc hR0 hE (pathElems_rooted R hRe)
      (pathElems_rooted E hEe) rfl).symm
  · have hE := cleanElems_cleanForm false (dest ++ '/' :: name)
    have hRf := cleanElems_cleanForm false dest
    have h1 := Clean_rel dest hd hr
    have h2 := Clean_rel (dest ++ '/' :: name) hne2 (by rw [hhead]; exact hr)
    generalize cleanElems false [] (splitSlash (dest ++ '/' :: name)) = E at hE h2
    generalize cleanElems false [] (splitSlash dest) = R at hRf h1
    have hRe := cleanForm_elems hRf
    have hEe := cleanForm_elems hE
    have hRne : R ≠ [] := by
      intro h0
      subst h0
      simp only [if_true] at h1
      rw [h1] at hpre
      have h3 : splitSlash ".".toList = [".".toList] := by decide
      rw [h3] at hpre
      cases pre with
      | nil =>
        simp only [List.nil_append] at hpre
        injection hpre with h5 _
        exact hc.2.2.1 h5.symm
      | cons p ps =>
        cases ps <;> simp at hpre
    rw [if_neg hRne] at h1
    rw [h1] at hpre ⊢
    rw [splitSlash_joinSlash R hRne (fun x hx => (hRe x hx).2.1)] at hpre
    have hR0 : ∃ R0, R = R0 ++ [c] := ⟨pre, hpre⟩
    obtain ⟨R0, hR0⟩ := hR0
    have habsR := isAbs_joinSlash R hRne hRe
    by_cases hEne : E = []
    · subst hEne
      simp only [if_true] at h2
      rw [h2]
      have hlhs : HasPrefix ".".toList (joinSlash R ++ ['/']) = false := by
        unfold HasPrefix
        cases hj : joinSlash R with
        | nil => exact absurd hj (joinSlash_ne_nil R hRne (fun x hx => (hRe x hx).1))
        | cons a as =>
          cases as <;> simp [List.isPrefixOf]
      rw [hlhs]
      have := strictlyBelow_iff false (joinSlash R) ".".toList R0 R [] c hc hR0 hE
        (pathElems_joinSlash R hRne hRe) (by decide) (by rw [habsR]; rfl)
      constructor
      · intro h
        cases h
      · intro h
        obtain ⟨x, rest, h4⟩ := this.mp h
        simp at h4
    · rw [if_neg hEne] at h2
      rw [h2, hasPrefix_joinSlash R E hRne (fun x hx => (hRe x hx).2.1)
        (fun x hx => (hEe x hx).2.1)]
      exact (strictlyBelow_iff false _ _ R0 R E c hc hR0 hE (pathElems_joinSlash R hRne hRe)
        (pathElems_joinSlash E hEne hEe)
        (by rw [habsR, isAbs_joinSlash E hEne hEe])).symm

/-- An entry name that leads to the root itself adds nothing to the root. -/
theorem Clean_join_root (dest name : GoString) (hd : dest ≠ []) (h : namesRoot name) :
    Clean (dest ++ '/' :: name) = Clean dest := by
  have hsk : ∀ rooted st, cleanElems rooted st (splitSlash name) = st.reverse := by
    intro rooted st
    rcases h with h | h | h
    · subst h
      have : splitSlash [] = [[]] := rfl
      rw [this, cleanElems_cons_skip _ _ _ _ (Or.inl rfl)]
      simp [cleanElems]
    · subst h
      have : splitSlash ".".toList = [".".toList] := by decide
      rw [this, cleanElems_cons_skip _ _ _ _ (Or.inr rfl)]
      simp [cleanElems]
    · subst h
      have : splitSlash "./".toList = [".".toList, []] := by decide
      rw [this, cleanElems_cons_skip _ _ _ _ (Or.inr rfl),
        cleanElems_cons_skip _ _ _ _ (Or.inl rfl)]
      simp [cleanElems]
  have hhead : (dest ++ '/' :: name).head? = dest.head? := by
    cases dest with
    | nil => exact absurd rfl hd
    | cons a as => rfl
  have hne2 : dest ++ '/' :: name ≠ [] := by simp
  unfold Clean
  simp only [hd, hne2, if_false, hhead, splitSlash_append_slash, cleanElems_append, hsk,
    List.reverse_reverse]

theorem not_prefix_longer (X : GoString) (c : Char) : HasPrefix X (X ++ [c]) = false := by
  unfold HasPrefix
  cases h : (X ++ [c]).isPrefixOf X with
  | false => rfl
  | true =>
    have := (List.isPrefixOf_iff_prefix.mp h).length_le
    simp at this

/-- An entry name that leads to the root itself fails the path test, whatever
the root is. -/
theorem namesRoot_escapes (dest name : GoString) (h : namesRoot name) :
    escapesRoot dest name := by
  unfold escapesRoot
  by_cases hd : dest = []
  · subst hd
    rcases h with h | h | h <;> subst h <;> decide
  · have hjoin : Join [dest, name] = Clean (dest ++ '/' :: name) := by
      rw [Join_cons_ne dest [name] hd]
      rfl
    rw [hjoin, Clean_join_root dest name hd h]
    exact not_prefix_longer _ _

/-- The entries `extractTarGz` rejects as invalid paths are those that fail
the path test. -/
theorem extractEntry_invalid_iff (fs : FS) (dest : GoString) (header : Header) :
    extractEntry fs dest header = (fs, some (invalidPath header.Name)) ↔
      HasPrefix (Join [dest, header.Name]) (Clean dest ++ "/".toList) = false := by
  constructor
  · intro h
    cases ht : HasPrefix (Join [dest, header.Name]) (Clean dest ++ "/".toList) with
    | false => rfl
    | true =>
      exfalso
      unfold extractEntry at h
      simp only [ht, not_true_eq_false, if_false] at h
      split at h <;> (try split at h) <;> (try split at h) <;> simp [invalidPath] at h
  · intro h
    unfold extractEntry
    simp only [h, Bool.false_eq_true, not_false_eq_true, if_true]
    rfl

theorem install_escape (untar : Bytes → Except Err Archive) (paths : Paths) (fs : FS)
    (archivePath version : GoString)
    (h : ∀ bytes archive, untar bytes = .ok archive →
      ∃ e ∈ archive.entries, escapesRoot (paths.VersionPath version) e.Name) :
    (Install untar paths fs archivePath version).2 ≠ none := by
  unfold Install
  simp only
  rcases h1 : RemoveAll fs (paths.VersionPath version) with ⟨fs1, e1⟩
  cases e1 with
  | some e => simp
  | none =>
    simp only
    rcases h2 : MkdirAll fs1 (paths.VersionPath version) with ⟨fs2, e2⟩
    cases e2 with
    | some e => simp
    | none =>
      simp only
      rcases h3 : extractTarGz untar fs2 archivePath (paths.VersionPath version) with ⟨fs3, e3⟩
      cases e3 with
      | some e => simp
      | none =>
        exfalso
        unfold extractTarGz at h3
        cases hr : ReadFile fs2 archivePath with
        | error e => simp [hr] at h3
        | ok bytes =>
          simp only [hr] at h3
          cases hu : untar bytes with
          | error e => simp [hu] at h3
          | ok archive =>
            simp only [hu] at h3
            have hx := extractEntries_escape (paths.VersionPath version) archive.damaged
              archive.entries fs2 (h bytes archive hu)
            rw [h3] at hx
            exact hx rfl

/-- C29, as stated, fails for an extraction root that does not end in a proper
name.  With the root "/" and with the root "." the entry go/bin/go lies
strictly below the root and is rejected as an invalid path.  With the root ".."
the entry ../evil passes the test and is written, and its path ../../evil does
not lie below the root. -/
theorem C29_counterexample :
    (strictlyBelow (Clean "/".toList) (Join ["/".toList, "go/bin/go".toList]) = true ∧
      extractEntry demoInstalled "/".toList ⟨"go/bin/go".toList, Typeflag.TypeReg, [], 493, [7]⟩ =
        (demoInstalled, some (invalidPath "go/bin/go".toList))) ∧
    (strictlyBelow (Clean ".".toList) (Join [".".toList, "go/bin/go".toList]) = true ∧
      extractEntry demoInstalled ".".toList ⟨"go/bin/go".toList, Typeflag.TypeReg, [], 493, [7]⟩ =
        (demoInstalled, some (invalidPath "go/bin/go".toList))) ∧
    (strictlyBelow (Clean "..".toList) (Join ["..".toList, "../evil".toList]) = false ∧
      (extractEntry demoProject "..".toList
        ⟨"../evil".toList, Typeflag.TypeReg, [], 420, [6]⟩).2 = none ∧
      Stat (extractEntry demoProject "..".toList
        ⟨"../evil".toList, Typeflag.TypeReg, [], 420, [6]⟩).1 "/w/evil".toList =
        .ok (Node.file [6])) := by
  decide

/-- C29, amended: for an extraction root whose cleaned form ends in a proper
name (it is not "/", "." or a chain of ".."), `extractTarGz` rejects an entry
as an invalid path exactly when the joined path does not lie strictly below
the cleaned root, so an entry whose path lies strictly below the root passes
the test.  For every root, an entry named ".", "./" or "" is rejected as an
invalid path, and `Install` returns an error whenever the archive holds such
an entry. -/
theorem C29_entry_accepted_iff (fs : FS) (destPath : GoString) (header : Header)
    (hroot : namedPath (Clean destPath)) :
    (extractEntry fs destPath header = (fs, some (invalidPath header.Name)) ↔
      strictlyBelow (Clean destPath) (Join [destPath, header.Name]) = false) ∧
    (∀ root : GoString, namesRoot header.Name →
      extractEntry fs root header = (fs, some (invalidPath header.Name))) ∧
    (∀ (untar : Bytes → Except Err Archive) (paths : Paths) (fs0 : FS)
        (archivePath version : GoString),
      (∀ bytes archive, untar bytes = .ok archive →
        ∃ e ∈ archive.entries, namesRoot e.Name) →
      (Install untar paths fs0 archivePath version).2 ≠ none) := by
  refine ⟨?_, ?_, ?_⟩
  · rw [extractEntry_invalid_iff, pathTest_iff destPath header.Name hroot]
  · intro root h
    exact (extractEntry_invalid_iff fs root header).mpr (namesRoot_escapes root header.Name h)
  · intro untar paths fs0 archivePath version h
    apply install_escape
    intro bytes archive hu
    obtain ⟨e, he, hn⟩ := h bytes archive hu
    exact ⟨e, he, namesRoot_escapes _ _ hn⟩

theorem C29_entry_accepted_iff_witness :
    strictlyBelow (Clean "/r/versions/1.21.0".toList)
        (Join ["/r/versions/1.21.0".toList, "go/bin/go".toList]) = true ∧
      extractEntry demoInstalled "/r/versions/1.21.0".toList
          ⟨"go/bin/go".toList, Typeflag.TypeReg, [], 493, [7]⟩ ≠
        (demoInstalled, some (invalidPath "go/bin/go".toList)) ∧
      extractEntry demoInstalled "/r/versions/1.21.0".toList
          ⟨"./".toList, Typeflag.TypeDir, [], 493, []⟩ =
        (demoInstalled, some (invalidPath "./".toList)) ∧
      (Install (fun _ => .ok demoDotArchive) demoPaths demoInstalled
        "/r/cache/go1.21.0.tar.gz".toList "1.21.0".toList).2 ≠ none :=
  ⟨by decide,
    fun h => absurd ((C29_entry_accepted_iff demoInstalled "/r/versions/1.21.0".toList
      ⟨"go/bin/go".toList, Typeflag.TypeReg, [], 493, [7]⟩
      ⟨"1.21.0".toList, by decide, Or.inr ⟨"/r/versions".toList, by decide⟩⟩).1.mp h) (by decide),
    (C29_entry_accepted_iff demoInstalled "/r/versions/1.21.0".toList
      ⟨"./".toList, Typeflag.TypeDir, [], 493, []⟩
      ⟨"1.21.0".toList, by decide, Or.inr ⟨"/r/versions".toList, by decide⟩⟩).2.1
      "/r/versions/1.21.0".toList (by decide),
    (C29_entry_accepted_iff demoInstalled "/r/versions/1.21.0".toList
      ⟨"./".toList, Typeflag.TypeDir, [], 493, []⟩
      ⟨"1.21.0".toList, by decide, Or.inr ⟨"/r/versions".toList, by decide⟩⟩).2.2
      (fun _ => .ok demoDotArchive) demoPaths demoInstalled "/r/cache/go1.21.0.tar.gz".toList
      "1.21.0".toList (fun _ archive hu => by
        injection hu with hu
        subst hu
        exact ⟨⟨"./".toList, Typeflag.TypeDir, [], 493, []⟩, by decide, by decide⟩)⟩

end Govm
